import Mathlib

/-!
# Verification development for the WikiLearn meta-translations engine

Shallow embedding of the translation mapping & synchronization engine of
`openedx_wikilearn_features/meta_translations`:

* the fetch ("pull") revision-gating logic of
  `management/commands/sync_translated_strings_to_edx_from_meta.py`
  (`Command._check_and_update_translations`),
* the cascade reset of `utils.reset_fetched_translation_and_version_history`
  and `models.CourseBlockData.update_base_block_data`,
* the content transformers of `transformers/wiki_transformer.py`
  (`ProblemTransformer`, `VideoTranscriptTransformer`),
* the mapping resolution of `models.WikiTranslation.create_translation_mapping`
  and `mapping/utils.map_translated_course_block`,
* the approval flow of
  `api/v0/serializers.CourseBlockTranslationSerializer.update`,
* the translated-status check of `utils.is_block_translated`,
* the sequential-with-delay push scheduling of
  `management/commands/sync_untranslated_strings_to_meta_from_edx.py`.

Django querysets are embedded as Lean lists of rows, JSON dictionaries as
association lists (in insertion order, with Python `dict.update` semantics),
and Python truthiness is made explicit wherever the code branches on it.
-/

namespace MetaTranslations

/-! ## Python dictionary / truthiness primitives

JSON objects (`jsonfield` values, `json.loads` results, response payloads) are
embedded as association lists in insertion order.  `dictGet` is Python
`d.get(k)` (returns `none` when the key is absent), `dictUpdate` is
`d.update({k: v})` (overwrites in place, or appends a new key at the end).
-/

/-- Python `d.get(k)` on an association list: `none` when absent. -/
def dictGet {α : Type} (m : List (String × α)) (k : String) : Option α :=
  (m.find? (fun p => p.1 == k)).map (fun p => p.2)

/-- Python `d.update({k: v})`: overwrite the value in place if the key exists,
otherwise append the new binding at the end (insertion order preserved). -/
def dictUpdate {α : Type} (m : List (String × α)) (k : String) (v : α) :
    List (String × α) :=
  if m.any (fun p => p.1 == k) then
    m.map (fun p => if p.1 == k then (k, v) else p)
  else
    m ++ [(k, v)]

/-- Membership test mirroring Python `k in d`. -/
def dictHasKey {α : Type} (m : List (String × α)) (k : String) : Bool :=
  m.any (fun p => p.1 == k)

/-- Python truthiness of an optional string (`None` and `""` are falsy). -/
def pyTruthyStr : Option String → Bool
  | none => false
  | some s => s ≠ ""

/-- Python truthiness of an optional integer (`None` and `0` are falsy).
Revision identifiers coming back from the meta server are JSON numbers
(possibly `null`), embedded as `Option Int`. -/
def pyTruthyInt : Option Int → Bool
  | none => false
  | some n => n ≠ 0

/-! ## Plugin settings (`settings/common.py`)

`DATA_TYPES_WITH_PARCED_KEYS` and the key set of `TRANSFORMER_CLASS_MAPPING`
are the closed lists configured by `plugin_settings`. -/

/-- `settings.DATA_TYPES_WITH_PARCED_KEYS = ['content', 'transcript']`. -/
def DATA_TYPES_WITH_PARCED_KEYS : List String := ["content", "transcript"]

/-- The key set of `settings.TRANSFORMER_CLASS_MAPPING =
{'problem': ProblemTransformer, 'video': VideoTranscriptTransformer}`. -/
def TRANSFORMER_CLASS_MAPPING_KEYS : List String := ["problem", "video"]

/-- `WikiTranslation.is_translation_contains_parsed_keys(block_type, data_type)`
(`models.py`): true iff the block type has a registered transformer and the
data type is one of the parsed-key data types. -/
def is_translation_contains_parsed_keys (blockType dataType : String) : Bool :=
  blockType ∈ TRANSFORMER_CLASS_MAPPING_KEYS &&
    dataType ∈ DATA_TYPES_WITH_PARCED_KEYS

/-! ## Stored translation values

A `WikiTranslation.translation` column is a nullable text field that holds
either a flat string or the `json.dumps` of a sub-key → sub-value object.
We embed the text field by its parsed content: `TransText.str` for flat
strings, `TransText.map` for JSON-encoded objects (identified with their
`json.loads`; JSON object values may be `null`, hence `Option String`). -/

inductive TransText where
  | str (s : String)
  | map (m : List (String × Option String))
deriving Repr, DecidableEq

/-- Python truthiness of the raw `translation` text column: `None` is falsy,
`""` is falsy, and any JSON dump of an object (even `"{}"`) is a non-empty
string, hence truthy. -/
def pyTruthyTransText : Option TransText → Bool
  | none => false
  | some (.str s) => s ≠ ""
  | some (.map _) => true

/-- `json.loads` of a stored translation that holds a JSON object.  Flat
strings never reach this point in the code paths we verify (rows of parsed
data types always store JSON dumps); for them we return the empty object. -/
def loadsMap : TransText → List (String × Option String)
  | .str _ => []
  | .map m => m

/-- The flat-string reading of a stored translation (rows of non-parsed data
types always store flat strings). -/
def asFlatString : TransText → String
  | .str s => s
  | .map _ => ""

/-! ## Fetch responses (`sync_translated_strings_to_edx_from_meta.py`)

One record of `response_data` per key: `response_data[key]['translation']`,
`response_data[key]['properties']['status']` and
`...['properties']['revision']`.  A missing key yields `{}`, whose nested
`.get` chains all produce `None`. -/

structure KeyResponse where
  translation : Option String
  status : Option String
  revision : Option Int
deriving Repr, DecidableEq

/-- `response_data.get(key, {})` with the nested `.get('properties', {})`
chains collapsed: a missing key yields a record whose fields are all `None`. -/
def responseGet (rd : List (String × KeyResponse)) (k : String) : KeyResponse :=
  match (rd.find? (fun p => p.1 == k)) with
  | some p => p.2
  | none => ⟨none, none, none⟩

/-- `translated_status = set(['translated', 'proofread'])` membership. -/
def statusTranslated (st : Option String) : Bool :=
  st == some "translated" || st == some "proofread"

/-- The stored `fetched_commits` JSON object: sub-key → revision id (or
`null`).  `existing_commits.get(key)` flattens an absent key and a stored
`null` to `None`. -/
def commitsGet (m : List (String × Option Int)) (k : String) : Option Int :=
  match m.find? (fun p => p.1 == k) with
  | some p => p.2
  | none => none

/-- State of one `WikiTranslation` row as touched by the fetch command. -/
structure LinkFetchState where
  translation : Option TransText
  approved : Bool
  approvedBy : Option Nat
  lastFetched : Option Nat
  fetchedCommits : Option (List (String × Option Int))
deriving Repr, DecidableEq

/-- Python truthiness of the `fetched_commits` jsonfield: `None` and the
empty object are falsy. -/
def pyTruthyCommits : Option (List (String × Option Int)) → Bool
  | none => false
  | some m => m ≠ []

/-- `Command._update_translations_in_db`: store the new translation text and
commits, clear approval and approver, stamp `last_fetched = now`. -/
def update_translations_in_db (st : LinkFetchState) (tr : TransText)
    (commits : List (String × Option Int)) (now : Nat) : LinkFetchState :=
  { st with
      translation := some tr
      approved := false
      approvedBy := none
      lastFetched := some now
      fetchedCommits := some commits }

/-- The per-key loop of the commit-comparison branch of
`Command._check_and_update_translations` (`for key, value in
source_block_data.parsed_keys.items(): ...`).  The accumulator carries the
mutating `existing_translation` / `existing_commits` dictionaries and the
`is_any_key_updated` flag.  The gate is the source expression

`if key_response.get('properties', {}).get('status') in translated_status and
not existing_commits.get(key) or (key_commit and key_commit !=
existing_commits.get(key)):`

which by Python precedence is `(status ok and no truthy stored commit) or
(truthy fetched commit and fetched commit != stored commit)`. -/
def compareCommitsLoop (parsedKeys : List (String × String))
    (responseData : List (String × KeyResponse))
    (existingTranslation : List (String × Option String))
    (existingCommits : List (String × Option Int)) :
    List (String × Option String) × List (String × Option Int) × Bool :=
  parsedKeys.foldl
    (fun acc kv =>
      let (tr, commits, updated) := acc
      let keyResponse := responseGet responseData kv.1
      let keyCommit := keyResponse.revision
      if (statusTranslated keyResponse.status && !pyTruthyInt (commitsGet commits kv.1))
          || (pyTruthyInt keyCommit && keyCommit != commitsGet commits kv.1) then
        (dictUpdate tr kv.1 keyResponse.translation,
         dictUpdate commits kv.1 keyCommit,
         true)
      else
        (tr, commits, updated))
    (existingTranslation, existingCommits, false)

/-- The per-key loop of the first-fetch branch (no stored translation /
timestamp / commits): collect keys whose status is translated or proofread. -/
def firstFetchLoop (parsedKeys : List (String × String))
    (responseData : List (String × KeyResponse)) :
    List (String × Option String) × List (String × Option Int) :=
  parsedKeys.foldl
    (fun acc kv =>
      let (tr, commits) := acc
      let keyResponse := responseGet responseData kv.1
      if statusTranslated keyResponse.status then
        (dictUpdate tr kv.1 keyResponse.translation,
         dictUpdate commits kv.1 keyResponse.revision)
      else
        (tr, commits))
    ([], [])

/-- `Command._check_and_update_translations` restricted to a single
`WikiTranslation` row whose source block data has parsed keys
(`source_block_data.parsed_keys` truthy).  Mirrors both branches:

* first-fetch branch when `not obj.translation or not obj.last_fetched or
  not obj.fetched_commits` (Python truthiness on the three columns);
* commit-comparison branch otherwise, ending either in
  `_update_translations_in_db` (some key updated) or in a bare
  `last_fetched` refresh. -/
def check_and_update_parsed (st : LinkFetchState)
    (parsedKeys : List (String × String))
    (responseData : List (String × KeyResponse)) (now : Nat) : LinkFetchState :=
  if !pyTruthyTransText st.translation || st.lastFetched.isNone
      || !pyTruthyCommits st.fetchedCommits then
    let (translatedData, fetchedCommits) := firstFetchLoop parsedKeys responseData
    if translatedData ≠ [] then
      update_translations_in_db st (.map translatedData) fetchedCommits now
    else
      st
  else
    let existingTranslation := loadsMap ((st.translation).getD (.str ""))
    let existingCommits := (st.fetchedCommits).getD []
    let (tr, commits, anyUpdated) :=
      compareCommitsLoop parsedKeys responseData existingTranslation existingCommits
    if anyUpdated then
      update_translations_in_db st (.map tr) commits now
    else
      { st with lastFetched := some now }

/-- `Command._check_and_update_translations` restricted to a single row whose
source block data is flat (no parsed keys); the single key compared is the
source data type. -/
def check_and_update_flat (st : LinkFetchState) (dataType : String)
    (responseData : List (String × KeyResponse)) (now : Nat) : LinkFetchState :=
  if !pyTruthyTransText st.translation || st.lastFetched.isNone
      || !pyTruthyCommits st.fetchedCommits then
    let keyResponse := responseGet responseData dataType
    if statusTranslated keyResponse.status then
      { st with
          translation := (keyResponse.translation).map .str
          approved := false
          approvedBy := none
          lastFetched := some now
          fetchedCommits := some (dictUpdate [] dataType keyResponse.revision) }
    else
      st
  else
    let existingCommits := (st.fetchedCommits).getD []
    let keyResponse := responseGet responseData dataType
    let keyCommit := keyResponse.revision
    if (statusTranslated keyResponse.status && !pyTruthyInt (commitsGet existingCommits dataType))
        || (pyTruthyInt keyCommit && keyCommit != commitsGet existingCommits dataType) then
      { st with
          translation := (keyResponse.translation).map .str
          approved := false
          approvedBy := none
          lastFetched := some now
          fetchedCommits := some (dictUpdate existingCommits dataType keyCommit) }
    else
      { st with lastFetched := some now }

/-! ## The translation state store (`models.py`)

Rows of the four core tables, embedded as Lean structures; querysets become
list filters.  `CourseBlock.block_id` is globally unique and is used as the
foreign key for `CourseBlockData.course_block` and
`WikiTranslation.target_block`; `CourseBlockData.id` is the surrogate primary
key referenced by `WikiTranslation.source_block_data`. -/

inductive DirectionFlag where
  | source
  | destination
deriving Repr, DecidableEq

structure CourseBlockRow where
  blockId : String
  parentId : Option String
  blockType : String
  courseId : String
  directionFlag : DirectionFlag
  lang : List String
  appliedTranslation : Bool
  appliedVersion : Option Nat
  translated : Bool
  deleted : Bool
deriving Repr, DecidableEq

structure CourseBlockDataRow where
  id : Nat
  courseBlock : String
  dataType : String
  data : String
  parsedKeys : Option (List (String × String))
  contentUpdated : Bool
  mappingUpdated : Bool
deriving Repr, DecidableEq

structure WikiTranslationRow where
  targetBlock : String
  sourceBlockData : Nat
  translation : Option TransText
  approved : Bool
  approvedBy : Option Nat
  lastFetched : Option Nat
  fetchedCommits : Option (List (String × Option Int))
deriving Repr, DecidableEq

/-- A value of a `TranslationVersion.data` snapshot: `CourseBlock.get_snapshot`
stores `json.loads(translation)` for parsed data types and the raw translation
column for flat ones. -/
inductive SnapVal where
  | parsed (m : List (String × Option String))
  | flat (s : Option String)
deriving Repr, DecidableEq

structure TranslationVersionRow where
  id : Nat
  blockId : String
  date : Nat
  data : List (String × SnapVal)
  approvedBy : Option Nat
deriving Repr, DecidableEq

structure Store where
  blocks : List CourseBlockRow
  blockData : List CourseBlockDataRow
  links : List WikiTranslationRow
  versions : List TranslationVersionRow
deriving Repr, DecidableEq

/-- `utils.reset_fetched_translation_and_version_history(base_course_block_data)`:
for every `WikiTranslation` whose source is the given block data row, clear the
translation text and the approved flag, clear the target block's
`applied_version` / `applied_translation` / `translated` flags, and delete all
`TranslationVersion` rows of the target block.  (The loop body mutates each
matching row once; the per-row mutations commute, so the loop is embedded as a
simultaneous map over the tables.) -/
def reset_fetched_translation_and_version_history (s : Store) (dataId : Nat) :
    Store :=
  let targets :=
    (s.links.filter (fun l => l.sourceBlockData == dataId)).map
      (fun l => l.targetBlock)
  { s with
      links := s.links.map (fun l =>
        if l.sourceBlockData == dataId then
          { l with translation := none, approved := false }
        else l)
      blocks := s.blocks.map (fun b =>
        if targets.contains b.blockId then
          { b with appliedVersion := none, appliedTranslation := false,
                   translated := false }
        else b)
      versions := s.versions.filter (fun v => !targets.contains v.blockId) }

/-- `CourseBlock.get_parsed_data(data_type, data)`: run the registered
transformer's `raw_data_to_meta_data` when both the data type and the block
type are configured, otherwise `None`.  The transformer call itself (lxml /
json parsing of the raw string) is abstracted by `rawToMeta` (block type and
raw data to unit map). -/
def get_parsed_data (rawToMeta : String → String → List (String × String))
    (blockType dataType data : String) : Option (List (String × String)) :=
  if dataType ∈ DATA_TYPES_WITH_PARCED_KEYS &&
      blockType ∈ TRANSFORMER_CLASS_MAPPING_KEYS then
    some (rawToMeta blockType data)
  else
    none

/-- `CourseBlockData.update_base_block_data(block_id, data_type, updated_data)`:
look up the data row (returning unchanged on `DoesNotExist`), overwrite its
raw data, recompute parsed keys, set `content_updated = True`, then run
`reset_fetched_translation_and_version_history` on it. -/
def update_base_block_data (rawToMeta : String → String → List (String × String))
    (s : Store) (blockId dataType updatedData : String) : Store :=
  match s.blockData.find? (fun d =>
      d.courseBlock == blockId && d.dataType == dataType) with
  | none => s
  | some row =>
    let blockType :=
      (((s.blocks.find? (fun b => b.blockId == row.courseBlock)).map
        (fun b => b.blockType))).getD ""
    let s1 := { s with blockData := s.blockData.map (fun d =>
      if d.id == row.id then
        { d with data := updatedData
                 parsedKeys := get_parsed_data rawToMeta blockType dataType updatedData
                 contentUpdated := true }
      else d) }
    reset_fetched_translation_and_version_history s1 row.id

/-! ## Translated-status checks (`utils.py`) -/

/-- `utils.validate_translations(data)` (default `is_json=False`) applied to
the nullable translation text column: `None` becomes `''`. -/
def validate_translations_flat : Option TransText → String
  | none => ""
  | some t => asFlatString t

/-- `utils.validate_translations(data, is_json=True)`:
`json.loads(data) if data else {}` (Python truthiness on the text column). -/
def validate_translations_json (t : Option TransText) :
    List (String × Option String) :=
  if pyTruthyTransText t then loadsMap (t.getD (.str "")) else []

/-- `utils.validated_and_sort_translated_decodings(base, translated)`: walk the
base decomposition's keys; a key absent from the translated decodings (or
present with JSON `null`, both of which make Python `.get(key) == None` true)
marks the result invalid and contributes `''`. -/
def validated_and_sort_translated_decodings (base : List (String × String))
    (translated : List (String × Option String)) :
    Bool × List (String × String) :=
  base.foldl
    (fun acc kv =>
      let (isValid, sorted) := acc
      match dictGet translated kv.1 with
      | none => (false, dictUpdate sorted kv.1 "")
      | some none => (false, dictUpdate sorted kv.1 "")
      | some (some v) => (isValid, dictUpdate sorted kv.1 v))
    (true, [])

/-- The join a `WikiTranslation` row presents to `utils.is_block_translated`:
the source row's data type and parsed keys together with the stored
translation. -/
structure LinkView where
  dataType : String
  parsedKeys : Option (List (String × String))
  translation : Option TransText
deriving Repr, DecidableEq

/-- The `wikitranslation_set` of a block joined with its source block data. -/
def linkViews (s : Store) (blockId : String) : List LinkView :=
  (s.links.filter (fun l => l.targetBlock == blockId)).map (fun l =>
    match s.blockData.find? (fun d => d.id == l.sourceBlockData) with
    | some d => ⟨d.dataType, d.parsedKeys, l.translation⟩
    | none => ⟨"", none, l.translation⟩)

/-- `utils.is_block_translated(block)`: start from `bool(len(wiki_translations))`
and conjoin, per link, either the parsed-decoding validity check or the
non-empty flat translation check.  (`base_decodings if base_decodings else {}`
collapses `None` and the empty object to `{}`, embedded by `getD []`.) -/
def is_block_translated (blockType : String) (links : List LinkView) : Bool :=
  let isTranslated := links.length != 0
  links.foldl
    (fun acc obj =>
      if is_translation_contains_parsed_keys blockType obj.dataType then
        let baseDecodings := (obj.parsedKeys).getD []
        let translatedDecodings := validate_translations_json obj.translation
        let (isValid, _) :=
          validated_and_sort_translated_decodings baseDecodings translatedDecodings
        acc && isValid
      else
        acc && (validate_translations_flat obj.translation != ""))
    isTranslated

/-! ## Approval (`api/v0/serializers.CourseBlockTranslationSerializer`) -/

/-- `CourseBlock.is_translations_approved`:
`all(existing_mappings.values_list("approved", flat=True))` — note that the
Python `all` of an empty queryset is `True`. -/
def is_translations_approved (links : List WikiTranslationRow) : Bool :=
  links.all (fun l => l.approved)

/-- `CourseBlock.get_snapshot`: merged data-type → value dictionary over the
block's links; parsed data types contribute `json.loads(translation)` (or `{}`
when the column is falsy), flat ones the raw translation column. -/
def get_snapshot (blockType : String) (views : List LinkView) :
    List (String × SnapVal) :=
  views.foldl
    (fun snap v =>
      if v.dataType ∈ DATA_TYPES_WITH_PARCED_KEYS &&
          blockType ∈ TRANSFORMER_CLASS_MAPPING_KEYS then
        dictUpdate snap v.dataType (.parsed (validate_translations_json v.translation))
      else
        dictUpdate snap v.dataType (.flat (v.translation.map asFlatString)))
    []

/-- Auto-increment id for a new `TranslationVersion` row. -/
def freshVersionId (s : Store) : Nat :=
  (s.versions.map (fun v => v.id)).foldl max 0 + 1

/-- `CourseBlockTranslationSerializer.update(instance, validated_data)` for a
block instance: raise `ValidationError` when the block's links are all
approved and approval is requested again; otherwise stamp `approved` /
`approved_by` on every link of the block, and when approving, create a
`TranslationVersion` of the snapshot (`CourseBlock.create_translated_version`)
and — only when `update_edx_block_from_version` succeeds in writing the live
block (the modulestore write is abstracted by `applySucceeds`) — set
`applied_translation = True` and point `applied_version` at the new version. -/
def approveBlock (s : Store) (blockId : String) (approvedArg : Bool)
    (user : Option Nat) (now : Nat) (applySucceeds : Bool) :
    Except String Store :=
  let blockLinks := s.links.filter (fun l => l.targetBlock == blockId)
  if is_translations_approved blockLinks && approvedArg then
    .error ("block " ++ blockId ++ " is already approved")
  else
    let s1 := { s with links := s.links.map (fun l =>
      if l.targetBlock == blockId then
        { l with approved := approvedArg, approvedBy := user }
      else l) }
    if approvedArg then
      let blockType :=
        (((s1.blocks.find? (fun b => b.blockId == blockId)).map
          (fun b => b.blockType))).getD ""
      let snapshot := get_snapshot blockType (linkViews s1 blockId)
      let vid := freshVersionId s1
      let s2 := { s1 with versions :=
        s1.versions ++ [⟨vid, blockId, now, snapshot, user⟩] }
      if applySucceeds then
        .ok { s2 with blocks := s2.blocks.map (fun b =>
          if b.blockId == blockId then
            { b with appliedTranslation := true, appliedVersion := some vid }
          else b) }
      else
        .ok s2
    else
      .ok s1

/-! ## Mapping creation (`models.WikiTranslation.create_translation_mapping`,
`mapping/utils.map_translated_course_block`) -/

/-- Result of a Django `queryset.get(...)`: `DoesNotExist`, a unique row, or
`MultipleObjectsReturned`. -/
inductive GetResult (α : Type) where
  | doesNotExist
  | found (a : α)
  | multiple
deriving Repr, DecidableEq

def qsGet {α : Type} (rows : List α) : GetResult α :=
  match rows with
  | [] => .doesNotExist
  | [r] => .found r
  | _ => .multiple

/-- Exceptions escaping `create_translation_mapping`:
`CourseBlockData.MultipleObjectsReturned` from the reference-key lookup (only
`DoesNotExist` is caught there), and the custom
`MultipleObjectsFoundInMappingCreation(message, block_id)` raised from the
data-comparison lookups. -/
inductive MappingError where
  | multipleObjectsReturned
  | multipleObjectsFoundInMappingCreation (message : String) (blockId : String)
deriving Repr, DecidableEq

/-- What `create_translation_mapping` reads off its `target_block` argument:
its block id, the trailing reference token of the usage key
(`target_block.block_id.block_id`, extracted by the opaque-keys library), its
block type and course. -/
structure TargetBlockInfo where
  blockId : String
  referenceKey : String
  blockType : String
  courseId : String
deriving Repr, DecidableEq

/-- The `deleted` flag of the `CourseBlock` owning a data row. -/
def dataBlockDeleted (s : Store) (d : CourseBlockDataRow) : Bool :=
  (((s.blocks.find? (fun b => b.blockId == d.courseBlock)).map
    (fun b => b.deleted))).getD false

/-- The `parent_id` of the `CourseBlock` owning a data row. -/
def dataBlockParentId (s : Store) (d : CourseBlockDataRow) : Option String :=
  (s.blocks.find? (fun b => b.blockId == d.courseBlock)).bind
    (fun b => b.parentId)

/-- A freshly created `WikiTranslation` row (all non-key columns default). -/
def newLink (target : TargetBlockInfo) (d : CourseBlockDataRow) :
    WikiTranslationRow :=
  ⟨target.blockId, d.id, none, false, none, none, none⟩

/-- `WikiTranslation.create_translation_mapping(base_course_blocks_data, key,
value, parent_id, target_block)`.  Mirrors the source control flow:

1. reference-key strategy: `base_course_blocks_data.get(
   course_block__block_id__endswith=reference_key, data_type=key)`; a falsy
   reference key raises `DoesNotExist` directly; `MultipleObjectsReturned`
   from this `get` is **not** caught and escapes;
2. on `DoesNotExist`: if some existing link maps the target's parent, search
   `get(course_block__parent_id=base_parent_id, data_type=key, data=value)`,
   otherwise `get(data_type=key, data=value)`; `MultipleObjectsReturned` here
   is converted to `MultipleObjectsFoundInMappingCreation`, `DoesNotExist` is
   logged and swallowed;
3. a found candidate whose block is soft-deleted produces no link.

Returns the created row, `none` when nothing is created.
`pyEndsWith` is Python's `str.endswith` on the block id. -/
def pyEndsWith (s suffix : String) : Bool :=
  suffix.data.isSuffixOf s.data

def refCandidates (baseData : List CourseBlockDataRow) (key : String)
    (target : TargetBlockInfo) : List CourseBlockDataRow :=
  baseData.filter (fun d =>
    pyEndsWith d.courseBlock target.referenceKey && d.dataType == key)

def valueCandidates (s : Store) (baseData : List CourseBlockDataRow)
    (key value : String) (parentId : Option String) :
    List CourseBlockDataRow :=
  let parentMapping : Option WikiTranslationRow :=
    match parentId with
    | none => none
    | some p => s.links.find? (fun l => l.targetBlock == p)
  match parentMapping with
  | some pm =>
      let baseParentId : Option String :=
        (s.blockData.find? (fun dd => dd.id == pm.sourceBlockData)).map
          (fun dd => dd.courseBlock)
      baseData.filter (fun d =>
        dataBlockParentId s d == baseParentId && d.dataType == key &&
          d.data == value)
  | none =>
      baseData.filter (fun d => d.dataType == key && d.data == value)

def create_translation_mapping (s : Store)
    (baseData : List CourseBlockDataRow) (key value : String)
    (parentId : Option String) (target : TargetBlockInfo) :
    Except MappingError (Option WikiTranslationRow) :=
  let step1 : GetResult CourseBlockDataRow :=
    if target.referenceKey ≠ "" then qsGet (refCandidates baseData key target)
    else .doesNotExist
  match step1 with
  | .multiple => .error .multipleObjectsReturned
  | .found d =>
      if dataBlockDeleted s d then .ok none else .ok (some (newLink target d))
  | .doesNotExist =>
      match qsGet (valueCandidates s baseData key value parentId) with
      | .multiple =>
          .error (.multipleObjectsFoundInMappingCreation
            ("Multiple source blocks found in data comparison for block_type: "
              ++ target.blockType ++ ", data_type: " ++ key ++ ", value: "
              ++ value)
            target.blockId)
      | .found d =>
          if dataBlockDeleted s d then .ok none
          else .ok (some (newLink target d))
      | .doesNotExist => .ok none

/-- Errors of store-level mapping operations: a `MappingError` escaping
`create_translation_mapping`, the database `IntegrityError` of the
`unique_together('target_block', 'source_block_data')` constraint on insert,
or `WikiTranslation.MultipleObjectsReturned` escaping the per-data-type `get`
of `map_translated_course_block`. -/
inductive StoreError where
  | mapping (e : MappingError)
  | integrity (msg : String)
  | multipleLinksReturned
deriving Repr, DecidableEq

/-- `WikiTranslation.objects.create(...)` under the table's
`unique_together = ('target_block', 'source_block_data')` constraint: the
database refuses a duplicate pair with an `IntegrityError`; otherwise the row
is appended. -/
def wikiTranslationCreate (links : List WikiTranslationRow)
    (l : WikiTranslationRow) : Except StoreError (List WikiTranslationRow) :=
  if links.any (fun x =>
      x.targetBlock == l.targetBlock && x.sourceBlockData == l.sourceBlockData) then
    .error (.integrity "UNIQUE constraint failed: target_block, source_block_data")
  else
    .ok (links ++ [l])

/-- `create_translation_mapping` together with the database insert of the row
it creates. -/
def create_translation_mapping_db (s : Store)
    (baseData : List CourseBlockDataRow) (key value : String)
    (parentId : Option String) (target : TargetBlockInfo) :
    Except StoreError Store :=
  match create_translation_mapping s baseData key value parentId target with
  | .error e => .error (.mapping e)
  | .ok none => .ok s
  | .ok (some l) =>
      match wikiTranslationCreate s.links l with
      | .error e => .error e
      | .ok links' => .ok { s with links := links' }

/-- The data type of a link's source block data row. -/
def linkDataType (s : Store) (l : WikiTranslationRow) : Option String :=
  (s.blockData.find? (fun d => d.id == l.sourceBlockData)).map
    (fun d => d.dataType)

/-- One node of a course outline as handed to the mapping functions
(`get_block_data`'s dictionary). -/
structure OutlineBlockDict where
  usageKey : String
  parentUsageKey : Option String
  category : String
  data : List (String × String)
deriving Repr, DecidableEq

/-- `mapping/utils.map_translated_course_block`: for an outline node of a
translated rerun, either create the Destination `CourseBlock` and try to map
every data item, or — for an existing block — try to map only the data items
that have no `WikiTranslation` yet (`get(source_block_data__data_type=key,
target_block=course_block)`; only `DoesNotExist` is caught there).
`refKey` is the trailing reference token of the node's usage key. -/
def map_translated_course_block (s : Store)
    (baseData : List CourseBlockDataRow) (outline : OutlineBlockDict)
    (refKey : String) (courseId : String) : Except StoreError Store :=
  match s.blocks.find? (fun b => b.blockId == outline.usageKey) with
  | none =>
      let newBlock : CourseBlockRow :=
        ⟨outline.usageKey, outline.parentUsageKey, outline.category, courseId,
         .destination, [], false, none, false, false⟩
      let s1 := { s with blocks := s.blocks ++ [newBlock] }
      let target : TargetBlockInfo :=
        ⟨outline.usageKey, refKey, outline.category, courseId⟩
      outline.data.foldlM
        (fun st kv =>
          create_translation_mapping_db st baseData kv.1 kv.2
            outline.parentUsageKey target)
        s1
  | some courseBlock =>
      let target : TargetBlockInfo :=
        ⟨courseBlock.blockId, refKey, courseBlock.blockType, courseBlock.courseId⟩
      outline.data.foldlM
        (fun st kv =>
          match qsGet (st.links.filter (fun l =>
              l.targetBlock == courseBlock.blockId &&
                linkDataType st l == some kv.1)) with
          | .found _ => .ok st
          | .multiple => .error .multipleLinksReturned
          | .doesNotExist =>
              create_translation_mapping_db st baseData kv.1 kv.2
                outline.parentUsageKey target)
        s

/-- The mapping-uniqueness invariant: no two `WikiTranslation` rows share the
`(target_block, source_block_data)` pair. -/
def LinksUnique (links : List WikiTranslationRow) : Prop :=
  links.Pairwise (fun a b =>
    ¬(a.targetBlock = b.targetBlock ∧ a.sourceBlockData = b.sourceBlockData))

/-! ## Sequential push scheduling
(`sync_untranslated_strings_to_meta_from_edx.Command
._request_meta_tasks_in_sequential_with_delay`) -/

/-- One awaited request on the timeline: when it started, when its response
arrived, and how long the loop sleeps afterwards. -/
structure ScheduledRequest where
  startTime : ℚ
  finishTime : ℚ
  sleepAfter : ℚ
deriving Repr, DecidableEq

/-- The loop body of `_request_meta_tasks_in_sequential_with_delay`: each task
is awaited in turn (`response = await tasks[index]`), its elapsed time is
measured, and — except after the last task — the loop sleeps
`delay_in_sec - execution_time` if that difference is positive.  `execTimes`
is the list of per-request elapsed response times; `clock` the current time. -/
def scheduleRequests (delay : ℚ) (clock : ℚ) :
    List ℚ → List ScheduledRequest
  | [] => []
  | e :: rest =>
      let finish := clock + e
      let sleepAfter :=
        if rest ≠ [] then (if delay - e > 0 then delay - e else 0) else 0
      ⟨clock, finish, sleepAfter⟩ :: scheduleRequests delay (finish + sleepAfter) rest

/-! ## Content transformers (`transformers/wiki_transformer.py`)

The problem transformer works on the lxml parse tree of the problem XML; we
embed parsed XML as the inductive `Elem` (tag, optional `answer` attribute —
the only attribute the transformer reads or writes — optional text, children).
`etree.tostring` / `etree.XML` are the identity at this level, so the
transformers become tree functions.  Python strings become `String`, the
regex replacement loops become explicit scans over `List Char`. -/

/-- Python `str.strip()`: remove leading and trailing whitespace. -/
def pyStrip (s : String) : String :=
  ⟨((s.toList.dropWhile Char.isWhitespace).reverse.dropWhile
      Char.isWhitespace).reverse⟩

/-- Python `str.strip('\n')`: remove leading and trailing newline characters
only. -/
def stripNewlines (s : String) : String :=
  ⟨((s.toList.dropWhile (· == '\n')).reverse.dropWhile (· == '\n')).reverse⟩

/-- Does the char list start with a `re` match of `\[\d\]`?  If so return the
digit and the remainder after the closing bracket. -/
def bracketHead : List Char → Option (Char × List Char)
  | '[' :: d :: ']' :: s => if d.isDigit then some (d, s) else none
  | _ => none

/-- `re.search(r"\[\d\]", cs)`: the split `(before, digit, after)` at the
leftmost match, or `none`. -/
def findBracketSplit : List Char → Option (List Char × Char × List Char)
  | [] => none
  | c :: rest =>
      match bracketHead (c :: rest) with
      | some (d, s) => some ([], d, s)
      | none =>
          (findBracketSplit rest).map (fun t => (c :: t.1, t.2.1, t.2.2))

/-- The `while True` loop of `_convert_xpath_to_meta_key_format`: repeatedly
replace the leftmost `[d]` with `.d`
(`converted_path[:start] + "." + converted_path[end-2] + converted_path[end:]`).
Each iteration shortens the string by one character, so `fuel = cs.length`
always reaches the fixed point; the fuel only makes the recursion structural. -/
def bracketLoopFuel : Nat → List Char → List Char
  | 0, cs => cs
  | fuel + 1, cs =>
      match findBracketSplit cs with
      | none => cs
      | some (p, d, s) => bracketLoopFuel fuel (p ++ '.' :: d :: s)

/-- `ProblemTransformer._convert_xpath_to_meta_key_format(path)`:
`path.replace("/", ".")[1:]` followed by the bracket-replacement loop. -/
def convert_xpath_to_meta_key_format (path : String) : String :=
  let converted := (path.toList.map (fun c => if c == '/' then '.' else c)).drop 1
  ⟨bracketLoopFuel converted.length converted⟩

/-- Does the char list start with a `re` match of `\.\d`? -/
def dotHead : List Char → Option (Char × List Char)
  | '.' :: d :: s => if d.isDigit then some (d, s) else none
  | _ => none

/-- `re.search(r"\.\d", cs)`: the split `(before, digit, after)` at the
leftmost match, or `none`. -/
def findDotSplit : List Char → Option (List Char × Char × List Char)
  | [] => none
  | c :: rest =>
      match dotHead (c :: rest) with
      | some (d, s) => some ([], d, s)
      | none => (findDotSplit rest).map (fun t => (c :: t.1, t.2.1, t.2.2))

/-- The `while True` loop of `_convert_meta_key_format_to_xpath`: repeatedly
replace the leftmost `.d` with `[d]`
(`converted_path[:start] + "[" + converted_path[end-1] + "]" + converted_path[end:]`).
Each iteration removes one `'.'`, so `fuel = cs.length` always reaches the
fixed point. -/
def dotLoopFuel : Nat → List Char → List Char
  | 0, cs => cs
  | fuel + 1, cs =>
      match findDotSplit cs with
      | none => cs
      | some (p, d, s) => dotLoopFuel fuel (p ++ '[' :: d :: ']' :: s)

/-- `ProblemTransformer._convert_meta_key_format_to_xpath(key)`: the dot
replacement loop, then `"/{}".format(converted_path.replace('.', '/'))`. -/
def convert_meta_key_format_to_xpath (key : String) : String :=
  let converted := dotLoopFuel key.toList.length key.toList
  ⟨'/' :: converted.map (fun c => if c == '.' then '/' else c)⟩

/-- A parsed XML element: tag, the `answer` attribute (the only attribute the
problem transformer touches), the text before the first child, children. -/
inductive Elem where
  | mk (tag : String) (answer : Option String) (text : Option String)
       (children : List Elem)
deriving Repr

def Elem.tag : Elem → String
  | .mk t _ _ _ => t

def Elem.answer : Elem → Option String
  | .mk _ a _ _ => a

def Elem.text : Elem → Option String
  | .mk _ _ x _ => x

def Elem.children : Elem → List Elem
  | .mk _ _ _ cs => cs

/-- One step of an lxml path: tag plus the 1-based position among same-tag
siblings, present exactly when the element has same-tag siblings
(`getpath` omits `[i]` for an only child of its tag). -/
abbrev PathSeg := String × Option Nat

/-- The `getpath` segment of a child with tag `t`, among the full sibling list
`all`, having already passed `before`. -/
def siblingSeg (all before : List Elem) (t : String) : PathSeg :=
  if 1 < (all.filter (fun c => c.tag == t)).length then
    (t, some ((before.filter (fun c => c.tag == t)).length + 1))
  else
    (t, none)

mutual
/-- `problem.iter("*")` in document order, each element paired with its
`tree.getpath` segments and its child-index path from the root. -/
def preorderFull (p : List PathSeg) (ip : List Nat) (e : Elem) :
    List (List PathSeg × List Nat × Elem) :=
  match e with
  | .mk t a x cs =>
      (p, ip, .mk t a x cs) :: preorderChildrenFull p ip cs [] cs
termination_by sizeOf e

def preorderChildrenFull (p : List PathSeg) (ip : List Nat)
    (all before rem : List Elem) : List (List PathSeg × List Nat × Elem) :=
  match rem with
  | [] => []
  | c :: rest =>
      preorderFull (p ++ [siblingSeg all before c.tag])
          (ip ++ [before.length]) c
        ++ preorderChildrenFull p ip all (before ++ [c]) rest
termination_by sizeOf rem
end

/-- Document-order traversal with `getpath` paths only. -/
def preorderWithPaths (root : Elem) : List (List PathSeg × Elem) :=
  (preorderFull [(root.tag, none)] [] root).map (fun t => (t.1, t.2.2))

/-- `tree.getpath(e)` rendered: `"/" + "/".join(tag or tag[i])`. -/
def renderSegChars : PathSeg → List Char
  | (t, none) => t.toList
  | (t, some k) => t.toList ++ '[' :: Nat.toDigits 10 k ++ [']']

def renderXPathChars (segs : List PathSeg) : List Char :=
  segs.foldl (fun acc s => acc ++ '/' :: renderSegChars s) []

/-- `problem.xpath("/problem/stringresponse")` truthiness: the root is a
`problem` element with a direct `stringresponse` child. -/
def Elem.isTextInputProblem (root : Elem) : Bool :=
  root.tag == "problem" && root.children.any (fun c => c.tag == "stringresponse")

/-- `ProblemTransformer.raw_data_to_meta_data(raw_data)` on the parse tree:
walk `problem.iter("*")`; for a text-input problem an element with a truthy
`answer` attribute contributes its stripped answer, otherwise an element with
truthy text contributes its stripped text; keys are the converted `getpath`
paths, collected with `data_dict.update`. -/
def problem_raw_data_to_meta_data (root : Elem) : List (String × String) :=
  let isTextInput := root.isTextInputProblem
  (preorderWithPaths root).foldl
    (fun d pe =>
      if isTextInput && pyTruthyStr pe.2.answer then
        dictUpdate d
          (convert_xpath_to_meta_key_format ⟨renderXPathChars pe.1⟩)
          (pyStrip ((pe.2.answer).getD ""))
      else if pyTruthyStr pe.2.text then
        dictUpdate d
          (convert_xpath_to_meta_key_format ⟨renderXPathChars pe.1⟩)
          (pyStrip ((pe.2.text).getD ""))
      else d)
    []

/-- Parse one xpath step `tag` or `tag[i]` back into a segment: the tag is
everything before the first `'['`, the index the digits before the `']'`. -/
def parseSegChars (cs : List Char) : PathSeg :=
  match cs.dropWhile (fun c => c != '[') with
  | [] => (⟨cs⟩, none)
  | _ :: ds =>
      (⟨cs.takeWhile (fun c => c != '[')⟩,
       some ((ds.takeWhile (fun c => c != ']')).foldl
         (fun n c => n * 10 + (c.toNat - '0'.toNat)) 0))

/-- Split a char list on `'/'` (the separators of an absolute xpath). -/
def splitSlash : List Char → List (List Char)
  | [] => [[]]
  | '/' :: rest => [] :: splitSlash rest
  | c :: rest =>
      match splitSlash rest with
      | seg :: segs => (c :: seg) :: segs
      | [] => [[c]]

/-- Parse an absolute xpath `/a/b[2]/c` into its segments (the embedding of
lxml's xpath evaluation of the paths this transformer generates). -/
def parseXPathChars (cs : List Char) : List PathSeg :=
  (splitSlash (cs.drop 1)).map parseSegChars

/-- `if element.get("answer"): element.set("answer", value) else:
element.text = value` — the write-back step of `meta_data_to_raw_data`. -/
def setVal (e : Elem) (v : String) : Elem :=
  if pyTruthyStr e.answer then .mk e.tag (some v) e.text e.children
  else .mk e.tag e.answer (some v) e.children

mutual
/-- Update the first element (in document order) reachable by the remaining
segments, mirroring `root.xpath(xpath)[0]` followed by the in-place write. -/
def updateFirstMatch (v : String) (e : Elem) : List PathSeg → Option Elem
  | [] => some (setVal e v)
  | seg :: rest =>
      (updateFirstChild v seg rest [] e.children).map
        (fun cs => .mk e.tag e.answer e.text cs)

def updateFirstChild (v : String) (seg : PathSeg) (rest : List PathSeg)
    (before : List Elem) : List Elem → Option (List Elem)
  | [] => none
  | c :: cs =>
      let occ := (before.filter (fun b => b.tag == seg.1)).length + 1
      if c.tag == seg.1 && (seg.2 == none || seg.2 == some occ) then
        match updateFirstMatch v c rest with
        | some c' => some (c' :: cs)
        | none =>
            (updateFirstChild v seg rest (before ++ [c]) cs).map
              (fun cs' => c :: cs')
      else
        (updateFirstChild v seg rest (before ++ [c]) cs).map
          (fun cs' => c :: cs')
end

/-- `_get_element_by_xpath` + write for one absolute path: the root must match
the first segment (`/tag` matches the document root of that tag; the paths we
generate never index the root), the rest descends; `none` embeds the
`"{} not found in xml_data"` exception. -/
def updateByXPath (root : Elem) (segs : List PathSeg) (v : String) :
    Option Elem :=
  match segs with
  | [] => none
  | rootSeg :: rest =>
      if root.tag == rootSeg.1 && (rootSeg.2 == none || rootSeg.2 == some 1) then
        updateFirstMatch v root rest
      else
        none

/-- `ProblemTransformer.meta_data_to_raw_data({'xml_data': ..., 'encodings':
...})` on the parse tree: for each encoding (insertion order), convert the key
to an xpath and overwrite the answer attribute or the text of the first
matching element; `none` when some path no longer exists in the template. -/
def problem_meta_data_to_raw_data (xmlData : Elem)
    (encodings : List (String × String)) : Option Elem :=
  encodings.foldlM
    (fun tree kv =>
      updateByXPath tree
        (parseXPathChars (convert_meta_key_format_to_xpath kv.1).toList)
        kv.2)
    xmlData

/-! ### Video transcript transformer -/

/-- The decoded `raw_data` of a video transcript:
`{'start': [...], 'end': [...], 'text': [...]}`. -/
structure TranscriptData where
  start : List Int
  ends : List Int
  text : List String
deriving Repr, DecidableEq

/-- `VideoTranscriptTransformer._convert_location_to_meta_key(start, end,
index)`: `'subtitle-{}-{}-{}'.format(...)`. -/
def convert_location_to_meta_key (startTime endTime : Int) (index : Nat) :
    String :=
  "subtitle-" ++ toString startTime ++ "-" ++ toString endTime ++ "-"
    ++ toString index

/-- `VideoTranscriptTransformer._convert_locations_to_meta_keys`: zip
`range(len(start_points))`, `start_points`, `end_points` (Python `zip`
truncates to the shortest) and emit 1-based keys. -/
def convert_locations_to_meta_keys (startPoints endPoints : List Int) :
    List String :=
  ((List.range startPoints.length).zip (startPoints.zip endPoints)).map
    (fun t => convert_location_to_meta_key t.2.1 t.2.2 (t.1 + 1))

/-- Python `dict(zip(ks, vs))`: later bindings win. -/
def dictOfPairs (ps : List (String × String)) : List (String × String) :=
  ps.foldl (fun d p => dictUpdate d p.1 p.2) []

/-- `VideoTranscriptTransformer.raw_data_to_meta_data(raw_data)`: keys from
the time points, empty cue text replaced by the `'....'` placeholder. -/
def video_raw_data_to_meta_data (raw : TranscriptData) :
    List (String × String) :=
  let metaKeys := convert_locations_to_meta_keys raw.start raw.ends
  let transcriptText := raw.text.map (fun t => if t ≠ "" then t else "....")
  dictOfPairs (metaKeys.zip transcriptText)

/-- `VideoTranscriptTransformer.meta_data_to_raw_data({'start_points',
'end_points', 'encodings'})`: rebuild the text list by looking up each
computed key, `.strip('\n')`-ing the translated value; a missing key raises
(`none`). -/
def video_meta_data_to_raw_data (startPoints endPoints : List Int)
    (encodings : List (String × String)) : Option (List String) :=
  let metaKeys := convert_locations_to_meta_keys startPoints endPoints
  metaKeys.foldlM
    (fun acc key =>
      match dictGet encodings key with
      | some v => some (acc ++ [stripNewlines v])
      | none => none)
    []

/-! ### Specification-side helpers for the round-trip statement -/

/-- The whitespace trimming that a decompose/recompose round trip performs on
a problem tree: strip the answer of answer-carrying elements of a text-input
problem, strip the text of text-carrying elements otherwise. -/
def trimElem (ti : Bool) : Elem → Elem
  | .mk t a x cs =>
      let cs' := cs.attach.map (fun c => trimElem ti c.1)
      if ti && pyTruthyStr a then .mk t (some (pyStrip (a.getD ""))) x cs'
      else if pyTruthyStr x then .mk t a (some (pyStrip (x.getD ""))) cs'
      else .mk t a x cs'
decreasing_by
  have := List.sizeOf_lt_of_mem c.2
  simp only [Elem.mk.sizeOf_spec]
  omega

/-- A tag usable in the path encoding: non-empty, free of the structural
characters `/ . [ ]`, not starting with a digit (XML names cannot). -/
def validTag (t : String) : Bool :=
  t ≠ "" &&
    t.toList.all (fun c => c != '/' && c != '.' && c != '[' && c != ']') &&
    !((t.toList.headD ' ').isDigit)

/-- Structural validity of a problem tree for the round trip: valid tags
everywhere. -/
def Elem.validTree : Elem → Bool
  | .mk t _ _ cs =>
      validTag t && (cs.attach.all (fun c => Elem.validTree c.1))
decreasing_by
  have := List.sizeOf_lt_of_mem c.2
  simp only [Elem.mk.sizeOf_spec]
  omega

/-- No element both carries a truthy `answer` attribute and truthy text
(outside text-input problems, `meta_data_to_raw_data` would write such an
element's decomposed text into its `answer` attribute). -/
def Elem.noAnswerTextClash : Elem → Bool
  | .mk _ a x cs =>
      !(pyTruthyStr a && pyTruthyStr x) &&
        (cs.attach.all (fun c => Elem.noAnswerTextClash c.1))
decreasing_by
  have := List.sizeOf_lt_of_mem c.2
  simp only [Elem.mk.sizeOf_spec]
  omega

/-! ### Proof-side auxiliary notions for the round trip

Index paths locate a node by successive child indices; `segPathOf` computes
the `getpath` segments of an index path; `Elem.skel` is the tag skeleton of a
tree, which is all that xpath navigation depends on. -/

/-- The node of a tree at a child-index path. -/
def getIdxPath : Elem → List Nat → Option Elem
  | e, [] => some e
  | e, i :: is => (e.children.get? i).bind (fun c => getIdxPath c is)

/-- Rewrite the node at a child-index path through `f`. -/
def setIdxPath (f : Elem → Elem) : Elem → List Nat → Option Elem
  | e, [] => some (f e)
  | e, i :: is =>
      (e.children.get? i).bind (fun c =>
        (setIdxPath f c is).map (fun c' =>
          .mk e.tag e.answer e.text (e.children.set i c')))

/-- The `getpath` segments (relative to the root) of a child-index path. -/
def segPathOf : Elem → List Nat → Option (List PathSeg)
  | _, [] => some []
  | e, i :: is =>
      match e.children.get? i with
      | none => none
      | some c =>
          (segPathOf c is).map (fun rest =>
            siblingSeg e.children (e.children.take i) c.tag :: rest)

/-- Tag skeleton of a tree. -/
inductive Skel where
  | mk (tag : String) (children : List Skel)

def Elem.skel : Elem → Skel
  | .mk t _ _ cs => .mk t (cs.attach.map (fun c => Elem.skel c.1))
decreasing_by
  have := List.sizeOf_lt_of_mem c.2
  simp only [Elem.mk.sizeOf_spec]
  omega

/-- The `'.'`-separated tail rendering of segments before the bracket loop:
each segment contributes a leading separator dot. -/
def dotRender (segs : List PathSeg) : List Char :=
  (segs.map (fun s => '.' :: renderSegChars s)).flatten

/-- The rendering of a converted key segment: a single-digit index becomes
`.d` (the regex `\[\d\]` rewrites it), a multi-digit index stays in bracket
form (the regex does not match it, cf. C7). -/
def keySegChars : PathSeg → List Char
  | (t, none) => t.toList
  | (t, some k) =>
      if k ≤ 9 then t.toList ++ '.' :: Nat.toDigits 10 k
      else t.toList ++ '[' :: (Nat.toDigits 10 k ++ [']'])

/-- The `'.'`-separated tail rendering of converted key segments. -/
def keyRender (segs : List PathSeg) : List Char :=
  (segs.map (fun s => '.' :: keySegChars s)).flatten

/-- Every `'.'` is immediately followed by a non-digit (so the string admits
no `\.\d` match), and the string does not end in `'.'`. -/
def dotsSafe : List Char → Bool
  | [] => true
  | c :: rest =>
      (c != '.' || (match rest with
        | [] => false
        | c2 :: _ => !c2.isDigit)) && dotsSafe rest

/-- Number of single-digit indexed segments (each consumes one iteration of
the replacement loops; multi-digit indices are never matched). -/
def countIndexed (segs : List PathSeg) : Nat :=
  (segs.filter (fun s => match s.2 with
    | some k => decide (k ≤ 9)
    | none => false)).length

/-- A segment of a rendered getpath: a valid tag, and a positive index when
present. -/
def goodSeg : PathSeg → Bool
  | (t, none) => validTag t
  | (t, some k) => validTag t && decide (1 ≤ k)

/-- A prefix through which `findBracketSplit` looks transparently: searching
any extension of the prefix finds exactly the matches of the extension,
shifted. -/
def BracketShiftSafe (pre : List Char) : Prop :=
  ∀ ys, findBracketSplit (pre ++ ys)
    = (findBracketSplit ys).map (fun t => (pre ++ t.1, t.2.1, t.2.2))

/-- Shift one traversal entry under a path prefix. -/
def shiftEnt (p0 : List PathSeg) (ip0 : List Nat)
    (ent : List PathSeg × List Nat × Elem) :
    List PathSeg × List Nat × Elem :=
  (p0 ++ ent.1, ip0 ++ ent.2.1, ent.2.2)

mutual
/-- `preorderFull` with paths relative to the traversal root. -/
def preorderRelFull (e : Elem) : List (List PathSeg × List Nat × Elem) :=
  match e with
  | .mk t a x cs => ([], [], .mk t a x cs) :: preorderChildrenRel cs [] cs
termination_by sizeOf e

def preorderChildrenRel (all before rem : List Elem) :
    List (List PathSeg × List Nat × Elem) :=
  match rem with
  | [] => []
  | c :: rest =>
      (preorderRelFull c).map
          (shiftEnt [siblingSeg all before c.tag] [before.length])
        ++ preorderChildrenRel all (before ++ [c]) rest
termination_by sizeOf rem
end

/-- The value a tree node contributes to the decomposition, if any: the
stripped answer of an answer-carrying element of a text-input problem,
otherwise the stripped text of a text-carrying element. -/
def contribVal (ti : Bool) (e : Elem) : Option String :=
  if ti && pyTruthyStr e.answer then some (pyStrip (e.answer.getD ""))
  else if pyTruthyStr e.text then some (pyStrip (e.text.getD ""))
  else none

/-- The contributing entries of a traversal, with segment path, index path
and value. -/
def contribEntries (ti : Bool)
    (ents : List (List PathSeg × List Nat × Elem)) :
    List (List PathSeg × List Nat × String) :=
  ents.filterMap (fun ent =>
    (contribVal ti ent.2.2).map (fun v => (ent.1, ent.2.1, v)))

/-- Apply a list of value writes at index paths, in order. -/
def applyUpds (t : Elem) (us : List (List Nat × String)) : Option Elem :=
  us.foldlM (fun tr u => setIdxPath (fun e => setVal e u.2) tr u.1) t

/-- The key stored for a traversal path. -/
def entryKey (p : List PathSeg) : String :=
  convert_xpath_to_meta_key_format ⟨renderXPathChars p⟩

/-- The index-path/value writes contributed by a subtree (relative paths). -/
def contribUpds (ti : Bool) (e : Elem) : List (List Nat × String) :=
  (preorderRelFull e).filterMap (fun ent =>
    (contribVal ti ent.2.2).map (fun v => (ent.2.1, v)))

/-- The index-path/value writes contributed by a child list. -/
def childContribUpds (ti : Bool) (all before rem : List Elem) :
    List (List Nat × String) :=
  (preorderChildrenRel all before rem).filterMap (fun ent =>
    (contribVal ti ent.2.2).map (fun v => (ent.2.1, v)))

/-! # Theorems -/

/-! ## Shared helper lemmas -/

theorem dictGet_dictUpdate {α : Type} (m : List (String × α)) (k k' : String)
    (v : α) :
    dictGet (dictUpdate m k v) k' = if k' = k then some v else dictGet m k' := by
  unfold dictUpdate
  by_cases h : m.any (fun p => p.1 == k) = true
  · rw [if_pos h]
    by_cases hk : k' = k
    · subst hk
      rw [if_pos rfl]
      have hpred : (fun p : String × α =>
          (if p.1 == k' then ((k', v) : String × α) else p).1 == k')
            = fun p => p.1 == k' := by
        funext q
        by_cases hq : (q.1 == k') = true <;> simp [hq]
      simp only [dictGet, List.find?_map, Function.comp_def, hpred]
      simp only [List.any_eq_true] at h
      obtain ⟨q, hqm, hqk⟩ := h
      cases hr : m.find? (fun p => p.1 == k') with
      | none =>
          rw [List.find?_eq_none] at hr
          exact absurd hqk (by simpa using hr q hqm)
      | some r =>
          have hrk := List.find?_some hr
          have h1 : r.1 = k' := by simpa using hrk
          simp [h1]
    · rw [if_neg hk]
      have hk2 : ¬ k = k' := fun hh => hk hh.symm
      have hpred : (fun p : String × α =>
          (if p.1 == k then ((k, v) : String × α) else p).1 == k')
            = fun p => p.1 == k' := by
        funext q
        by_cases hq : (q.1 == k) = true
        · have hq' : q.1 = k := by simpa using hq
          simp [hq, hq', hk2]
        · simp [hq]
      simp only [dictGet, List.find?_map, Function.comp_def, hpred]
      cases hr : m.find? (fun p => p.1 == k') with
      | none => simp
      | some r =>
          have hrk := List.find?_some hr
          have hr' : r.1 = k' := by simpa using hrk
          simp [hr', hk]
  · rw [if_neg h]
    simp only [dictGet, List.find?_append]
    by_cases hk : k' = k
    · subst hk
      have hnone : m.find? (fun p => p.1 == k') = none := by
        rw [List.find?_eq_none]
        intro p hp
        simp only [List.any_eq_true] at h
        exact fun hc => h ⟨p, hp, hc⟩
      simp [hnone, List.find?]
    · have hk2 : ¬ k = k' := fun hh => hk hh.symm
      have : ((⟨k, v⟩ : String × α).1 == k') = false := by simp [hk2]
      simp [List.find?, this, hk]

theorem commitsGet_eq_join (m : List (String × Option Int)) (k : String) :
    commitsGet m k = (dictGet m k).join := by
  unfold commitsGet dictGet
  cases m.find? (fun p => p.1 == k) <;> simp

theorem foldl_and_all {α : Type} (l : List α) (f : α → Bool) (b : Bool) :
    l.foldl (fun acc x => acc && f x) b = (b && l.all f) := by
  induction l generalizing b with
  | nil => simp
  | cons x rest ih => simp [List.foldl_cons, ih, Bool.and_assoc]

/-! ## C7 — key charset of the markup transformer's path conversion -/

/-- C7: the claim says every key emitted by
`ProblemTransformer._convert_xpath_to_meta_key_format` consists only of
letters, digits, `.`, `_`, `-`, "including paths whose child indices have more
than one digit".  The regex `\[\d\]` only matches single-digit indices, so the
path of a tenth same-tag sibling keeps its brackets: the conversion of
`/problem/choiceresponse/checkboxgroup/choice[10]` still contains `[` and `]`,
contradicting the method's own doc comment ("Meta server only allows '_', '.'
and '-' for data keys"). -/
theorem C7_convert_xpath_key_charset_bug :
    convert_xpath_to_meta_key_format
        "/problem/choiceresponse/checkboxgroup/choice[10]"
      = "problem.choiceresponse.checkboxgroup.choice[10]"
    ∧ '[' ∈ ("problem.choiceresponse.checkboxgroup.choice[10]" : String).toList
    ∧ convert_xpath_to_meta_key_format
        "/problem/choiceresponse/checkboxgroup/choice[2]"
      = "problem.choiceresponse.checkboxgroup.choice.2" := by
  refine ⟨by decide, by decide, by decide⟩

/-! ## C8 — sequential push with fixed inter-request delay -/

/-- C8: the push loop awaits its tasks strictly sequentially; after every
response except the last it sleeps `delay - execution_time` when that
difference is positive; consecutive requests are therefore spaced exactly
`delay` apart whenever the response time does not exceed the delay. -/
theorem C8_push_sequential_with_delay (delay clock : ℚ) (execTimes : List ℚ) :
    (scheduleRequests delay clock execTimes).length = execTimes.length
    ∧ (∀ i e r, execTimes[i]? = some e →
        (scheduleRequests delay clock execTimes)[i]? = some r →
          r.finishTime = r.startTime + e
          ∧ r.sleepAfter =
              (if i + 1 < execTimes.length then
                (if delay - e > 0 then delay - e else 0) else 0))
    ∧ (∀ i r r', (scheduleRequests delay clock execTimes)[i]? = some r →
        (scheduleRequests delay clock execTimes)[i + 1]? = some r' →
          r'.startTime = r.finishTime + r.sleepAfter)
    ∧ (∀ i e r r', execTimes[i]? = some e →
        (scheduleRequests delay clock execTimes)[i]? = some r →
        (scheduleRequests delay clock execTimes)[i + 1]? = some r' →
        e ≤ delay → r'.startTime = r.startTime + delay) := by
  induction execTimes generalizing clock with
  | nil =>
      refine ⟨rfl, ?_, ?_, ?_⟩ <;> intro i <;> intros <;> simp_all [scheduleRequests]
  | cons e0 rest ih =>
      obtain ⟨ihlen, ihfin, ihseq, ihconst⟩ :=
        ih (clock + e0 +
          (if rest ≠ [] then (if delay - e0 > 0 then delay - e0 else 0) else 0))
      refine ⟨by simpa [scheduleRequests] using ihlen, ?_, ?_, ?_⟩
      · intro i e r he hr
        match i with
        | 0 =>
            simp only [scheduleRequests, List.getElem?_cons_zero, Option.some_inj] at he hr
            subst he; subst hr
            constructor
            · rfl
            · by_cases hrest : rest = [] <;>
                simp [hrest, List.length_cons, Nat.succ_lt_succ_iff]
              · cases rest with
                | nil => simp at hrest
                | cons a l => simp
        | i + 1 =>
            simp only [scheduleRequests, List.getElem?_cons_succ] at he hr
            have := ihfin i e r he hr
            simpa [List.length_cons, Nat.succ_lt_succ_iff] using this
      · intro i r r' hr hr'
        match i with
        | 0 =>
            simp only [scheduleRequests, List.getElem?_cons_zero,
              List.getElem?_cons_succ, Option.some_inj] at hr hr'
            subst hr
            cases rest with
            | nil => simp [scheduleRequests] at hr'
            | cons a l =>
                simp only [scheduleRequests, List.getElem?_cons_zero,
                  Option.some_inj] at hr'
                subst hr'
                simp [scheduleRequests]
        | i + 1 =>
            simp only [scheduleRequests, List.getElem?_cons_succ] at hr hr'
            exact ihseq i r r' hr hr'
      · intro i e r r' he hr hr' hle
        match i with
        | 0 =>
            simp only [scheduleRequests, List.getElem?_cons_zero,
              List.getElem?_cons_succ, Option.some_inj] at he hr hr'
            subst he; subst hr
            cases rest with
            | nil => simp [scheduleRequests] at hr'
            | cons a l =>
                simp only [scheduleRequests, List.getElem?_cons_zero,
                  Option.some_inj] at hr'
                subst hr'
                by_cases hpos : delay - e0 > 0
                · simp only [hpos, if_true, ne_eq, reduceCtorEq,
                    not_false_eq_true]
                  ring
                · have heq : delay = e0 := le_antisymm (by linarith) hle
                  simp [hpos, heq]
        | i + 1 =>
            simp only [scheduleRequests, List.getElem?_cons_succ] at he hr hr'
            exact ihconst i e r r' he hr hr' hle

/-- C8 witness: three requests with delay 20 and response times 5, 30, 2:
the first two starts are 20 apart (5s response + 15s sleep). -/
theorem C8_push_sequential_with_delay_witness :
    ∃ r r', (scheduleRequests 20 0 [5, 30, 2])[0]? = some r
      ∧ (scheduleRequests 20 0 [5, 30, 2])[1]? = some r'
      ∧ r'.startTime = r.startTime + 20 := by
  refine ⟨⟨0, 5, 15⟩, ⟨20, 50, 0⟩, by norm_num [scheduleRequests, List.cons_ne_nil],
    by norm_num [scheduleRequests, List.cons_ne_nil], ?_⟩
  exact (C8_push_sequential_with_delay 20 0 [5, 30, 2]).2.2.2 0 5 ⟨0, 5, 15⟩
    ⟨20, 50, 0⟩ (by norm_num) (by norm_num [scheduleRequests, List.cons_ne_nil])
    (by norm_num [scheduleRequests, List.cons_ne_nil]) (by norm_num)

/-! ## C10 — the fully-translated check -/

theorem validated_decodings_fst (base : List (String × String))
    (translated : List (String × Option String)) (p : Bool × List (String × String)) :
    (base.foldl
      (fun acc kv =>
        let (isValid, sorted) := acc
        match dictGet translated kv.1 with
        | none => (false, dictUpdate sorted kv.1 "")
        | some none => (false, dictUpdate sorted kv.1 "")
        | some (some v) => (isValid, dictUpdate sorted kv.1 v))
      p).1
    = (p.1 && base.all
        (fun kv => ((dictGet translated kv.1).getD none).isSome)) := by
  induction base generalizing p with
  | nil => simp
  | cons kv rest ih =>
      simp only [List.foldl_cons, List.all_cons]
      cases hg : dictGet translated kv.1 with
      | none => simp [hg, ih]
      | some w =>
          cases w with
          | none => simp [hg, ih]
          | some v => simp [hg, ih, Bool.and_assoc]

theorem is_block_translated_eq (blockType : String) (links : List LinkView) :
    is_block_translated blockType links
      = ((links.length != 0) && links.all (fun obj =>
          if is_translation_contains_parsed_keys blockType obj.dataType then
            (validated_and_sort_translated_decodings ((obj.parsedKeys).getD [])
              (validate_translations_json obj.translation)).1
          else validate_translations_flat obj.translation != "")) := by
  unfold is_block_translated
  have hbody : (fun (acc : Bool) (obj : LinkView) =>
      if is_translation_contains_parsed_keys blockType obj.dataType then
        let baseDecodings := (obj.parsedKeys).getD []
        let translatedDecodings := validate_translations_json obj.translation
        let (isValid, _) :=
          validated_and_sort_translated_decodings baseDecodings translatedDecodings
        acc && isValid
      else
        acc && (validate_translations_flat obj.translation != ""))
    = (fun (acc : Bool) (obj : LinkView) => acc &&
        (if is_translation_contains_parsed_keys blockType obj.dataType then
          (validated_and_sort_translated_decodings ((obj.parsedKeys).getD [])
            (validate_translations_json obj.translation)).1
         else validate_translations_flat obj.translation != "")) := by
    funext acc obj
    by_cases h : is_translation_contains_parsed_keys blockType obj.dataType = true
    · simp only [if_pos h]
    · simp only [if_neg h]
  rw [hbody, foldl_and_all]

/-- C10: `is_block_translated` returns `False` for a block with zero
`WikiTranslation` rows, and reports a block translated only if it has at least
one row and every row passes its per-row check: for parsed (decomposed)
content, every sub-key of the source item's parsed decomposition is present
and non-null in the stored translation; for flat content the stored
translation is non-empty. -/
theorem C10_is_block_translated_only_if (blockType : String)
    (links : List LinkView) :
    (links = [] → is_block_translated blockType links = false)
    ∧ (is_block_translated blockType links = true →
        links ≠ [] ∧ ∀ v ∈ links,
          (is_translation_contains_parsed_keys blockType v.dataType = true →
            ∀ kv ∈ (v.parsedKeys).getD [],
              ((dictGet (validate_translations_json v.translation) kv.1).getD
                none).isSome = true)
          ∧ (is_translation_contains_parsed_keys blockType v.dataType = false →
            validate_translations_flat v.translation ≠ "")) := by
  constructor
  · intro h
    subst h
    rfl
  · intro h
    rw [is_block_translated_eq] at h
    obtain ⟨hne, hall⟩ := Bool.and_eq_true_iff.mp h
    constructor
    · intro hnil
      subst hnil
      simp at hne
    · intro v hv
      have := (List.all_eq_true.mp hall) v hv
      constructor
      · intro hparsed
        intro kv hkv
        rw [if_pos hparsed] at this
        unfold validated_and_sort_translated_decodings at this
        rw [validated_decodings_fst] at this
        simp only [Bool.true_and] at this
        exact (List.all_eq_true.mp this) kv hkv
      · intro hflat
        rw [if_neg (by simp [hflat])] at this
        simpa using this

/-- C10 witness: a problem block with one decomposed link whose translation
covers the single sub-key is reported translated, and the theorem's
conditions hold for it; the empty link list is reported untranslated. -/
theorem C10_is_block_translated_only_if_witness :
    is_block_translated "problem" [] = false
    ∧ ([(⟨"content", some [("k", "base")],
          some (.map [("k", some "tr")])⟩ : LinkView)] ≠ [] ) := by
  refine ⟨(C10_is_block_translated_only_if "problem" []).1 rfl, ?_⟩
  exact ((C10_is_block_translated_only_if "problem"
    [⟨"content", some [("k", "base")], some (.map [("k", some "tr")])⟩]).2
    (by decide)).1

/-! ## C1 — revision gating of the pull path -/

theorem commitsGet_dictUpdate (m : List (String × Option Int)) (k k' : String)
    (v : Option Int) :
    commitsGet (dictUpdate m k v) k' = if k' = k then v else commitsGet m k' := by
  rw [commitsGet_eq_join, dictGet_dictUpdate]
  by_cases h : k' = k <;> simp [h, commitsGet_eq_join]

theorem compareCommitsLoop_char (rd : List (String × KeyResponse)) :
    ∀ (pk : List (String × String)) (tr : List (String × Option String))
      (commits : List (String × Option Int)) (b : Bool),
    (pk.map Prod.fst).Nodup →
    (∀ kv ∈ pk,
      dictGet (pk.foldl
        (fun acc kv =>
          let (tr, commits, updated) := acc
          let keyResponse := responseGet rd kv.1
          let keyCommit := keyResponse.revision
          if (statusTranslated keyResponse.status
                && !pyTruthyInt (commitsGet commits kv.1))
              || (pyTruthyInt keyCommit && keyCommit != commitsGet commits kv.1) then
            (dictUpdate tr kv.1 keyResponse.translation,
             dictUpdate commits kv.1 keyCommit, true)
          else (tr, commits, updated))
        (tr, commits, b)).1 kv.1
      = (if (statusTranslated (responseGet rd kv.1).status
              && !pyTruthyInt (commitsGet commits kv.1))
            || (pyTruthyInt (responseGet rd kv.1).revision
              && (responseGet rd kv.1).revision != commitsGet commits kv.1) then
          some (responseGet rd kv.1).translation
        else dictGet tr kv.1))
    ∧ (∀ kv ∈ pk,
      commitsGet (pk.foldl
        (fun acc kv =>
          let (tr, commits, updated) := acc
          let keyResponse := responseGet rd kv.1
          let keyCommit := keyResponse.revision
          if (statusTranslated keyResponse.status
                && !pyTruthyInt (commitsGet commits kv.1))
              || (pyTruthyInt keyCommit && keyCommit != commitsGet commits kv.1) then
            (dictUpdate tr kv.1 keyResponse.translation,
             dictUpdate commits kv.1 keyCommit, true)
          else (tr, commits, updated))
        (tr, commits, b)).2.1 kv.1
      = (if (statusTranslated (responseGet rd kv.1).status
              && !pyTruthyInt (commitsGet commits kv.1))
            || (pyTruthyInt (responseGet rd kv.1).revision
              && (responseGet rd kv.1).revision != commitsGet commits kv.1) then
          (responseGet rd kv.1).revision
        else commitsGet commits kv.1))
    ∧ (∀ k, k ∉ pk.map Prod.fst →
      dictGet (pk.foldl
        (fun acc kv =>
          let (tr, commits, updated) := acc
          let keyResponse := responseGet rd kv.1
          let keyCommit := keyResponse.revision
          if (statusTranslated keyResponse.status
                && !pyTruthyInt (commitsGet commits kv.1))
              || (pyTruthyInt keyCommit && keyCommit != commitsGet commits kv.1) then
            (dictUpdate tr kv.1 keyResponse.translation,
             dictUpdate commits kv.1 keyCommit, true)
          else (tr, commits, updated))
        (tr, commits, b)).1 k = dictGet tr k
      ∧ commitsGet (pk.foldl
        (fun acc kv =>
          let (tr, commits, updated) := acc
          let keyResponse := responseGet rd kv.1
          let keyCommit := keyResponse.revision
          if (statusTranslated keyResponse.status
                && !pyTruthyInt (commitsGet commits kv.1))
              || (pyTruthyInt keyCommit && keyCommit != commitsGet commits kv.1) then
            (dictUpdate tr kv.1 keyResponse.translation,
             dictUpdate commits kv.1 keyCommit, true)
          else (tr, commits, updated))
        (tr, commits, b)).2.1 k = commitsGet commits k)
    ∧ (pk.foldl
        (fun acc kv =>
          let (tr, commits, updated) := acc
          let keyResponse := responseGet rd kv.1
          let keyCommit := keyResponse.revision
          if (statusTranslated keyResponse.status
                && !pyTruthyInt (commitsGet commits kv.1))
              || (pyTruthyInt keyCommit && keyCommit != commitsGet commits kv.1) then
            (dictUpdate tr kv.1 keyResponse.translation,
             dictUpdate commits kv.1 keyCommit, true)
          else (tr, commits, updated))
        (tr, commits, b)).2.2
      = (b || pk.any (fun kv =>
          (statusTranslated (responseGet rd kv.1).status
            && !pyTruthyInt (commitsGet commits kv.1))
          || (pyTruthyInt (responseGet rd kv.1).revision
            && (responseGet rd kv.1).revision != commitsGet commits kv.1))) := by
  intro pk
  induction pk with
  | nil =>
      intro tr commits b _
      refine ⟨?_, ?_, ?_, by simp⟩ <;> simp
  | cons kv rest ih =>
      intro tr commits b hnd
      rw [List.map_cons, List.nodup_cons] at hnd
      obtain ⟨hknotin, hndrest⟩ := hnd
      simp only [List.foldl_cons, List.any_cons]
      by_cases hg : ((statusTranslated (responseGet rd kv.1).status
          && !pyTruthyInt (commitsGet commits kv.1))
        || (pyTruthyInt (responseGet rd kv.1).revision
          && (responseGet rd kv.1).revision != commitsGet commits kv.1)) = true
      · rw [if_pos hg]
        obtain ⟨ih1, ih2, ih3, ih4⟩ :=
          ih (dictUpdate tr kv.1 (responseGet rd kv.1).translation)
            (dictUpdate commits kv.1 (responseGet rd kv.1).revision) true hndrest
        refine ⟨?_, ?_, ?_, ?_⟩
        · intro kv' hkv'
          rcases List.mem_cons.mp hkv' with h | h
          · have h1 : kv'.1 = kv.1 := by rw [h]
            rw [h1, (ih3 kv.1 hknotin).1, dictGet_dictUpdate, if_pos rfl, if_pos hg]
          · have hne : kv'.1 ≠ kv.1 := by
              intro hc
              exact hknotin (hc ▸ List.mem_map_of_mem Prod.fst h)
            rw [ih1 kv' h, dictGet_dictUpdate, if_neg hne,
              commitsGet_dictUpdate, if_neg hne]
        · intro kv' hkv'
          rcases List.mem_cons.mp hkv' with h | h
          · have h1 : kv'.1 = kv.1 := by rw [h]
            rw [h1, (ih3 kv.1 hknotin).2, commitsGet_dictUpdate, if_pos rfl, if_pos hg]
          · have hne : kv'.1 ≠ kv.1 := by
              intro hc
              exact hknotin (hc ▸ List.mem_map_of_mem Prod.fst h)
            rw [ih2 kv' h, commitsGet_dictUpdate, if_neg hne]
        · intro k hk
          simp only [List.map_cons, List.mem_cons, not_or] at hk
          have hne : k ≠ kv.1 := fun hc => hk.1 hc
          constructor
          · rw [(ih3 k hk.2).1, dictGet_dictUpdate, if_neg hne]
          · rw [(ih3 k hk.2).2, commitsGet_dictUpdate, if_neg hne]
        · rw [ih4]
          simp [hg]
      · rw [if_neg hg]
        obtain ⟨ih1, ih2, ih3, ih4⟩ := ih tr commits b hndrest
        refine ⟨?_, ?_, ?_, ?_⟩
        · intro kv' hkv'
          rcases List.mem_cons.mp hkv' with h | h
          · have h1 : kv'.1 = kv.1 := by rw [h]
            rw [h1, (ih3 kv.1 hknotin).1, if_neg (by simpa using hg)]
          · exact ih1 kv' h
        · intro kv' hkv'
          rcases List.mem_cons.mp hkv' with h | h
          · have h1 : kv'.1 = kv.1 := by rw [h]
            rw [h1, (ih3 kv.1 hknotin).2, if_neg (by simpa using hg)]
          · exact ih2 kv' h
        · intro k hk
          have hk' : k ∉ List.map Prod.fst rest := by
            simp only [List.map_cons, List.mem_cons, not_or] at hk
            exact hk.2
          exact ih3 k hk'
        · rw [ih4]
          simp [show ((statusTranslated (responseGet rd kv.1).status
              && !pyTruthyInt (commitsGet commits kv.1))
            || (pyTruthyInt (responseGet rd kv.1).revision
              && (responseGet rd kv.1).revision != commitsGet commits kv.1)) = false
            from by simpa using hg]

/-- C1 counterexample: a `TranslationLink` that already stores a translation,
a last-fetch timestamp and fetched revision markers (revision 1 for key "k")
receives a response whose status is `"untranslated"` — not translated or
reviewed — but whose revision is 2 ≠ 1: `_check_and_update_translations`
applies the key anyway (Python operator precedence makes the gate
`(status ok and no stored revision) or (revision changed)`), overwriting the
stored translation, while the claim says a key is applied only if its status
is translated/reviewed. -/
theorem C1_revision_gating_counterexample :
    statusTranslated
      (responseGet [("k", ⟨some "new", some "untranslated", some 2⟩)] "k").status
        = false
    ∧ (check_and_update_parsed
        ⟨some (.map [("k", some "old")]), true, some 7, some 0,
          some [("k", some 1)]⟩
        [("k", "v")]
        [("k", ⟨some "new", some "untranslated", some 2⟩)] 5).translation
      = some (.map [("k", some "new")])
    ∧ (some (TransText.map [("k", some "new")])
        ≠ some (TransText.map [("k", some "old")])) := by
  refine ⟨by decide, by decide, by decide⟩

/-- C1 (amended): for a link that already stores a translation, a last-fetch
timestamp and fetched revision markers, the pull applies a fetched key iff
**(status is translated/proofread AND no truthy revision is stored for the
key) OR (a truthy revision is fetched AND it differs from the stored one)**
— the status condition and the revision-change condition are alternatives,
not conjuncts.  This holds for both kinds of source items: per sub-key for
parsed-keys items (first conjunct) and for the single data-type key of flat
items such as `display_name` (second conjunct, where the applied key
overwrites the whole stored translation and clears approval).  In particular
a response repeating the stored truthy revision leaves the key unchanged and
a truthy revision `r2 ≠ r1` updates it, regardless of status; applied keys
store their fetched revision, and the last-fetch timestamp is refreshed
either way. -/
theorem C1_revision_gating_amended :
    (∀ (st : LinkFetchState) (pk : List (String × String))
      (rd : List (String × KeyResponse)) (now : Nat),
      pyTruthyTransText st.translation = true →
      st.lastFetched.isNone = false →
      pyTruthyCommits st.fetchedCommits = true →
      (pk.map Prod.fst).Nodup →
      (∀ kv ∈ pk,
        dictGet (loadsMap
            (((check_and_update_parsed st pk rd now).translation).getD
              (.str ""))) kv.1
          = (if (statusTranslated (responseGet rd kv.1).status
                  && !pyTruthyInt (commitsGet ((st.fetchedCommits).getD [])
                    kv.1))
                || (pyTruthyInt (responseGet rd kv.1).revision
                  && (responseGet rd kv.1).revision
                      != commitsGet ((st.fetchedCommits).getD []) kv.1) then
              some (responseGet rd kv.1).translation
            else
              dictGet (loadsMap ((st.translation).getD (.str ""))) kv.1))
      ∧ (∀ kv ∈ pk,
        commitsGet
            (((check_and_update_parsed st pk rd now).fetchedCommits).getD [])
            kv.1
          = (if (statusTranslated (responseGet rd kv.1).status
                  && !pyTruthyInt (commitsGet ((st.fetchedCommits).getD [])
                    kv.1))
                || (pyTruthyInt (responseGet rd kv.1).revision
                  && (responseGet rd kv.1).revision
                      != commitsGet ((st.fetchedCommits).getD []) kv.1) then
              (responseGet rd kv.1).revision
            else
              commitsGet ((st.fetchedCommits).getD []) kv.1))
      ∧ (check_and_update_parsed st pk rd now).lastFetched = some now)
    ∧ (∀ (st : LinkFetchState) (dataType : String)
      (rd : List (String × KeyResponse)) (now : Nat),
      pyTruthyTransText st.translation = true →
      st.lastFetched.isNone = false →
      pyTruthyCommits st.fetchedCommits = true →
      check_and_update_flat st dataType rd now
        = (if (statusTranslated (responseGet rd dataType).status
                && !pyTruthyInt (commitsGet ((st.fetchedCommits).getD [])
                  dataType))
              || (pyTruthyInt (responseGet rd dataType).revision
                && (responseGet rd dataType).revision
                    != commitsGet ((st.fetchedCommits).getD []) dataType) then
            { st with
                translation := ((responseGet rd dataType).translation).map .str
                approved := false
                approvedBy := none
                lastFetched := some now
                fetchedCommits := some (dictUpdate
                  ((st.fetchedCommits).getD []) dataType
                  (responseGet rd dataType).revision) }
          else
            { st with lastFetched := some now })) := by
  refine ⟨?_, ?_⟩
  case refine_2 =>
    intro st dataType rd now hTr hLf hFc
    have hcond : (!pyTruthyTransText st.translation || st.lastFetched.isNone
        || !pyTruthyCommits st.fetchedCommits) = false := by
      rw [hTr, hLf, hFc]
      rfl
    unfold check_and_update_flat
    rw [if_neg (by simp [hcond])]
  intro st pk rd now hTr hLf hFc hnd
  have hcond : (!pyTruthyTransText st.translation || st.lastFetched.isNone
      || !pyTruthyCommits st.fetchedCommits) = false := by
    rw [hTr, hLf, hFc]
    rfl
  obtain ⟨char1, char2, char3, char4⟩ :=
    compareCommitsLoop_char rd pk (loadsMap ((st.translation).getD (.str "")))
      ((st.fetchedCommits).getD []) false hnd
  have hfold : compareCommitsLoop pk rd
      (loadsMap ((st.translation).getD (.str "")))
      ((st.fetchedCommits).getD [])
    = pk.foldl
        (fun acc kv =>
          let (tr, commits, updated) := acc
          let keyResponse := responseGet rd kv.1
          let keyCommit := keyResponse.revision
          if (statusTranslated keyResponse.status
                && !pyTruthyInt (commitsGet commits kv.1))
              || (pyTruthyInt keyCommit && keyCommit != commitsGet commits kv.1) then
            (dictUpdate tr kv.1 keyResponse.translation,
             dictUpdate commits kv.1 keyCommit, true)
          else (tr, commits, updated))
        ((loadsMap ((st.translation).getD (.str ""))),
          ((st.fetchedCommits).getD []), false) := rfl
  rw [← hfold] at char1 char2 char4
  simp only [Bool.false_or] at char4
  unfold check_and_update_parsed
  rw [if_neg (by simp [hcond])]
  dsimp only
  by_cases hu : (compareCommitsLoop pk rd
      (loadsMap ((st.translation).getD (.str "")))
      ((st.fetchedCommits).getD [])).2.2 = true
  · rw [if_pos hu]
    refine ⟨?_, ?_, rfl⟩
    · intro kv hkv
      simpa [update_translations_in_db, loadsMap] using char1 kv hkv
    · intro kv hkv
      simpa [update_translations_in_db] using char2 kv hkv
  · rw [if_neg hu]
    have hany : pk.any (fun kv =>
        (statusTranslated (responseGet rd kv.1).status
          && !pyTruthyInt (commitsGet ((st.fetchedCommits).getD []) kv.1))
        || (pyTruthyInt (responseGet rd kv.1).revision
          && (responseGet rd kv.1).revision
              != commitsGet ((st.fetchedCommits).getD []) kv.1)) = false := by
      rw [← char4]
      simpa using hu
    refine ⟨?_, ?_, rfl⟩
    · intro kv hkv
      have hgf := (List.any_eq_false.mp hany) kv hkv
      rw [if_neg (by simpa using hgf)]
    · intro kv hkv
      have hgf := (List.any_eq_false.mp hany) kv hkv
      rw [if_neg (by simpa using hgf)]

/-- C1 witness: a stored revision 1 for "k" with a translated response at
revision 2 updates the key (revision changed), through the amended theorem
at a concrete link state; and a flat `display_name` link with stored revision
1 and an untranslated response at revision 2 is overwritten anyway (revision
changed, status ignored). -/
theorem C1_revision_gating_amended_witness :
    dictGet (loadsMap
        (((check_and_update_parsed
          ⟨some (.map [("k", some "old")]), true, some 7, some 0,
            some [("k", some 1)]⟩
          [("k", "v")]
          [("k", ⟨some "new", some "translated", some 2⟩)] 5).translation).getD
          (.str ""))) "k"
      = some (some "new")
    ∧ check_and_update_flat
        ⟨some (.str "old"), true, some 7, some 0,
          some [("display_name", some 1)]⟩
        "display_name"
        [("display_name", ⟨some "new", some "untranslated", some 2⟩)] 5
      = ⟨some (.str "new"), false, none, some 5,
          some [("display_name", some 2)]⟩ := by
  constructor
  · have h := ((C1_revision_gating_amended.1
      ⟨some (.map [("k", some "old")]), true, some 7, some 0,
        some [("k", some 1)]⟩
      [("k", "v")]
      [("k", ⟨some "new", some "translated", some 2⟩)] 5
      (by decide) (by decide) (by decide) (by decide)).1) ("k", "v") (by decide)
    simpa using h
  · have h := C1_revision_gating_amended.2
      ⟨some (.str "old"), true, some 7, some 0,
        some [("display_name", some 1)]⟩
      "display_name"
      [("display_name", ⟨some "new", some "untranslated", some 2⟩)] 5
      (by decide) (by decide) (by decide)
    rw [h]
    decide

/-! ## C2 — cascade reset on base content update -/

/-- C2 counterexample: updating a base item's raw value clears the link's
translation and approval and deletes the target's versions, but the
link's last-fetch bookkeeping (`last_fetched`, `fetched_commits`) is **not**
cleared by `reset_fetched_translation_and_version_history`, while the claim
says it is. -/
theorem C2_cascade_reset_counterexample :
    (update_base_block_data (fun _ _ => [])
      ⟨[⟨"b1", none, "html", "c0", .source, [], false, none, false, false⟩,
        ⟨"t1", none, "html", "c1", .destination, [], true, some 1, true, false⟩],
       [⟨1, "b1", "display_name", "Hello", none, false, false⟩],
       [⟨"t1", 1, some (.str "Bonjour"), true, some 3, some 9,
          some [("display_name", some 4)]⟩],
       [⟨1, "t1", 0, [], some 3⟩]⟩
      "b1" "display_name" "Hi").links
      = [⟨"t1", 1, none, false, some 3, some 9, some [("display_name", some 4)]⟩]
    ∧ (update_base_block_data (fun _ _ => [])
      ⟨[⟨"b1", none, "html", "c0", .source, [], false, none, false, false⟩,
        ⟨"t1", none, "html", "c1", .destination, [], true, some 1, true, false⟩],
       [⟨1, "b1", "display_name", "Hello", none, false, false⟩],
       [⟨"t1", 1, some (.str "Bonjour"), true, some 3, some 9,
          some [("display_name", some 4)]⟩],
       [⟨1, "t1", 0, [], some 3⟩]⟩
      "b1" "display_name" "Hi").versions = []
    ∧ (some (9 : Nat) : Option Nat) ≠ none := by
  refine ⟨by decide, by decide, by decide⟩

/-- C2 (amended): when a base `CourseBlockData` row's raw value is updated,
then for every `WikiTranslation` pointing at that row the translated text is
cleared, the approved flag is cleared, every `TranslationVersion` of the
link's target block is deleted, and the target block's applied-version /
applied-translation / translated flags are cleared — but the link's
`last_fetched` and `fetched_commits` columns keep their values (the structure
update leaves them untouched); links of other rows are unchanged. -/
theorem C2_cascade_reset_amended
    (rawToMeta : String → String → List (String × String)) (s : Store)
    (blockId dataType updatedData : String) (row : CourseBlockDataRow)
    (hrow : s.blockData.find? (fun d =>
        d.courseBlock == blockId && d.dataType == dataType) = some row) :
    (∀ (i : Nat) (l : WikiTranslationRow),
      s.links[i]? = some l → l.sourceBlockData = row.id →
      (update_base_block_data rawToMeta s blockId dataType updatedData).links[i]?
          = some { l with translation := none, approved := false }
      ∧ ∀ v ∈ (update_base_block_data rawToMeta s blockId dataType
          updatedData).versions, v.blockId ≠ l.targetBlock)
    ∧ (∀ (i : Nat) (l : WikiTranslationRow),
      s.links[i]? = some l → l.sourceBlockData ≠ row.id →
      (update_base_block_data rawToMeta s blockId dataType updatedData).links[i]?
        = some l)
    ∧ (∀ (j : Nat) (b : CourseBlockRow), s.blocks[j]? = some b →
      (∃ l ∈ s.links, l.sourceBlockData = row.id ∧ l.targetBlock = b.blockId) →
      (update_base_block_data rawToMeta s blockId dataType updatedData).blocks[j]?
        = some { b with appliedVersion := none, appliedTranslation := false,
                        translated := false }) := by
  unfold update_base_block_data
  rw [hrow]
  unfold reset_fetched_translation_and_version_history
  refine ⟨?_, ?_, ?_⟩
  · intro i l hl hsrc
    constructor
    · simp only [List.getElem?_map, hl, Option.map_some]
      simp [hsrc]
    · intro v hv
      simp only [List.mem_filter] at hv
      have hcontains := hv.2
      intro hc
      have hmem : l.targetBlock ∈
          ((s.links.filter (fun x => x.sourceBlockData == row.id)).map
            (fun x : WikiTranslationRow => x.targetBlock)) := by
        refine List.mem_map_of_mem (fun x : WikiTranslationRow => x.targetBlock) ?_
        refine List.mem_filter.mpr ⟨?_, by simp [hsrc]⟩
        exact List.getElem?_mem hl
      rw [← hc] at hmem
      simp only [List.contains, List.elem_eq_true_of_mem hmem,
        Bool.not_true] at hcontains
      exact Bool.false_ne_true hcontains
  · intro i l hl hsrc
    simp only [List.getElem?_map, hl, Option.map_some]
    simp [hsrc]
  · intro j b hb hex
    obtain ⟨l, hlmem, hlsrc, hltgt⟩ := hex
    simp only [List.getElem?_map, hb, Option.map_some]
    have hmem : b.blockId ∈
        ((s.links.filter (fun x => x.sourceBlockData == row.id)).map
          (fun x : WikiTranslationRow => x.targetBlock)) := by
      rw [← hltgt]
      refine List.mem_map_of_mem (fun x : WikiTranslationRow => x.targetBlock) ?_
      exact List.mem_filter.mpr ⟨hlmem, by simp [hlsrc]⟩
    simp [hmem]

/-- C2 witness: the amended theorem applied to the concrete two-block store:
the link pointing at the updated row is cleared (translation, approval) while
other links are untouched. -/
theorem C2_cascade_reset_amended_witness :
    (update_base_block_data (fun _ _ => [])
      ⟨[⟨"b1", none, "html", "c0", .source, [], false, none, false, false⟩,
        ⟨"t1", none, "html", "c1", .destination, [], true, some 1, true, false⟩],
       [⟨1, "b1", "display_name", "Hello", none, false, false⟩],
       [⟨"t1", 1, some (.str "Bonjour"), true, some 3, some 9,
          some [("display_name", some 4)]⟩],
       [⟨1, "t1", 0, [], some 3⟩]⟩
      "b1" "display_name" "Hi").links[0]?
      = some { (⟨"t1", 1, some (.str "Bonjour"), true, some 3, some 9,
          some [("display_name", some 4)]⟩ : WikiTranslationRow) with
          translation := none, approved := false } := by
  exact ((C2_cascade_reset_amended (fun _ _ => [])
    ⟨[⟨"b1", none, "html", "c0", .source, [], false, none, false, false⟩,
      ⟨"t1", none, "html", "c1", .destination, [], true, some 1, true, false⟩],
     [⟨1, "b1", "display_name", "Hello", none, false, false⟩],
     [⟨"t1", 1, some (.str "Bonjour"), true, some 3, some 9,
        some [("display_name", some 4)]⟩],
     [⟨1, "t1", 0, [], some 3⟩]⟩
    "b1" "display_name" "Hi"
    ⟨1, "b1", "display_name", "Hello", none, false, false⟩ (by decide)).1 0
    ⟨"t1", 1, some (.str "Bonjour"), true, some 3, some 9,
      some [("display_name", some 4)]⟩ (by decide) rfl).1

/-! ## C4 — approval and version creation -/

/-- C4 counterexample: the approval operation does **not** require
`is_fully_translated`: a block with one untranslated link (translation
`None`, so `is_block_translated` is false) is approved without error — the
serializer only rejects a block whose links are already all approved. -/
theorem C4_approve_counterexample :
    is_block_translated "html"
      (linkViews
        ⟨[⟨"t1", none, "html", "c1", .destination, [], false, none, false, false⟩],
         [⟨1, "b1", "display_name", "Hello", none, false, false⟩],
         [⟨"t1", 1, none, false, none, none, none⟩], []⟩ "t1") = false
    ∧ (approveBlock
        ⟨[⟨"t1", none, "html", "c1", .destination, [], false, none, false, false⟩],
         [⟨1, "b1", "display_name", "Hello", none, false, false⟩],
         [⟨"t1", 1, none, false, none, none, none⟩], []⟩
        "t1" true (some 9) 100 true).toOption
      = some
        ⟨[⟨"t1", none, "html", "c1", .destination, [], true, some 1, false, false⟩],
         [⟨1, "b1", "display_name", "Hello", none, false, false⟩],
         [⟨"t1", 1, none, true, some 9, none, none⟩],
         [⟨1, "t1", 100, [("display_name", .flat none)], some 9⟩]⟩ := by
  refine ⟨by decide, by decide⟩

/-- C4 (amended): the approval operation's actual precondition is that the
block's links are not already all approved (`is_translations_approved`, which
is also vacuously true for a block without links); when it runs it stamps
`approved` and the approver on **every** `WikiTranslation` of the block,
appends a `TranslationVersion` holding the merged data-type → value snapshot
of the block's links, and marks that version as the block's applied version
only when writing the live block (`update_edx_block_from_version`)
succeeds. -/
theorem C4_approve_amended (s : Store) (blockId : String) (user : Option Nat)
    (now : Nat) (applySucceeds : Bool) :
    (is_translations_approved
        (s.links.filter (fun l => l.targetBlock == blockId)) = true →
      approveBlock s blockId true user now applySucceeds
        = .error ("block " ++ blockId ++ " is already approved"))
    ∧ (is_translations_approved
        (s.links.filter (fun l => l.targetBlock == blockId)) = false →
      ∃ s', approveBlock s blockId true user now applySucceeds = .ok s'
        ∧ (∀ l ∈ s'.links, l.targetBlock = blockId →
            l.approved = true ∧ l.approvedBy = user)
        ∧ s'.versions = s.versions ++
            [⟨freshVersionId { s with links := s.links.map (fun l =>
                if l.targetBlock == blockId then
                  { l with approved := true, approvedBy := user } else l) },
              blockId, now,
              get_snapshot
                ((((s.blocks.find? (fun b => b.blockId == blockId)).map
                  (fun b => b.blockType))).getD "")
                (linkViews { s with links := s.links.map (fun l =>
                  if l.targetBlock == blockId then
                    { l with approved := true, approvedBy := user } else l) }
                  blockId),
              user⟩]
        ∧ (applySucceeds = true → ∀ b ∈ s'.blocks, b.blockId = blockId →
            b.appliedTranslation = true
            ∧ b.appliedVersion = some (freshVersionId
                { s with links := s.links.map (fun l =>
                  if l.targetBlock == blockId then
                    { l with approved := true, approvedBy := user } else l) }))) := by
  constructor
  · intro happ
    unfold approveBlock
    rw [if_pos (by rw [happ]; rfl)]
  · intro happ
    unfold approveBlock
    rw [if_neg (by rw [happ]; simp)]
    rw [if_pos rfl]
    by_cases hap : applySucceeds = true
    · subst hap
      rw [if_pos rfl]
      refine ⟨_, rfl, ?_, rfl, ?_⟩
      · intro l hl htgt
        obtain ⟨orig, horig, hforig⟩ := List.mem_map.mp hl
        by_cases ho : orig.targetBlock == blockId
        · rw [if_pos ho] at hforig
          subst hforig
          exact ⟨rfl, rfl⟩
        · rw [if_neg ho] at hforig
          subst hforig
          exact absurd htgt (by simpa using ho)
      · intro _ b hb hbid
        obtain ⟨orig, horig, hforig⟩ := List.mem_map.mp hb
        by_cases ho : orig.blockId == blockId
        · rw [if_pos ho] at hforig
          subst hforig
          exact ⟨rfl, rfl⟩
        · rw [if_neg ho] at hforig
          subst hforig
          exact absurd hbid (by simpa using ho)
    · have hap' : applySucceeds = false := by simpa using hap
      subst hap'
      rw [if_neg (by simp)]
      refine ⟨_, rfl, ?_, rfl, by simp⟩
      · intro l hl htgt
        obtain ⟨orig, horig, hforig⟩ := List.mem_map.mp hl
        by_cases ho : orig.targetBlock == blockId
        · rw [if_pos ho] at hforig
          subst hforig
          exact ⟨rfl, rfl⟩
        · rw [if_neg ho] at hforig
          subst hforig
          exact absurd htgt (by simpa using ho)

/-- C4 witness: a block with a translated but not yet approved link passes
the real precondition and the amended theorem yields the approved store. -/
theorem C4_approve_amended_witness :
    ∃ s', approveBlock
        ⟨[⟨"t1", none, "html", "c1", .destination, [], false, none, false, false⟩],
         [⟨1, "b1", "display_name", "Hello", none, false, false⟩],
         [⟨"t1", 1, some (.str "Bonjour"), false, none, some 3, none⟩], []⟩
        "t1" true (some 9) 100 true = .ok s'
      ∧ ∀ l ∈ s'.links, l.targetBlock = "t1" →
          l.approved = true ∧ l.approvedBy = some 9 := by
  obtain ⟨s', h1, h2, _, _⟩ := (C4_approve_amended
    ⟨[⟨"t1", none, "html", "c1", .destination, [], false, none, false, false⟩],
     [⟨1, "b1", "display_name", "Hello", none, false, false⟩],
     [⟨"t1", 1, some (.str "Bonjour"), false, none, some 3, none⟩], []⟩
    "t1" (some 9) 100 true).2 (by decide)
  exact ⟨s', h1, h2⟩

/-! ## C5 / C6 — mapping-creation errors and strategy order -/

theorem qsGet_two {α : Type} (a b : α) (rest : List α) :
    qsGet (a :: b :: rest) = .multiple := rfl

theorem qsGet_of_two_le {α : Type} (l : List α) (h : 2 ≤ l.length) :
    qsGet l = .multiple := by
  match l with
  | [] => simp at h
  | [a] => simp at h
  | a :: b :: rest => rfl

theorem create_translation_mapping_step1_dne (s : Store)
    (baseData : List CourseBlockDataRow) (key value : String)
    (parentId : Option String) (target : TargetBlockInfo)
    (hstep1 : target.referenceKey = "" ∨ refCandidates baseData key target = []) :
    create_translation_mapping s baseData key value parentId target
      = (match qsGet (valueCandidates s baseData key value parentId) with
        | .multiple =>
            .error (.multipleObjectsFoundInMappingCreation
              ("Multiple source blocks found in data comparison for block_type: "
                ++ target.blockType ++ ", data_type: " ++ key ++ ", value: "
                ++ value)
              target.blockId)
        | .found d =>
            if dataBlockDeleted s d then .ok none
            else .ok (some (newLink target d))
        | .doesNotExist => .ok none) := by
  have hdne : (if target.referenceKey ≠ "" then
      qsGet (refCandidates baseData key target)
    else .doesNotExist) = GetResult.doesNotExist := by
    rcases hstep1 with h | h
    · rw [if_neg (by simp [h])]
    · by_cases hne : target.referenceKey ≠ ""
      · rw [if_pos hne, h]
        rfl
      · rw [if_neg hne]
  simp only [create_translation_mapping]
  rw [hdne]

/-- C5 counterexample: two base data rows whose block ids both end with the
target's reference key make the reference-key `get` raise Django's
`MultipleObjectsReturned`, which `create_translation_mapping` does **not**
convert into `MultipleObjectsFoundInMappingCreation` (only `DoesNotExist` is
caught around the reference-key lookup), contradicting the claim that every
strategy's ambiguity raises the custom error naming the block. -/
theorem C5_ambiguity_counterexample :
    create_translation_mapping
      ⟨[⟨"xabc", none, "html", "base", .source, [], false, none, false, false⟩,
        ⟨"yabc", none, "html", "base", .source, [], false, none, false, false⟩],
       [⟨1, "xabc", "display_name", "A", none, false, false⟩,
        ⟨2, "yabc", "display_name", "B", none, false, false⟩],
       [], []⟩
      [⟨1, "xabc", "display_name", "A", none, false, false⟩,
       ⟨2, "yabc", "display_name", "B", none, false, false⟩]
      "display_name" "whatever" none ⟨"t1", "abc", "html", "c"⟩
      = .error .multipleObjectsReturned := by
  rfl

/-- C5 (amended): ambiguity handling depends on the strategy: a reference-key
lookup matching several rows raises the ORM's `MultipleObjectsReturned`
(uncaught, naming nothing); in the data-comparison strategies a multiple
match raises `MultipleObjectsFoundInMappingCreation` naming the offending
target block; and when the data-comparison lookup finds no candidate the node
is left unmapped without error (`DoesNotExist` is logged and swallowed). -/
theorem C5_ambiguity_amended (s : Store) (baseData : List CourseBlockDataRow)
    (key value : String) (parentId : Option String) (target : TargetBlockInfo) :
    (target.referenceKey ≠ "" →
      2 ≤ (refCandidates baseData key target).length →
      create_translation_mapping s baseData key value parentId target
        = .error .multipleObjectsReturned)
    ∧ ((target.referenceKey = "" ∨ refCandidates baseData key target = []) →
      (2 ≤ (valueCandidates s baseData key value parentId).length →
        create_translation_mapping s baseData key value parentId target
          = .error (.multipleObjectsFoundInMappingCreation
              ("Multiple source blocks found in data comparison for block_type: "
                ++ target.blockType ++ ", data_type: " ++ key ++ ", value: "
                ++ value)
              target.blockId))
      ∧ (valueCandidates s baseData key value parentId = [] →
        create_translation_mapping s baseData key value parentId target
          = .ok none)) := by
  refine ⟨?_, ?_⟩
  · intro href hlen
    simp only [create_translation_mapping]
    rw [if_pos href, qsGet_of_two_le _ hlen]
  · intro hstep1
    constructor
    · intro hlen
      rw [create_translation_mapping_step1_dne s baseData key value parentId
        target hstep1, qsGet_of_two_le _ hlen]
    · intro hnil
      rw [create_translation_mapping_step1_dne s baseData key value parentId
        target hstep1, hnil]
      rfl

/-- C5 witness: empty reference-key and no data match leaves the node
unmapped without error, through the amended theorem on a concrete store. -/
theorem C5_ambiguity_amended_witness :
    create_translation_mapping ⟨[], [], [], []⟩ [] "display_name" "x" none
      ⟨"t1", "", "html", "c"⟩ = .ok none := by
  exact ((C5_ambiguity_amended ⟨[], [], [], []⟩ [] "display_name" "x" none
    ⟨"t1", "", "html", "c"⟩).2 (Or.inl rfl)).2 rfl

/-- C6 counterexample: the data-comparison strategies are alternatives, not
ordered fallbacks.  The rerun node's parent is mapped, the parent-scoped
value search finds nothing, and the whole-course value search would find
exactly one candidate — yet no `TranslationLink` is created (`.ok none`),
while the claim says the search stops at the first of three ordered
strategies that yields a result. -/
theorem C6_strategy_order_counterexample :
    create_translation_mapping
      ⟨[⟨"bp", none, "vertical", "base", .source, [], false, none, false, false⟩,
        ⟨"bc", some "OTHER", "html", "base", .source, [], false, none, false, false⟩],
       [⟨1, "bp", "display_name", "P", none, false, false⟩,
        ⟨2, "bc", "display_name", "Hello", none, false, false⟩],
       [⟨"tp", 1, none, false, none, none, none⟩], []⟩
      [⟨1, "bp", "display_name", "P", none, false, false⟩,
       ⟨2, "bc", "display_name", "Hello", none, false, false⟩]
      "display_name" "Hello" (some "tp") ⟨"t1", "zzz", "html", "c"⟩
      = .ok none
    ∧ ([⟨1, "bp", "display_name", "P", none, false, false⟩,
        ⟨2, "bc", "display_name", "Hello", none, false, false⟩].filter
        (fun d : CourseBlockDataRow =>
          d.dataType == "display_name" && d.data == "Hello")).length = 1 := by
  refine ⟨rfl, rfl⟩

/-- C6 (amended): mapping resolution tries the reference-key match first and,
if it raises `DoesNotExist` (or the reference key is empty), performs exactly
**one** data-comparison lookup: parent-scoped when some link already maps the
node's parent, whole-course otherwise — a failed parent-scoped search does
not fall back to the whole course.  A unique, non-deleted candidate yields
exactly the one new link (target block, matched row); a unique deleted
candidate yields nothing. -/
theorem C6_strategy_order_amended (s : Store)
    (baseData : List CourseBlockDataRow) (key value : String)
    (parentId : Option String) (target : TargetBlockInfo)
    (d : CourseBlockDataRow) :
    (target.referenceKey ≠ "" →
      refCandidates baseData key target = [d] →
      create_translation_mapping s baseData key value parentId target
        = (if dataBlockDeleted s d then .ok none
           else .ok (some (newLink target d))))
    ∧ ((target.referenceKey = "" ∨ refCandidates baseData key target = []) →
      valueCandidates s baseData key value parentId = [d] →
      create_translation_mapping s baseData key value parentId target
        = (if dataBlockDeleted s d then .ok none
           else .ok (some (newLink target d)))) := by
  constructor
  · intro href hone
    simp only [create_translation_mapping]
    rw [if_pos href, hone]
    rfl
  · intro hstep1 hone
    rw [create_translation_mapping_step1_dne s baseData key value parentId
      target hstep1, hone]
    rfl

/-- C6 witness: a rerun block sharing the base block's trailing reference key
is mapped by the reference-key strategy to exactly one new link. -/
theorem C6_strategy_order_amended_witness :
    create_translation_mapping
      ⟨[⟨"xabc", none, "html", "base", .source, [], false, none, false, false⟩],
       [⟨1, "xabc", "display_name", "Hello", none, false, false⟩], [], []⟩
      [⟨1, "xabc", "display_name", "Hello", none, false, false⟩]
      "display_name" "Hello" none ⟨"t1", "abc", "html", "c"⟩
      = .ok (some ⟨"t1", 1, none, false, none, none, none⟩) := by
  have h := (C6_strategy_order_amended
    ⟨[⟨"xabc", none, "html", "base", .source, [], false, none, false, false⟩],
     [⟨1, "xabc", "display_name", "Hello", none, false, false⟩], [], []⟩
    [⟨1, "xabc", "display_name", "Hello", none, false, false⟩]
    "display_name" "Hello" none ⟨"t1", "abc", "html", "c"⟩
    ⟨1, "xabc", "display_name", "Hello", none, false, false⟩).1
    (by decide) (by rfl)
  simpa using h


/-! ## C9 — mapping uniqueness invariant -/

theorem wikiTranslationCreate_preserves (links : List WikiTranslationRow)
    (l : WikiTranslationRow) (links' : List WikiTranslationRow)
    (hu : LinksUnique links) (h : wikiTranslationCreate links l = .ok links') :
    LinksUnique links' := by
  unfold wikiTranslationCreate at h
  by_cases hany : links.any (fun x =>
      x.targetBlock == l.targetBlock && x.sourceBlockData == l.sourceBlockData) = true
  · rw [if_pos hany] at h
    exact absurd h (by simp)
  · rw [if_neg hany] at h
    obtain rfl : links ++ [l] = links' := by
      simpa using h
    unfold LinksUnique
    rw [List.pairwise_append]
    refine ⟨hu, by simp, ?_⟩
    intro a ha b hb
    have hb' : b = l := by simpa using hb
    subst hb'
    intro hcon
    exact hany (List.any_eq_true.mpr ⟨a, ha, by simp [hcon.1, hcon.2]⟩)

theorem create_translation_mapping_db_preserves (s : Store)
    (baseData : List CourseBlockDataRow) (key value : String)
    (parentId : Option String) (target : TargetBlockInfo) (s' : Store)
    (hu : LinksUnique s.links)
    (h : create_translation_mapping_db s baseData key value parentId target
      = .ok s') : LinksUnique s'.links := by
  unfold create_translation_mapping_db at h
  split at h
  · exact absurd h (by simp)
  · obtain rfl : s = s' := by simpa using h
    exact hu
  · rename_i l heq
    split at h
    · exact absurd h (by simp)
    · rename_i links' heq2
      obtain rfl : { s with links := links' } = s' := by simpa using h
      exact wikiTranslationCreate_preserves s.links l links' hu heq2

theorem foldlM_except_preserves {α : Type} (P : Store → Prop)
    (f : Store → α → Except StoreError Store)
    (hf : ∀ st a st', P st → f st a = .ok st' → P st') :
    ∀ (l : List α) (st st' : Store), P st → l.foldlM f st = .ok st' → P st' := by
  intro l
  induction l with
  | nil =>
      intro st st' hp h
      obtain rfl : st = st' := Except.ok.inj h
      exact hp
  | cons a rest ih =>
      intro st st' hp h
      rw [List.foldlM_cons] at h
      cases hfa : f st a with
      | error e =>
          rw [hfa] at h
          exact Except.noConfusion h
      | ok s1 =>
          rw [hfa] at h
          exact ih s1 st' (hf st a s1 hp hfa) h

/-- C9: at most one `WikiTranslation` per (target block, source item) pair in
every reachable state: the database `unique_together` constraint refuses a
duplicate insert with an `IntegrityError` (never writing a duplicate row),
and every mapping-creating operation — `create_translation_mapping` with its
insert, and `map_translated_course_block` over an outline node — preserves
the uniqueness invariant. -/
theorem C9_mapping_uniqueness :
    (∀ (links : List WikiTranslationRow) (l : WikiTranslationRow)
      (links' : List WikiTranslationRow), LinksUnique links →
      wikiTranslationCreate links l = .ok links' → LinksUnique links')
    ∧ (∀ (links : List WikiTranslationRow) (l : WikiTranslationRow),
      links.any (fun x => x.targetBlock == l.targetBlock
        && x.sourceBlockData == l.sourceBlockData) = true →
      wikiTranslationCreate links l
        = .error (.integrity
            "UNIQUE constraint failed: target_block, source_block_data"))
    ∧ (∀ (s : Store) (baseData : List CourseBlockDataRow) (key value : String)
      (parentId : Option String) (target : TargetBlockInfo) (s' : Store),
      LinksUnique s.links →
      create_translation_mapping_db s baseData key value parentId target
        = .ok s' → LinksUnique s'.links)
    ∧ (∀ (s : Store) (baseData : List CourseBlockDataRow)
      (outline : OutlineBlockDict) (refKey courseId : String) (s' : Store),
      LinksUnique s.links →
      map_translated_course_block s baseData outline refKey courseId = .ok s' →
      LinksUnique s'.links) := by
  refine ⟨wikiTranslationCreate_preserves, ?_, create_translation_mapping_db_preserves, ?_⟩
  · intro links l hany
    unfold wikiTranslationCreate
    rw [if_pos hany]
  · intro s baseData outline refKey courseId s' hu h
    simp only [map_translated_course_block] at h
    split at h
    · refine foldlM_except_preserves (fun st => LinksUnique st.links) _
        ?_ outline.data
        { s with blocks := s.blocks ++
          [⟨outline.usageKey, outline.parentUsageKey, outline.category,
            courseId, .destination, [], false, none, false, false⟩] }
        s' hu h
      intro st a st' hp hfa
      exact create_translation_mapping_db_preserves st baseData a.1 a.2
        outline.parentUsageKey ⟨outline.usageKey, refKey, outline.category,
          courseId⟩ st' hp hfa
    · rename_i courseBlock hfind
      refine foldlM_except_preserves (fun st => LinksUnique st.links) _
        ?_ outline.data s s' hu h
      intro st a st' hp hfa
      split at hfa
      · obtain rfl : st = st' := by simpa using hfa
        exact hp
      · exact absurd hfa (by simp)
      · exact create_translation_mapping_db_preserves st baseData a.1 a.2
          outline.parentUsageKey ⟨courseBlock.blockId, refKey,
            courseBlock.blockType, courseBlock.courseId⟩ st' hp hfa


/-- C9 witness: inserting a first mapping into a store with no links keeps
the links unique (via the db-level preservation part of the theorem at a
concrete store). -/
theorem C9_mapping_uniqueness_witness :
    LinksUnique [⟨"t1", 1, none, false, none, none, none⟩] := by
  refine C9_mapping_uniqueness.2.2.1
    ⟨[⟨"xabc", none, "html", "base", .source, [], false, none, false, false⟩],
     [⟨1, "xabc", "display_name", "Hello", none, false, false⟩], [], []⟩
    [⟨1, "xabc", "display_name", "Hello", none, false, false⟩]
    "display_name" "Hello" none ⟨"t1", "abc", "html", "c"⟩
    ⟨[⟨"xabc", none, "html", "base", .source, [], false, none, false, false⟩],
     [⟨1, "xabc", "display_name", "Hello", none, false, false⟩],
     [⟨"t1", 1, none, false, none, none, none⟩], []⟩
    (by unfold LinksUnique; simp) rfl

/-! ## C3 — string lemmas for the path/key conversions -/

theorem bracketHead_ne (c : Char) (l : List Char) (hc : c ≠ '[') :
    bracketHead (c :: l) = none := by
  unfold bracketHead
  split
  · rename_i d s heq
    injection heq with h1 _
    exact absurd h1 hc
  · rfl

theorem bracketHead_match (d : Char) (s : List Char) (hd : d.isDigit = true) :
    bracketHead ('[' :: d :: ']' :: s) = some (d, s) := by
  unfold bracketHead
  simp [hd]

theorem findBracketSplit_cons_ne (c : Char) (l : List Char) (hc : c ≠ '[') :
    findBracketSplit (c :: l)
      = (findBracketSplit l).map (fun t => (c :: t.1, t.2.1, t.2.2)) := by
  rw [findBracketSplit, bracketHead_ne c l hc]

theorem findBracketSplit_append_left (xs ys : List Char) (h : '[' ∉ xs) :
    findBracketSplit (xs ++ ys)
      = (findBracketSplit ys).map (fun t => (xs ++ t.1, t.2.1, t.2.2)) := by
  induction xs with
  | nil =>
      simp only [List.nil_append]
      cases findBracketSplit ys <;> simp
  | cons c rest ih =>
      have hc : c ≠ '[' := fun hh => h (hh ▸ List.mem_cons_self c rest)
      have hrest : '[' ∉ rest := fun hh => h (List.mem_cons_of_mem c hh)
      rw [List.cons_append, findBracketSplit_cons_ne c _ hc, ih hrest]
      cases findBracketSplit ys <;> simp

theorem findBracketSplit_none (cs : List Char) (h : '[' ∉ cs) :
    findBracketSplit cs = none := by
  have := findBracketSplit_append_left cs [] h
  simpa using this

theorem findBracketSplit_exact (xs : List Char) (d : Char) (ys : List Char)
    (h : '[' ∉ xs) (hd : d.isDigit = true) :
    findBracketSplit (xs ++ '[' :: d :: ']' :: ys) = some (xs, d, ys) := by
  rw [findBracketSplit_append_left xs _ h]
  have : findBracketSplit ('[' :: d :: ']' :: ys) = some ([], d, ys) := by
    unfold findBracketSplit
    rw [bracketHead_match d ys hd]
  rw [this]
  simp

theorem findBracketSplit_cons_none (c : Char) (l : List Char)
    (h : bracketHead (c :: l) = none) :
    findBracketSplit (c :: l)
      = (findBracketSplit l).map (fun t => (c :: t.1, t.2.1, t.2.2)) := by
  rw [findBracketSplit, h]

theorem bracketHead_no_third_rb (c1 c2 : Char) (l : List Char)
    (h : c2 ≠ ']') : bracketHead ('[' :: c1 :: c2 :: l) = none := by
  unfold bracketHead
  split
  · rename_i d s heq
    injection heq with _ heq2
    injection heq2 with _ heq3
    injection heq3 with h3 _
    exact absurd h3 h
  · rfl

theorem bss_of_no_lb (a : List Char) (h : '[' ∉ a) : BracketShiftSafe a :=
  fun ys => findBracketSplit_append_left a ys h

theorem bss_append (a b : List Char) (ha : BracketShiftSafe a)
    (hb : BracketShiftSafe b) : BracketShiftSafe (a ++ b) := by
  intro ys
  rw [List.append_assoc, ha (b ++ ys), hb ys]
  cases findBracketSplit ys <;> simp

theorem bss_group (d1 d2 : Char) (rest : List Char)
    (hd2 : d2 ≠ ']') (hnb : '[' ∉ d1 :: d2 :: rest) :
    BracketShiftSafe ('[' :: ((d1 :: d2 :: rest) ++ [']'])) := by
  intro ys
  have hbh : bracketHead ('[' :: (((d1 :: d2 :: rest) ++ [']']) ++ ys))
      = none := by
    show bracketHead ('[' :: d1 :: d2 :: ((rest ++ [']']) ++ ys)) = none
    exact bracketHead_no_third_rb d1 d2 _ hd2
  rw [show ('[' :: ((d1 :: d2 :: rest) ++ [']'])) ++ ys
      = '[' :: (((d1 :: d2 :: rest) ++ [']']) ++ ys) from rfl]
  rw [findBracketSplit_cons_none _ _ hbh]
  have hno : '[' ∉ (d1 :: d2 :: rest) ++ [']'] := by
    intro hm
    rcases List.mem_append.mp hm with hm | hm
    · exact hnb hm
    · simp at hm
  rw [findBracketSplit_append_left _ ys hno]
  cases findBracketSplit ys <;> simp

theorem findBracketSplit_exact_bss (xs : List Char) (d : Char) (ys : List Char)
    (h : BracketShiftSafe xs) (hd : d.isDigit = true) :
    findBracketSplit (xs ++ '[' :: d :: ']' :: ys) = some (xs, d, ys) := by
  rw [h ('[' :: d :: ']' :: ys)]
  have h2 : findBracketSplit ('[' :: d :: ']' :: ys) = some ([], d, ys) := by
    unfold findBracketSplit
    rw [bracketHead_match d ys hd]
  rw [h2]
  simp

theorem bss_none (pre : List Char) (h : BracketShiftSafe pre) :
    findBracketSplit pre = none := by
  have := h []
  simpa using this

theorem bracketLoopFuel_no_match (f : Nat) (cs : List Char)
    (h : findBracketSplit cs = none) : bracketLoopFuel f cs = cs := by
  cases f with
  | zero => rfl
  | succ n =>
      unfold bracketLoopFuel
      rw [h]

theorem toDigits_single (j : Nat) (hj : j ≤ 9) :
    Nat.toDigits 10 j = [Nat.digitChar j] := by
  interval_cases j <;> rfl

theorem digitChar_isDigit (j : Nat) (hj : j ≤ 9) :
    (Nat.digitChar j).isDigit = true := by
  interval_cases j <;> decide

theorem toDigitsCore_eq_digits (fuel : Nat) :
    ∀ (n : Nat) (ds : List Char), 1 ≤ n → n < fuel →
    Nat.toDigitsCore 10 fuel n ds
      = ((Nat.digits 10 n).map Nat.digitChar).reverse ++ ds := by
  induction fuel with
  | zero => intro n ds h1 h2; omega
  | succ f ih =>
      intro n ds h1 h2
      rw [Nat.toDigitsCore]
      have hdig : Nat.digits 10 n = n % 10 :: Nat.digits 10 (n / 10) :=
        Nat.digits_def' (by norm_num) (by omega)
      by_cases hz : n / 10 = 0
      · rw [if_pos hz, hdig, hz]
        simp
      · rw [if_neg hz]
        have hlt : n / 10 < n := Nat.div_lt_self (by omega) (by norm_num)
        rw [ih (n / 10) _ (by omega) (by omega), hdig]
        simp

theorem toDigits_eq_digits (n : Nat) (h : 1 ≤ n) :
    Nat.toDigits 10 n = ((Nat.digits 10 n).map Nat.digitChar).reverse := by
  have := toDigitsCore_eq_digits (n + 1) n [] h (by omega)
  simpa [Nat.toDigits] using this

theorem digits_le_nine (n : Nat) : ∀ d ∈ Nat.digits 10 n, d ≤ 9 := by
  intro d hd
  have := Nat.digits_lt_base (by norm_num) hd
  omega

theorem toDigits_all_digit (n : Nat) (h : 1 ≤ n) :
    ∀ c ∈ Nat.toDigits 10 n, c.isDigit = true := by
  intro c hc
  rw [toDigits_eq_digits n h, List.mem_reverse] at hc
  rcases List.mem_map.mp hc with ⟨d, hd, rfl⟩
  exact digitChar_isDigit d (digits_le_nine n d hd)

theorem toDigits_two_le (n : Nat) (h : 10 ≤ n) :
    2 ≤ (Nat.toDigits 10 n).length := by
  rw [toDigits_eq_digits n (by omega)]
  simp only [List.length_reverse, List.length_map]
  have hdig : Nat.digits 10 n = n % 10 :: Nat.digits 10 (n / 10) :=
    Nat.digits_def' (by norm_num) (by omega)
  rw [hdig]
  simp only [List.length_cons]
  have h1 : 1 ≤ n / 10 := Nat.le_div_iff_mul_le (by norm_num) |>.mpr (by omega)
  have h2 : Nat.digits 10 (n / 10) ≠ [] := by
    rw [Nat.digits_ne_nil_iff_ne_zero]
    omega
  have h3 := List.length_pos.mpr h2
  omega

theorem digit_ne_chars (c : Char) (hc : c.isDigit = true) :
    c ≠ '[' ∧ c ≠ ']' ∧ c ≠ '.' ∧ c ≠ '/' := by
  refine ⟨?_, ?_, ?_, ?_⟩ <;>
    (intro hh; rw [hh] at hc; exact absurd hc (by decide))

theorem validTag_no_lb (t : String) (h : validTag t = true) :
    '[' ∉ t.toList := by
  unfold validTag at h
  simp only [Bool.and_eq_true, List.all_eq_true] at h
  intro hm
  have := h.1.2 '[' hm
  simp at this

theorem validTag_no_dot (t : String) (h : validTag t = true) :
    '.' ∉ t.toList := by
  unfold validTag at h
  simp only [Bool.and_eq_true, List.all_eq_true] at h
  intro hm
  have := h.1.2 '.' hm
  simp at this

theorem validTag_no_slash (t : String) (h : validTag t = true) :
    '/' ∉ t.toList := by
  unfold validTag at h
  simp only [Bool.and_eq_true, List.all_eq_true] at h
  intro hm
  have := h.1.2 '/' hm
  simp at this

theorem validTag_no_rb (t : String) (h : validTag t = true) :
    ']' ∉ t.toList := by
  unfold validTag at h
  simp only [Bool.and_eq_true, List.all_eq_true] at h
  intro hm
  have := h.1.2 ']' hm
  simp at this

theorem validTag_ne_nil (t : String) (h : validTag t = true) :
    t.toList ≠ [] := by
  unfold validTag at h
  simp only [Bool.and_eq_true] at h
  intro hnil
  have ht : t = "" := by
    cases t with
    | mk data => simpa [String.toList] using congrArg String.mk hnil
  rw [ht] at h
  simp at h

theorem validTag_head_not_digit (t : String) (h : validTag t = true) :
    (t.toList.headD ' ').isDigit = false := by
  unfold validTag at h
  simp only [Bool.and_eq_true] at h
  simpa using h.2

theorem dotRender_nil : dotRender [] = [] := rfl

theorem keyRender_nil : keyRender [] = [] := rfl

theorem dotRender_cons (s : PathSeg) (rest : List PathSeg) :
    dotRender (s :: rest) = '.' :: renderSegChars s ++ dotRender rest := rfl

theorem keyRender_cons (s : PathSeg) (rest : List PathSeg) :
    keyRender (s :: rest) = '.' :: keySegChars s ++ keyRender rest := rfl

theorem countIndexed_cons_none (t : String) (rest : List PathSeg) :
    countIndexed ((t, none) :: rest) = countIndexed rest := by
  simp [countIndexed, List.filter_cons]

theorem countIndexed_cons_some (t : String) (j : Nat) (rest : List PathSeg)
    (hj : j ≤ 9) :
    countIndexed ((t, some j) :: rest) = countIndexed rest + 1 := by
  simp [countIndexed, List.filter_cons, hj]

theorem countIndexed_cons_some_gt (t : String) (j : Nat) (rest : List PathSeg)
    (hj : ¬ j ≤ 9) :
    countIndexed ((t, some j) :: rest) = countIndexed rest := by
  simp [countIndexed, List.filter_cons, hj]

theorem keySegChars_le_nine (t : String) (j : Nat) (hj : j ≤ 9) :
    keySegChars (t, some j) = t.toList ++ '.' :: Nat.toDigits 10 j := by
  show (if j ≤ 9 then t.toList ++ '.' :: Nat.toDigits 10 j
    else t.toList ++ '[' :: (Nat.toDigits 10 j ++ [']'])) = _
  rw [if_pos hj]

theorem keySegChars_gt_nine (t : String) (j : Nat) (hj : ¬ j ≤ 9) :
    keySegChars (t, some j) = renderSegChars (t, some j) := by
  show (if j ≤ 9 then t.toList ++ '.' :: Nat.toDigits 10 j
    else t.toList ++ '[' :: (Nat.toDigits 10 j ++ [']'])) = _
  rw [if_neg hj]
  show _ = t.toList ++ '[' :: Nat.toDigits 10 j ++ [']']
  simp

theorem renderSeg_some_shape (t : String) (j : Nat) :
    renderSegChars (t, some j)
      = t.toList ++ '[' :: (Nat.toDigits 10 j ++ [']']) := by
  show t.toList ++ '[' :: Nat.toDigits 10 j ++ [']'] = _
  simp

theorem toDigits_shape_gt_nine (j : Nat) (hj : ¬ j ≤ 9) :
    ∃ d1 d2 rest2, Nat.toDigits 10 j = d1 :: d2 :: rest2 := by
  have hlen := toDigits_two_le j (by omega)
  cases hds : Nat.toDigits 10 j with
  | nil => rw [hds] at hlen; simp at hlen
  | cons d1 ds1 =>
      cases ds1 with
      | nil => rw [hds] at hlen; simp at hlen
      | cons d2 rest2 => exact ⟨d1, d2, rest2, rfl⟩

theorem bss_bracket_group (j : Nat) (hj : ¬ j ≤ 9) :
    BracketShiftSafe ('[' :: (Nat.toDigits 10 j ++ [']'])) := by
  obtain ⟨d1, d2, rest2, hds⟩ := toDigits_shape_gt_nine j hj
  have hall : ∀ c ∈ Nat.toDigits 10 j, c.isDigit = true :=
    toDigits_all_digit j (by omega)
  rw [hds] at hall ⊢
  refine bss_group d1 d2 rest2 ?_ ?_
  · have h2 := hall d2 (List.mem_cons_of_mem _ (List.mem_cons_self _ _))
    exact (digit_ne_chars d2 h2).2.1
  · intro hm
    have h2 := hall '[' hm
    exact absurd h2 (by decide)

theorem bracketLoop_renders (segs : List PathSeg) :
    ∀ (pre : List Char) (k : Nat), (∀ s ∈ segs, goodSeg s = true) →
    BracketShiftSafe pre →
    bracketLoopFuel (countIndexed segs + k) (pre ++ dotRender segs)
      = pre ++ keyRender segs := by
  induction segs with
  | nil =>
      intro pre k _ hpre
      rw [dotRender_nil, keyRender_nil, List.append_nil]
      exact bracketLoopFuel_no_match _ pre (bss_none pre hpre)
  | cons s rest ih =>
      intro pre k hgood hpre
      obtain ⟨t, idx⟩ := s
      have hs := hgood (t, idx) (List.mem_cons_self _ _)
      cases idx with
      | none =>
          have hvt : validTag t = true := by simpa [goodSeg] using hs
          rw [countIndexed_cons_none, dotRender_cons, keyRender_cons]
          have hnolb : '[' ∉ ('.' :: t.toList : List Char) := by
            intro hm
            rcases List.mem_cons.mp hm with hm | hm
            · exact absurd hm.symm (by decide)
            · exact validTag_no_lb t hvt hm
          have hpre' : BracketShiftSafe (pre ++ '.' :: t.toList) :=
            bss_append _ _ hpre (bss_of_no_lb _ hnolb)
          have := ih (pre ++ '.' :: t.toList) k
            (fun s hm => hgood s (List.mem_cons_of_mem _ hm)) hpre'
          simpa [renderSegChars, keySegChars, List.append_assoc] using this
      | some j =>
          have hparts : validTag t = true ∧ 1 ≤ j := by
            simpa [goodSeg, Bool.and_eq_true, decide_eq_true_eq] using hs
          have hvt : validTag t = true := hparts.1
          have hnolb : '[' ∉ ('.' :: t.toList : List Char) := by
            intro hm
            rcases List.mem_cons.mp hm with hm | hm
            · exact absurd hm.symm (by decide)
            · exact validTag_no_lb t hvt hm
          have hpre' : BracketShiftSafe (pre ++ '.' :: t.toList) :=
            bss_append _ _ hpre (bss_of_no_lb _ hnolb)
          by_cases hj9 : j ≤ 9
          · rw [countIndexed_cons_some t j rest hj9, dotRender_cons,
              keyRender_cons]
            have hshape : pre ++ '.' :: renderSegChars (t, some j)
                ++ dotRender rest
                = (pre ++ '.' :: t.toList)
                  ++ '[' :: Nat.digitChar j :: ']' :: dotRender rest := by
              simp [renderSegChars, toDigits_single j hj9, List.append_assoc]
            have hfuel : countIndexed rest + 1 + k
                = (countIndexed rest + k) + 1 := by
              omega
            rw [← List.append_assoc, hshape, hfuel]
            unfold bracketLoopFuel
            rw [findBracketSplit_exact_bss _ _ _ hpre'
              (digitChar_isDigit j hj9)]
            have hnolb2 : '[' ∉ ('.' :: [Nat.digitChar j] : List Char) := by
              intro hm
              rcases List.mem_cons.mp hm with hm | hm
              · exact absurd hm (by decide)
              · have h1 : '[' = Nat.digitChar j := List.mem_singleton.mp hm
                have h2 := digitChar_isDigit j hj9
                rw [← h1] at h2
                exact absurd h2 (by decide)
            have hpre'' : BracketShiftSafe ((pre ++ '.' :: t.toList)
                ++ '.' :: [Nat.digitChar j]) :=
              bss_append _ _ hpre' (bss_of_no_lb _ hnolb2)
            have hih := ih ((pre ++ '.' :: t.toList) ++ '.' :: [Nat.digitChar j]) k
              (fun s hm => hgood s (List.mem_cons_of_mem _ hm)) hpre''
            have hshape2 : (pre ++ '.' :: t.toList)
                ++ '.' :: Nat.digitChar j :: dotRender rest
                = ((pre ++ '.' :: t.toList) ++ '.' :: [Nat.digitChar j])
                  ++ dotRender rest := by
              simp
            show bracketLoopFuel (countIndexed rest + k)
                ((pre ++ '.' :: t.toList)
                  ++ '.' :: Nat.digitChar j :: dotRender rest)
              = pre ++ ('.' :: keySegChars (t, some j) ++ keyRender rest)
            rw [hshape2, hih]
            simp [keySegChars_le_nine t j hj9, toDigits_single j hj9]
          · rw [countIndexed_cons_some_gt t j rest hj9, dotRender_cons,
              keyRender_cons]
            have hbss2 : BracketShiftSafe ((pre ++ '.' :: t.toList)
                ++ '[' :: (Nat.toDigits 10 j ++ [']'])) :=
              bss_append _ _ hpre' (bss_bracket_group j hj9)
            have hgoal1 : pre ++ ('.' :: renderSegChars (t, some j)
                ++ dotRender rest)
                = ((pre ++ '.' :: t.toList)
                    ++ '[' :: (Nat.toDigits 10 j ++ [']'])) ++ dotRender rest := by
              rw [renderSeg_some_shape t j]
              simp
            have hih := ih ((pre ++ '.' :: t.toList)
                ++ '[' :: (Nat.toDigits 10 j ++ [']'])) k
              (fun u hm => hgood u (List.mem_cons_of_mem _ hm)) hbss2
            rw [hgoal1, hih, keySegChars_gt_nine t j hj9,
              renderSeg_some_shape t j]
            simp

theorem renderXPathChars_eq_flatten (segs : List PathSeg) :
    renderXPathChars segs
      = (segs.map (fun s => '/' :: renderSegChars s)).flatten := by
  have aux : ∀ (l : List PathSeg) (acc : List Char),
      l.foldl (fun acc s => acc ++ '/' :: renderSegChars s) acc
        = acc ++ (l.map (fun s => '/' :: renderSegChars s)).flatten := by
    intro l
    induction l with
    | nil => intro acc; simp
    | cons s rest ih =>
        intro acc
        simp [List.foldl_cons, ih]
  simpa using aux segs []

theorem renderSegChars_no_slash (s : PathSeg) (h : goodSeg s = true) :
    '/' ∉ renderSegChars s := by
  obtain ⟨t, idx⟩ := s
  cases idx with
  | none =>
      have hvt : validTag t = true := by simpa [goodSeg] using h
      exact validTag_no_slash t hvt
  | some j =>
      have hparts : validTag t = true ∧ 1 ≤ j := by
        simpa [goodSeg, Bool.and_eq_true, decide_eq_true_eq] using h
      intro hm
      rw [renderSeg_some_shape t j] at hm
      rcases List.mem_append.mp hm with hm | hm
      · exact validTag_no_slash t hparts.1 hm
      · rcases List.mem_cons.mp hm with hm | hm
        · exact absurd hm (by decide)
        · rcases List.mem_append.mp hm with hm | hm
          · have h2 := toDigits_all_digit j hparts.2 '/' hm
            exact absurd h2 (by decide)
          · have h3 : ('/' : Char) = ']' := by simpa using hm
            exact absurd h3 (by decide)

theorem map_dot_id (cs : List Char) (h : '/' ∉ cs) :
    cs.map (fun c => if c == '/' then '.' else c) = cs := by
  induction cs with
  | nil => rfl
  | cons c rest ih =>
      have hc : c ≠ '/' := fun hh => h (hh ▸ List.mem_cons_self c rest)
      have hrest : '/' ∉ rest := fun hh => h (List.mem_cons_of_mem c hh)
      rw [List.map_cons, ih hrest]
      have hcb : (c == '/') = false := by simpa using hc
      rw [hcb]
      simp

theorem map_dot_flatten (segs : List PathSeg)
    (h : ∀ s ∈ segs, '/' ∉ renderSegChars s) :
    ((segs.map (fun s => '/' :: renderSegChars s)).flatten).map
        (fun c => if c == '/' then '.' else c)
      = dotRender segs := by
  induction segs with
  | nil => rfl
  | cons s rs ih =>
      have hs : '/' ∉ renderSegChars s := h s (List.mem_cons_self _ _)
      simp only [List.map_cons, List.flatten_cons, List.map_append,
        List.map_cons, dotRender]
      rw [map_dot_id _ hs,
        ih (fun u hm => h u (List.mem_cons_of_mem _ hm))]
      simp [dotRender]

theorem countIndexed_le_dotRender_length (segs : List PathSeg) :
    countIndexed segs ≤ (dotRender segs).length := by
  induction segs with
  | nil => simp [countIndexed, dotRender]
  | cons s rest ih =>
      obtain ⟨t, idx⟩ := s
      cases idx with
      | none =>
          rw [countIndexed_cons_none, dotRender_cons]
          simp only [List.length_cons, List.length_append]
          omega
      | some j =>
          have hcount : countIndexed ((t, some j) :: rest)
              ≤ countIndexed rest + 1 := by
            by_cases hj : j ≤ 9
            · rw [countIndexed_cons_some t j rest hj]
            · rw [countIndexed_cons_some_gt t j rest hj]
              omega
          rw [dotRender_cons]
          simp only [List.length_append, List.length_cons]
          omega

theorem convert_key_of_render (t0 : String) (rest : List PathSeg)
    (h0 : validTag t0 = true) (hrest : ∀ s ∈ rest, goodSeg s = true) :
    convert_xpath_to_meta_key_format ⟨renderXPathChars ((t0, none) :: rest)⟩
      = ⟨t0.toList ++ keyRender rest⟩ := by
  unfold convert_xpath_to_meta_key_format
  have htl : (String.mk (renderXPathChars ((t0, none) :: rest))).toList
      = renderXPathChars ((t0, none) :: rest) := rfl
  rw [htl, renderXPathChars_eq_flatten]
  have hchunks : (((t0, none) :: rest).map
        (fun s => '/' :: renderSegChars s)).flatten
      = '/' :: renderSegChars (t0, none)
        ++ (rest.map (fun s => '/' :: renderSegChars s)).flatten := by
    simp
  rw [hchunks]
  have hnos : ∀ s ∈ rest, '/' ∉ renderSegChars s := fun s hm =>
    renderSegChars_no_slash s (hrest s hm)
  have hmap : (('/' :: renderSegChars (t0, none)
        ++ (rest.map (fun s => '/' :: renderSegChars s)).flatten).map
        (fun c => if c == '/' then '.' else c))
      = '.' :: t0.toList ++ dotRender rest := by
    rw [List.map_append, List.map_cons]
    have h1 : ((if ('/' : Char) == '/' then '.' else '/') : Char) = '.' := by
      decide
    rw [h1]
    have h2 : (renderSegChars (t0, none)).map
        (fun c => if c == '/' then '.' else c) = renderSegChars (t0, none) :=
      map_dot_id _ (renderSegChars_no_slash (t0, none) (by simp [goodSeg, h0]))
    rw [h2, map_dot_flatten rest hnos]
    rfl
  rw [hmap]
  have hdrop : ('.' :: t0.toList ++ dotRender rest).drop 1
      = t0.toList ++ dotRender rest := by
    simp
  rw [hdrop]
  have hle : countIndexed rest ≤ (t0.toList ++ dotRender rest).length := by
    have h1 := countIndexed_le_dotRender_length rest
    simp only [List.length_append]
    omega
  have hfuel : (t0.toList ++ dotRender rest).length
      = countIndexed rest + ((t0.toList ++ dotRender rest).length
        - countIndexed rest) := by
    omega
  show String.mk (bracketLoopFuel (t0.toList ++ dotRender rest).length
      (t0.toList ++ dotRender rest)) = String.mk (t0.toList ++ keyRender rest)
  rw [hfuel, bracketLoop_renders rest t0.toList
    ((t0.toList ++ dotRender rest).length - countIndexed rest) hrest
    (bss_of_no_lb _ (validTag_no_lb t0 h0))]

theorem dotHead_ne_dot (c : Char) (l : List Char) (hc : c ≠ '.') :
    dotHead (c :: l) = none := by
  unfold dotHead
  split
  · rename_i d s heq
    injection heq with h1 _
    exact absurd h1 hc
  · rfl

theorem dotHead_nondigit (c : Char) (l : List Char)
    (hc : c.isDigit = false) : dotHead ('.' :: c :: l) = none := by
  unfold dotHead
  simp [hc]

theorem dotHead_match (d : Char) (s : List Char) (hd : d.isDigit = true) :
    dotHead ('.' :: d :: s) = some (d, s) := by
  unfold dotHead
  simp [hd]

theorem findDotSplit_cons_none (c : Char) (l : List Char)
    (h : dotHead (c :: l) = none) :
    findDotSplit (c :: l)
      = (findDotSplit l).map (fun t => (c :: t.1, t.2.1, t.2.2)) := by
  rw [findDotSplit, h]

theorem dotsSafe_cons (c : Char) (l : List Char) :
    dotsSafe (c :: l)
      = ((c != '.' || (match l with
          | [] => false
          | c2 :: _ => !c2.isDigit)) && dotsSafe l) := rfl

theorem findDotSplit_append_left (xs : List Char) :
    ∀ (ys : List Char), dotsSafe xs = true →
    findDotSplit (xs ++ ys)
      = (findDotSplit ys).map (fun t => (xs ++ t.1, t.2.1, t.2.2)) := by
  induction xs with
  | nil =>
      intro ys _
      simp only [List.nil_append]
      cases findDotSplit ys <;> simp
  | cons c rest ih =>
      intro ys hsafe
      rw [dotsSafe_cons, Bool.and_eq_true] at hsafe
      have hrest := hsafe.2
      have hhead : dotHead (c :: (rest ++ ys)) = none := by
        by_cases hc : c = '.'
        · subst hc
          cases rest with
          | nil =>
              exact absurd hsafe.1 (by simp)
          | cons c2 rest2 =>
              have h2 : c2.isDigit = false := by
                have := hsafe.1
                simp only [Bool.or_eq_true] at this
                rcases this with h | h
                · exact absurd h (by decide)
                · simpa using h
              exact dotHead_nondigit c2 (rest2 ++ ys) h2
        · exact dotHead_ne_dot c _ hc
      rw [List.cons_append, findDotSplit_cons_none c _ hhead, ih ys hrest]
      cases findDotSplit ys <;> simp

theorem findDotSplit_none (cs : List Char) (h : dotsSafe cs = true) :
    findDotSplit cs = none := by
  have := findDotSplit_append_left cs [] h
  simpa using this

theorem findDotSplit_exact (xs : List Char) (d : Char) (ys : List Char)
    (h : dotsSafe xs = true) (hd : d.isDigit = true) :
    findDotSplit (xs ++ '.' :: d :: ys) = some (xs, d, ys) := by
  rw [findDotSplit_append_left xs _ h]
  have : findDotSplit ('.' :: d :: ys) = some ([], d, ys) := by
    rw [findDotSplit, dotHead_match d ys hd]
  rw [this]
  simp

theorem dotLoopFuel_no_match (f : Nat) (cs : List Char)
    (h : findDotSplit cs = none) : dotLoopFuel f cs = cs := by
  cases f with
  | zero => rfl
  | succ n =>
      unfold dotLoopFuel
      rw [h]

theorem dotsSafe_of_no_dot (cs : List Char) (h : '.' ∉ cs) :
    dotsSafe cs = true := by
  induction cs with
  | nil => rfl
  | cons c rest ih =>
      have hc : c ≠ '.' := fun hh => h (hh ▸ List.mem_cons_self c rest)
      have hrest : '.' ∉ rest := fun hh => h (List.mem_cons_of_mem c hh)
      rw [dotsSafe_cons, ih hrest]
      simp [hc]

theorem dotsSafe_append (a b : List Char) (ha : dotsSafe a = true)
    (hb : dotsSafe b = true) : dotsSafe (a ++ b) = true := by
  induction a with
  | nil => simpa using hb
  | cons c rest ih =>
      rw [dotsSafe_cons, Bool.and_eq_true] at ha
      rw [List.cons_append, dotsSafe_cons, Bool.and_eq_true]
      refine ⟨?_, ih ha.2⟩
      by_cases hc : c = '.'
      · subst hc
        cases rest with
        | nil => exact absurd ha.1 (by simp)
        | cons c2 rest2 =>
            have h2 : c2.isDigit = false := by
              have := ha.1
              simp only [Bool.or_eq_true] at this
              rcases this with h | h
              · exact absurd h (by decide)
              · simpa using h
            simp [h2]
      · simp [hc]

theorem dotsSafe_dot_tag (t : String) (h : validTag t = true) :
    dotsSafe ('.' :: t.toList) = true := by
  cases htl : t.toList with
  | nil => exact absurd htl (validTag_ne_nil t h)
  | cons c2 rest2 =>
      rw [dotsSafe_cons]
      have hhead : c2.isDigit = false := by
        have := validTag_head_not_digit t h
        rw [htl] at this
        simpa using this
      have hno : '.' ∉ t.toList := validTag_no_dot t h
      rw [htl] at hno
      rw [dotsSafe_of_no_dot _ hno]
      simp [hhead]

theorem countIndexed_le_keyRender_length (segs : List PathSeg) :
    countIndexed segs ≤ (keyRender segs).length := by
  induction segs with
  | nil => simp [countIndexed, keyRender]
  | cons s rest ih =>
      obtain ⟨t, idx⟩ := s
      cases idx with
      | none =>
          rw [countIndexed_cons_none, keyRender_cons]
          simp only [List.length_cons, List.length_append]
          omega
      | some j =>
          have hcount : countIndexed ((t, some j) :: rest)
              ≤ countIndexed rest + 1 := by
            by_cases hj : j ≤ 9
            · rw [countIndexed_cons_some t j rest hj]
            · rw [countIndexed_cons_some_gt t j rest hj]
              omega
          rw [keyRender_cons]
          simp only [List.length_append, List.length_cons]
          omega

theorem dotLoop_renders (segs : List PathSeg) :
    ∀ (pre : List Char) (k : Nat), (∀ s ∈ segs, goodSeg s = true) →
    dotsSafe pre = true →
    dotLoopFuel (countIndexed segs + k) (pre ++ keyRender segs)
      = pre ++ dotRender segs := by
  induction segs with
  | nil =>
      intro pre k _ hpre
      rw [keyRender_nil, dotRender_nil, List.append_nil]
      exact dotLoopFuel_no_match _ pre (findDotSplit_none pre hpre)
  | cons s rest ih =>
      intro pre k hgood hpre
      obtain ⟨t, idx⟩ := s
      have hs := hgood (t, idx) (List.mem_cons_self _ _)
      cases idx with
      | none =>
          have hvt : validTag t = true := by simpa [goodSeg] using hs
          rw [countIndexed_cons_none, dotRender_cons, keyRender_cons]
          have hpre' : dotsSafe (pre ++ '.' :: t.toList) = true :=
            dotsSafe_append _ _ hpre (dotsSafe_dot_tag t hvt)
          have := ih (pre ++ '.' :: t.toList) k
            (fun u hm => hgood u (List.mem_cons_of_mem _ hm)) hpre'
          simpa [renderSegChars, keySegChars, List.append_assoc] using this
      | some j =>
          have hparts : validTag t = true ∧ 1 ≤ j := by
            simpa [goodSeg, Bool.and_eq_true, decide_eq_true_eq] using hs
          have hvt := hparts.1
          have hpre' : dotsSafe (pre ++ '.' :: t.toList) = true :=
            dotsSafe_append _ _ hpre (dotsSafe_dot_tag t hvt)
          by_cases hj9 : j ≤ 9
          · rw [countIndexed_cons_some t j rest hj9, dotRender_cons,
              keyRender_cons]
            have hshape : pre ++ '.' :: keySegChars (t, some j)
                ++ keyRender rest
                = (pre ++ '.' :: t.toList)
                  ++ '.' :: Nat.digitChar j :: keyRender rest := by
              rw [keySegChars_le_nine t j hj9, toDigits_single j hj9]
              simp
            have hfuel : countIndexed rest + 1 + k
                = (countIndexed rest + k) + 1 := by omega
            rw [← List.append_assoc, hshape, hfuel]
            unfold dotLoopFuel
            rw [findDotSplit_exact _ _ _ hpre' (digitChar_isDigit j hj9)]
            have hpre'' : dotsSafe ((pre ++ '.' :: t.toList)
                ++ ['[', Nat.digitChar j, ']']) = true := by
              refine dotsSafe_append _ _ hpre' (dotsSafe_of_no_dot _ ?_)
              intro hm
              have h3 : '.' = '[' ∨ '.' = Nat.digitChar j ∨ '.' = ']' := by
                simpa using hm
              rcases h3 with h3 | h3 | h3
              · exact absurd h3 (by decide)
              · have h2 := digitChar_isDigit j hj9
                rw [← h3] at h2
                exact absurd h2 (by decide)
              · exact absurd h3 (by decide)
            have hih := ih ((pre ++ '.' :: t.toList)
                ++ ['[', Nat.digitChar j, ']']) k
              (fun u hm => hgood u (List.mem_cons_of_mem _ hm)) hpre''
            show dotLoopFuel (countIndexed rest + k)
                ((pre ++ '.' :: t.toList)
                  ++ '[' :: Nat.digitChar j :: ']' :: keyRender rest)
              = pre ++ ('.' :: renderSegChars (t, some j) ++ dotRender rest)
            have hshape2 : (pre ++ '.' :: t.toList)
                ++ '[' :: Nat.digitChar j :: ']' :: keyRender rest
                = ((pre ++ '.' :: t.toList) ++ ['[', Nat.digitChar j, ']'])
                  ++ keyRender rest := by
              simp
            rw [hshape2, hih]
            have hre : renderSegChars (t, some j)
                = t.toList ++ ['[', Nat.digitChar j, ']'] := by
              show t.toList ++ '[' :: Nat.toDigits 10 j ++ [']'] = _
              rw [toDigits_single j hj9]
              simp
            rw [hre]
            simp
          · rw [countIndexed_cons_some_gt t j rest hj9, dotRender_cons,
              keyRender_cons]
            have hsafegroup : dotsSafe ('[' :: (Nat.toDigits 10 j ++ [']']))
                = true := by
              refine dotsSafe_of_no_dot _ ?_
              intro hm
              rcases List.mem_cons.mp hm with hm | hm
              · exact absurd hm (by decide)
              · rcases List.mem_append.mp hm with hm | hm
                · have h2 := toDigits_all_digit j (by omega) '.' hm
                  exact absurd h2 (by decide)
                · have h3 : ('.' : Char) = ']' := by simpa using hm
                  exact absurd h3 (by decide)
            have hpre'' : dotsSafe ((pre ++ '.' :: t.toList)
                ++ '[' :: (Nat.toDigits 10 j ++ [']'])) = true :=
              dotsSafe_append _ _ hpre' hsafegroup
            have hgoal1 : pre ++ ('.' :: keySegChars (t, some j)
                ++ keyRender rest)
                = ((pre ++ '.' :: t.toList)
                    ++ '[' :: (Nat.toDigits 10 j ++ [']'])) ++ keyRender rest := by
              rw [keySegChars_gt_nine t j hj9, renderSeg_some_shape t j]
              simp
            have hih := ih ((pre ++ '.' :: t.toList)
                ++ '[' :: (Nat.toDigits 10 j ++ [']'])) k
              (fun u hm => hgood u (List.mem_cons_of_mem _ hm)) hpre''
            rw [hgoal1, hih, renderSeg_some_shape t j]
            simp

theorem renderSegChars_no_dot (s : PathSeg) (h : goodSeg s = true) :
    '.' ∉ renderSegChars s := by
  obtain ⟨t, idx⟩ := s
  cases idx with
  | none =>
      have hvt : validTag t = true := by simpa [goodSeg] using h
      exact validTag_no_dot t hvt
  | some j =>
      have hparts : validTag t = true ∧ 1 ≤ j := by
        simpa [goodSeg, Bool.and_eq_true, decide_eq_true_eq] using h
      intro hm
      rw [renderSeg_some_shape t j] at hm
      rcases List.mem_append.mp hm with hm | hm
      · exact validTag_no_dot t hparts.1 hm
      · rcases List.mem_cons.mp hm with hm | hm
        · exact absurd hm (by decide)
        · rcases List.mem_append.mp hm with hm | hm
          · have h2 := toDigits_all_digit j hparts.2 '.' hm
            exact absurd h2 (by decide)
          · have h3 : ('.' : Char) = ']' := by simpa using hm
            exact absurd h3 (by decide)

theorem map_slash_id (cs : List Char) (h : '.' ∉ cs) :
    cs.map (fun c => if c == '.' then '/' else c) = cs := by
  induction cs with
  | nil => rfl
  | cons c rest ih =>
      have hc : c ≠ '.' := fun hh => h (hh ▸ List.mem_cons_self c rest)
      have hrest : '.' ∉ rest := fun hh => h (List.mem_cons_of_mem c hh)
      rw [List.map_cons, ih hrest]
      have hcb : (c == '.') = false := by simpa using hc
      rw [hcb]
      simp

theorem map_slash_dotRender (segs : List PathSeg)
    (h : ∀ s ∈ segs, '.' ∉ renderSegChars s) :
    (dotRender segs).map (fun c => if c == '.' then '/' else c)
      = (segs.map (fun s => '/' :: renderSegChars s)).flatten := by
  induction segs with
  | nil => rfl
  | cons s rs ih =>
      have hs : '.' ∉ renderSegChars s := h s (List.mem_cons_self _ _)
      rw [dotRender_cons]
      simp only [List.map_cons, List.flatten_cons, List.map_append,
        List.map_cons]
      rw [map_slash_id _ hs,
        ih (fun u hm => h u (List.mem_cons_of_mem _ hm))]
      simp [dotRender]

theorem convert_xpath_of_key (t0 : String) (rest : List PathSeg)
    (h0 : validTag t0 = true) (hrest : ∀ s ∈ rest, goodSeg s = true) :
    convert_meta_key_format_to_xpath ⟨t0.toList ++ keyRender rest⟩
      = ⟨renderXPathChars ((t0, none) :: rest)⟩ := by
  unfold convert_meta_key_format_to_xpath
  have htl : (String.mk (t0.toList ++ keyRender rest)).toList
      = t0.toList ++ keyRender rest := rfl
  rw [htl]
  have hle : countIndexed rest ≤ (t0.toList ++ keyRender rest).length := by
    have := countIndexed_le_keyRender_length rest
    simp only [List.length_append]
    omega
  have hfuel : (t0.toList ++ keyRender rest).length
      = countIndexed rest + ((t0.toList ++ keyRender rest).length
        - countIndexed rest) := by
    omega
  show String.mk ('/' :: (dotLoopFuel (t0.toList ++ keyRender rest).length
      (t0.toList ++ keyRender rest)).map (fun c => if c == '.' then '/' else c))
    = String.mk (renderXPathChars ((t0, none) :: rest))
  rw [hfuel, dotLoop_renders rest t0.toList _ hrest
    (dotsSafe_of_no_dot _ (validTag_no_dot t0 h0))]
  rw [List.map_append, map_slash_id _ (validTag_no_dot t0 h0),
    map_slash_dotRender rest
      (fun u hm => renderSegChars_no_dot u (hrest u hm))]
  rw [renderXPathChars_eq_flatten]
  simp [renderSegChars]

theorem splitSlash_ne_nil (l : List Char) : splitSlash l ≠ [] := by
  induction l with
  | nil => simp [splitSlash]
  | cons c rest ih =>
      unfold splitSlash
      split
      · simp
      · simp
      · rename_i heq
        split
        · simp
        · simp

theorem splitSlash_cons_ne (c : Char) (l : List Char) (hc : c ≠ '/') :
    splitSlash (c :: l)
      = (c :: (splitSlash l).headD []) :: (splitSlash l).tail := by
  cases hsp : splitSlash l with
  | nil => exact absurd hsp (splitSlash_ne_nil l)
  | cons s ss =>
      unfold splitSlash
      split
      · rename_i heq
        exact absurd heq (by simp)
      · rename_i rest heq
        injection heq with h1 _
        exact absurd h1 hc
      · rename_i c' rest' hne heq
        injection heq with h1 h2
        subst h1
        subst h2
        rw [hsp]
        simp

theorem splitSlash_no_slash (cs : List Char) (h : '/' ∉ cs) :
    splitSlash cs = [cs] := by
  induction cs with
  | nil => rfl
  | cons c rest ih =>
      have hc : c ≠ '/' := fun hh => h (hh ▸ List.mem_cons_self c rest)
      have hrest : '/' ∉ rest := fun hh => h (List.mem_cons_of_mem c hh)
      rw [splitSlash_cons_ne c rest hc, ih hrest]
      simp

theorem splitSlash_chunk_append (chunk cs : List Char) (h : '/' ∉ chunk) :
    splitSlash (chunk ++ cs)
      = (chunk ++ (splitSlash cs).headD []) :: (splitSlash cs).tail := by
  induction chunk with
  | nil =>
      cases hsp : splitSlash cs with
      | nil => exact absurd hsp (splitSlash_ne_nil cs)
      | cons s ss => simp [hsp]
  | cons c ch ih =>
      have hc : c ≠ '/' := fun hh => h (hh ▸ List.mem_cons_self c ch)
      have hch : '/' ∉ ch := fun hh => h (List.mem_cons_of_mem c hh)
      rw [List.cons_append, splitSlash_cons_ne c _ hc, ih hch]
      simp

theorem splitSlash_cons_slash (l : List Char) :
    splitSlash ('/' :: l) = [] :: splitSlash l := rfl

theorem splitSlash_chunks (c0 : List Char) (chunks : List (List Char))
    (h0 : '/' ∉ c0) (h : ∀ ch ∈ chunks, '/' ∉ ch) :
    splitSlash (c0 ++ (chunks.map (fun ch => '/' :: ch)).flatten)
      = c0 :: chunks := by
  induction chunks generalizing c0 with
  | nil =>
      simpa using splitSlash_no_slash c0 h0
  | cons ch chs ih =>
      simp only [List.map_cons, List.flatten_cons]
      rw [show c0 ++ (('/' :: ch) ++ (chs.map (fun ch => '/' :: ch)).flatten)
        = c0 ++ '/' :: (ch ++ (chs.map (fun ch => '/' :: ch)).flatten) by simp,
        splitSlash_chunk_append c0 _ h0, splitSlash_cons_slash,
        ih ch (h ch (List.mem_cons_self _ _))
          (fun u hm => h u (List.mem_cons_of_mem _ hm))]
      simp

theorem takeWhile_append_all {p : Char → Bool} (a b : List Char)
    (h : ∀ c ∈ a, p c = true) :
    (a ++ b).takeWhile p = a ++ b.takeWhile p := by
  induction a with
  | nil => rfl
  | cons c rest ih =>
      rw [List.cons_append, List.takeWhile_cons,
        h c (List.mem_cons_self _ _), ih
          (fun u hm => h u (List.mem_cons_of_mem _ hm))]
      simp

theorem dropWhile_append_all {p : Char → Bool} (a b : List Char)
    (h : ∀ c ∈ a, p c = true) :
    (a ++ b).dropWhile p = b.dropWhile p := by
  induction a with
  | nil => rfl
  | cons c rest ih =>
      rw [List.cons_append, List.dropWhile_cons,
        h c (List.mem_cons_self _ _)]
      simp only [if_pos rfl]
      exact ih (fun u hm => h u (List.mem_cons_of_mem _ hm))

theorem string_mk_toList (t : String) : String.mk t.toList = t := rfl

theorem bne_of_not_mem (c x : Char) (cs : List Char) (hm : c ∈ cs)
    (h : x ∉ cs) : (c != x) = true := by
  simp only [bne_iff_ne, ne_eq]
  intro hh
  subst hh
  exact h hm

theorem digitChar_val (j : Nat) (hj : j ≤ 9) :
    (Nat.digitChar j).toNat - '0'.toNat = j := by
  interval_cases j <;> decide

theorem foldl_digits_val (ds : List Nat) (hds : ∀ d ∈ ds, d ≤ 9) :
    ∀ acc : Nat, ((ds.map Nat.digitChar).reverse).foldl
        (fun n c => n * 10 + (c.toNat - '0'.toNat)) acc
      = acc * 10 ^ ds.length + Nat.ofDigits 10 ds := by
  induction ds with
  | nil => intro acc; simp [Nat.ofDigits_nil]
  | cons d rest ih =>
      intro acc
      simp only [List.map_cons, List.reverse_cons, List.foldl_append,
        List.foldl_cons, List.foldl_nil]
      rw [ih (fun u hm => hds u (List.mem_cons_of_mem _ hm)) acc,
        digitChar_val d (hds d (List.mem_cons_self _ _)),
        Nat.ofDigits_cons]
      simp only [List.length_cons, Nat.cast_id]
      ring

theorem toDigits_foldl_val (n : Nat) (h : 1 ≤ n) :
    (Nat.toDigits 10 n).foldl (fun m c => m * 10 + (c.toNat - '0'.toNat)) 0
      = n := by
  rw [toDigits_eq_digits n h,
    foldl_digits_val (Nat.digits 10 n) (digits_le_nine n) 0]
  simp [Nat.ofDigits_digits]

theorem parseSegChars_no_lb (cs : List Char) (h : '[' ∉ cs) :
    parseSegChars cs = (⟨cs⟩, none) := by
  unfold parseSegChars
  have hdrop : cs.dropWhile (fun c => c != '[') = [] := by
    have hall : ∀ c ∈ cs, (fun c => c != '[') c = true := fun c hm =>
      bne_of_not_mem c '[' cs hm h
    have h2 := dropWhile_append_all cs [] hall
    simpa using h2
  rw [hdrop]

theorem parseSeg_of_render (s : PathSeg) (h : goodSeg s = true) :
    parseSegChars (renderSegChars s) = s := by
  obtain ⟨t, idx⟩ := s
  cases idx with
  | none =>
      have hvt : validTag t = true := by simpa [goodSeg] using h
      rw [show renderSegChars (t, none) = t.toList from rfl,
        parseSegChars_no_lb t.toList (validTag_no_lb t hvt)]
      rw [string_mk_toList]
  | some j =>
      have hparts : validTag t = true ∧ 1 ≤ j := by
        simpa [goodSeg, Bool.and_eq_true, decide_eq_true_eq] using h
      have hvt := hparts.1
      have hj1 := hparts.2
      rw [renderSeg_some_shape t j]
      unfold parseSegChars
      have hall : ∀ c ∈ t.toList, (fun c => c != '[') c = true := fun c hm =>
        bne_of_not_mem c '[' t.toList hm (validTag_no_lb t hvt)
      rw [dropWhile_append_all t.toList _ hall,
        takeWhile_append_all t.toList _ hall]
      have hdrop2 : ('[' :: (Nat.toDigits 10 j ++ [']'])).dropWhile
          (fun c => c != '[') = '[' :: (Nat.toDigits 10 j ++ [']']) := by
        rw [List.dropWhile_cons]
        simp
      have htake2 : ('[' :: (Nat.toDigits 10 j ++ [']'])).takeWhile
          (fun c => c != '[') = [] := by
        rw [List.takeWhile_cons]
        simp
      rw [hdrop2, htake2]
      have hdigit_ne : ∀ c ∈ Nat.toDigits 10 j,
          (fun c => c != ']') c = true := by
        intro c hm
        have h2 := toDigits_all_digit j hj1 c hm
        simp only [bne_iff_ne, ne_eq]
        exact (digit_ne_chars c h2).2.1
      have htw : (Nat.toDigits 10 j ++ [']']).takeWhile (fun c => c != ']')
          = Nat.toDigits 10 j := by
        rw [takeWhile_append_all _ _ hdigit_ne]
        simp [List.takeWhile_cons]
      simp only [htw, List.append_nil]
      rw [string_mk_toList, toDigits_foldl_val j hj1]

theorem parseXPath_of_render (t0 : String) (rest : List PathSeg)
    (h0 : validTag t0 = true) (hrest : ∀ s ∈ rest, goodSeg s = true) :
    parseXPathChars (renderXPathChars ((t0, none) :: rest))
      = (t0, none) :: rest := by
  unfold parseXPathChars
  rw [renderXPathChars_eq_flatten]
  have hflat : (((t0, none) :: rest).map
        (fun s => '/' :: renderSegChars s)).flatten
      = '/' :: (renderSegChars (t0, none)
        ++ ((rest.map renderSegChars).map (fun ch => '/' :: ch)).flatten) := by
    simp [List.map_map, Function.comp_def]
  rw [hflat]
  have hdrop : ('/' :: (renderSegChars (t0, none)
      ++ ((rest.map renderSegChars).map (fun ch => '/' :: ch)).flatten)).drop 1
      = renderSegChars (t0, none)
        ++ ((rest.map renderSegChars).map (fun ch => '/' :: ch)).flatten := rfl
  rw [hdrop, splitSlash_chunks _ _
    (renderSegChars_no_slash (t0, none) (by simp [goodSeg, h0]))
    (by
      intro ch hm
      rcases List.mem_map.mp hm with ⟨s, hs, rfl⟩
      exact renderSegChars_no_slash s (hrest s hs))]
  rw [List.map_cons, List.map_map,
    parseSeg_of_render (t0, none) (by simp [goodSeg, h0])]
  congr 1
  have : ∀ u ∈ rest, (parseSegChars ∘ renderSegChars) u = u := by
    intro u hm
    exact parseSeg_of_render u (hrest u hm)
  calc rest.map (parseSegChars ∘ renderSegChars)
      = rest.map id := List.map_congr_left this
    _ = rest := List.map_id rest

/-! ### Tree-side lemmas for the problem round trip -/

theorem segs_of_key_of_render (t0 : String) (rest : List PathSeg)
    (h0 : validTag t0 = true) (hrest : ∀ s ∈ rest, goodSeg s = true) :
    parseXPathChars (convert_meta_key_format_to_xpath
        (convert_xpath_to_meta_key_format
          ⟨renderXPathChars ((t0, none) :: rest)⟩)).toList
      = (t0, none) :: rest := by
  rw [convert_key_of_render t0 rest h0 hrest,
    convert_xpath_of_key t0 rest h0 hrest]
  exact parseXPath_of_render t0 rest h0 hrest

theorem get?_append_length {α : Type} (before : List α) (c : α)
    (rest : List α) : (before ++ c :: rest).get? before.length = some c := by
  induction before with
  | nil => rfl
  | cons b bs ih => simpa using ih

theorem set_append_length {α : Type} (before : List α) (c v : α)
    (rest : List α) :
    (before ++ c :: rest).set before.length v = before ++ v :: rest := by
  induction before with
  | nil => rfl
  | cons b bs ih => simpa using ih

theorem list_set_get?_self {α : Type} (l : List α) (i : Nat) (c : α)
    (h : l.get? i = some c) : l.set i c = l := by
  induction l generalizing i with
  | nil => simp at h
  | cons b bs ih =>
      cases i with
      | zero =>
          have : b = c := by simpa using h
          simp [this]
      | succ j =>
          have := ih j (by simpa using h)
          simp [this]

theorem setVal_children (e : Elem) (v : String) :
    (setVal e v).children = e.children := by
  unfold setVal
  split <;> rfl

theorem setVal_tag (e : Elem) (v : String) : (setVal e v).tag = e.tag := by
  unfold setVal
  split <;> rfl

theorem shiftEnt_comp (p0 p1 : List PathSeg) (ip0 ip1 : List Nat)
    (ent : List PathSeg × List Nat × Elem) :
    shiftEnt p0 ip0 (shiftEnt p1 ip1 ent)
      = shiftEnt (p0 ++ p1) (ip0 ++ ip1) ent := by
  simp [shiftEnt]

mutual
theorem preorderFull_eq_rel (e : Elem) :
    ∀ (p0 : List PathSeg) (ip0 : List Nat),
    preorderFull p0 ip0 e = (preorderRelFull e).map (shiftEnt p0 ip0) := by
  match e with
  | .mk t a x cs =>
      intro p0 ip0
      rw [preorderFull, preorderRelFull]
      rw [List.map_cons]
      rw [preorderChildrenFull_eq_rel cs [] cs p0 ip0]
      show (p0, ip0, Elem.mk t a x cs) :: _
        = shiftEnt p0 ip0 ([], [], Elem.mk t a x cs) :: _
      simp [shiftEnt]
termination_by sizeOf e

theorem preorderChildrenFull_eq_rel (all before rem : List Elem) :
    ∀ (p0 : List PathSeg) (ip0 : List Nat),
    preorderChildrenFull p0 ip0 all before rem
      = (preorderChildrenRel all before rem).map (shiftEnt p0 ip0) := by
  match rem with
  | [] =>
      intro p0 ip0
      rw [preorderChildrenFull, preorderChildrenRel]
      rfl
  | c :: rest =>
      intro p0 ip0
      rw [preorderChildrenFull, preorderChildrenRel]
      rw [List.map_append, List.map_map]
      rw [preorderFull_eq_rel c (p0 ++ [siblingSeg all before c.tag])
        (ip0 ++ [before.length])]
      rw [preorderChildrenFull_eq_rel all (before ++ [c]) rest p0 ip0]
      congr 1
      apply List.map_congr_left
      intro ent _
      show shiftEnt (p0 ++ [siblingSeg all before c.tag])
          (ip0 ++ [before.length]) ent
        = shiftEnt p0 ip0 (shiftEnt [siblingSeg all before c.tag]
            [before.length] ent)
      rw [shiftEnt_comp]
termination_by sizeOf rem
end

mutual
theorem preorderRelFull_segPathOf (e : Elem) :
    ∀ ent ∈ preorderRelFull e, segPathOf e ent.2.1 = some ent.1 := by
  match e with
  | .mk t a x cs =>
      intro ent hm
      rw [preorderRelFull] at hm
      rcases List.mem_cons.mp hm with hm | hm
      · subst hm
        rfl
      · exact preorderChildrenRel_segPathOf cs [] cs rfl t a x ent hm
termination_by sizeOf e

theorem preorderChildrenRel_segPathOf (all before rem : List Elem)
    (hall : all = before ++ rem) (t : String) (a x : Option String) :
    ∀ ent ∈ preorderChildrenRel all before rem,
    segPathOf (Elem.mk t a x all) ent.2.1 = some ent.1 := by
  match rem with
  | [] =>
      intro ent hm
      rw [preorderChildrenRel] at hm
      exact absurd hm (List.not_mem_nil ent)
  | c :: rest =>
      intro ent hm
      rw [preorderChildrenRel] at hm
      rcases List.mem_append.mp hm with hm | hm
      · rcases List.mem_map.mp hm with ⟨ent', hm', rfl⟩
        have hrec := preorderRelFull_segPathOf c ent' hm'
        show segPathOf (Elem.mk t a x all)
          ([before.length] ++ ent'.2.1) = some ([siblingSeg all before c.tag] ++ ent'.1)
        have hget : all.get? before.length = some c := by
          rw [hall]
          exact get?_append_length before c rest
        show (match all.get? before.length with
          | none => none
          | some cc => (segPathOf cc ent'.2.1).map
              (fun r => siblingSeg all (all.take before.length) cc.tag :: r))
          = some (siblingSeg all before c.tag :: ent'.1)
        rw [hget]
        show (segPathOf c ent'.2.1).map
            (fun r => siblingSeg all (all.take before.length) c.tag :: r)
          = some (siblingSeg all before c.tag :: ent'.1)
        rw [hrec]
        have htake : all.take before.length = before := by
          rw [hall]
          exact List.take_left before (c :: rest)
        rw [htake]
        rfl
      · exact preorderChildrenRel_segPathOf all (before ++ [c]) rest
          (by rw [hall]; simp) t a x ent hm
termination_by sizeOf rem
end

theorem validTree_parts (t : String) (a x : Option String) (cs : List Elem)
    (h : Elem.validTree (.mk t a x cs) = true) :
    validTag t = true
    ∧ (∀ c ∈ cs, Elem.validTree c = true) := by
  rw [Elem.validTree] at h
  simp only [Bool.and_eq_true, List.all_eq_true] at h
  refine ⟨h.1, ?_⟩
  intro c hm
  exact h.2 ⟨c, hm⟩ (List.mem_attach cs ⟨c, hm⟩)

theorem validTree_tag (e : Elem) (h : Elem.validTree e = true) :
    validTag e.tag = true := by
  match e with
  | .mk t a x cs => exact (validTree_parts t a x cs h).1

theorem noClash_parts (t : String) (a x : Option String) (cs : List Elem)
    (h : Elem.noAnswerTextClash (.mk t a x cs) = true) :
    (pyTruthyStr a && pyTruthyStr x) = false
    ∧ (∀ c ∈ cs, Elem.noAnswerTextClash c = true) := by
  rw [Elem.noAnswerTextClash] at h
  simp only [Bool.and_eq_true, List.all_eq_true] at h
  refine ⟨?_, ?_⟩
  · have h1 := h.1
    cases hb : (pyTruthyStr a && pyTruthyStr x) with
    | false => rfl
    | true =>
        rw [hb] at h1
        exact absurd h1 (by decide)
  · intro c hm
    exact h.2 ⟨c, hm⟩ (List.mem_attach cs ⟨c, hm⟩)

theorem filter_tag_length_append (l1 l2 : List Elem) (T : String) :
    ((l1 ++ l2).filter (fun d => d.tag == T)).length
      = (l1.filter (fun d => d.tag == T)).length
        + (l2.filter (fun d => d.tag == T)).length := by
  rw [List.filter_append, List.length_append]

theorem filter_tag_pos_of_mem (l : List Elem) (c : Elem) (T : String)
    (hm : c ∈ l) (ht : c.tag = T) :
    1 ≤ (l.filter (fun d => d.tag == T)).length := by
  have hmem : c ∈ l.filter (fun d => d.tag == T) := by
    rw [List.mem_filter]
    exact ⟨hm, by simp [ht]⟩
  have := List.length_pos.mpr (List.ne_nil_of_mem hmem)
  omega

mutual
theorem preorderRelFull_good (e : Elem) (hv : Elem.validTree e = true) :
    ∀ ent ∈ preorderRelFull e, ∀ s ∈ ent.1, goodSeg s = true := by
  match e with
  | .mk t a x cs =>
      intro ent hm s hs
      rw [preorderRelFull] at hm
      rcases List.mem_cons.mp hm with hm | hm
      · subst hm
        exact absurd hs (List.not_mem_nil s)
      · have hp := validTree_parts t a x cs hv
        exact preorderChildrenRel_good cs [] cs rfl hp.2 ent hm s hs
termination_by sizeOf e

theorem preorderChildrenRel_good (all before rem : List Elem)
    (hall : all = before ++ rem)
    (hchild : ∀ c ∈ rem, Elem.validTree c = true) :
    ∀ ent ∈ preorderChildrenRel all before rem, ∀ s ∈ ent.1,
      goodSeg s = true := by
  match rem with
  | [] =>
      intro ent hm
      rw [preorderChildrenRel] at hm
      exact absurd hm (List.not_mem_nil ent)
  | c :: rest =>
      intro ent hm s hs
      rw [preorderChildrenRel] at hm
      rcases List.mem_append.mp hm with hm | hm
      · rcases List.mem_map.mp hm with ⟨ent', hm', rfl⟩
        have hvc : Elem.validTree c = true :=
          hchild c (List.mem_cons_self _ _)
        rcases List.mem_cons.mp hs with hs | hs
        · subst hs
          unfold siblingSeg
          have hvt : validTag c.tag = true := validTree_tag c hvc
          split
          · simp only [goodSeg, Bool.and_eq_true, decide_eq_true_eq]
            exact ⟨hvt, by omega⟩
          · simpa [goodSeg] using hvt
        · exact preorderRelFull_good c hvc ent' hm' s hs
      · refine preorderChildrenRel_good all (before ++ [c]) rest
          (by rw [hall]; simp)
          (fun u hu => hchild u (List.mem_cons_of_mem _ hu)) ent hm s hs
termination_by sizeOf rem
end

theorem preorderChildrenRel_head (rem : List Elem) :
    ∀ (all before : List Elem) (ent : List PathSeg × List Nat × Elem),
    ent ∈ preorderChildrenRel all before rem →
    ∃ (mid : List Elem) (c' : Elem) (p' : List PathSeg)
      (rest2 : List Elem),
      rem = mid ++ c' :: rest2
      ∧ ent.1 = siblingSeg all (before ++ mid) c'.tag :: p' := by
  induction rem with
  | nil =>
      intro all before ent hm
      rw [preorderChildrenRel] at hm
      exact absurd hm (List.not_mem_nil ent)
  | cons c rest ih =>
      intro all before ent hm
      rw [preorderChildrenRel] at hm
      rcases List.mem_append.mp hm with hm | hm
      · rcases List.mem_map.mp hm with ⟨ent', hm', rfl⟩
        exact ⟨[], c, ent'.1, rest, by simp, by simp [shiftEnt]⟩
      · rcases ih all (before ++ [c]) ent hm with
          ⟨mid, c', p', rest2, hrem, hent⟩
        refine ⟨c :: mid, c', p', rest2, by simp [hrem], ?_⟩
        rw [hent]
        simp

theorem siblingSeg_fst (all bef : List Elem) (T : String) :
    (siblingSeg all bef T).1 = T := by
  unfold siblingSeg
  split <;> rfl

theorem siblingSeg_head_ne (bef rest0 mid : List Elem) (c c' : Elem)
    (hc' : c' ∈ rest0) :
    siblingSeg (bef ++ c :: rest0) bef c.tag
      ≠ siblingSeg (bef ++ c :: rest0) ((bef ++ [c]) ++ mid) c'.tag := by
  by_cases hT : c.tag = c'.tag
  · rw [← hT]
    have hcnt : 1 < ((bef ++ c :: rest0).filter
        (fun d => d.tag == c.tag)).length := by
      rw [filter_tag_length_append]
      have h1 : 1 ≤ ((c :: rest0).filter
          (fun d => d.tag == c.tag)).length :=
        filter_tag_pos_of_mem _ c c.tag (List.mem_cons_self _ _) rfl
      have h2 : 1 ≤ (rest0.filter (fun d => d.tag == c.tag)).length :=
        filter_tag_pos_of_mem rest0 c' c.tag hc' hT.symm
      have h3 : ((c :: rest0).filter (fun d => d.tag == c.tag)).length
          = 1 + (rest0.filter (fun d => d.tag == c.tag)).length := by
        rw [List.filter_cons]
        have hself : (c.tag == c.tag) = true := by simp
        rw [if_pos hself, List.length_cons]
        omega
      omega
    unfold siblingSeg
    rw [if_pos hcnt, if_pos hcnt]
    intro hcon
    have hk := (Prod.mk.injEq _ _ _ _).mp hcon |>.2
    have hk2 : (bef.filter (fun d => d.tag == c.tag)).length + 1
        = (((bef ++ [c]) ++ mid).filter (fun d => d.tag == c.tag)).length
          + 1 := by
      simpa using hk
    rw [filter_tag_length_append, filter_tag_length_append] at hk2
    have hc1 : ([c].filter (fun d => d.tag == c.tag)).length = 1 := by
      simp [List.filter]
    omega
  · intro hcon
    have hfst := congrArg Prod.fst hcon
    rw [siblingSeg_fst, siblingSeg_fst] at hfst
    exact hT hfst

mutual
theorem preorderRelFull_fst_nodup (e : Elem) :
    ((preorderRelFull e).map (fun ent => ent.1)).Nodup := by
  match e with
  | .mk t a x cs =>
      rw [preorderRelFull]
      rw [List.map_cons, List.nodup_cons]
      constructor
      · intro hm
        rcases List.mem_map.mp hm with ⟨ent, hment, hent⟩
        rcases preorderChildrenRel_head cs cs [] ent hment with
          ⟨mid, c', p', rest2, _, hhd⟩
        rw [hhd] at hent
        exact absurd hent.symm (by simp)
      · exact preorderChildrenRel_fst_nodup cs [] cs rfl
termination_by sizeOf e

theorem preorderChildrenRel_fst_nodup (all before rem : List Elem)
    (hall : all = before ++ rem) :
    ((preorderChildrenRel all before rem).map (fun ent => ent.1)).Nodup := by
  match rem with
  | [] =>
      rw [preorderChildrenRel]
      simp
  | c :: rest =>
      rw [preorderChildrenRel]
      rw [List.map_append, List.nodup_append]
      refine ⟨?_, ?_, ?_⟩
      · rw [List.map_map]
        have heq : ((fun ent : List PathSeg × List Nat × Elem => ent.1)
              ∘ shiftEnt [siblingSeg all before c.tag] [before.length])
            = (fun p => siblingSeg all before c.tag :: p)
              ∘ (fun ent : List PathSeg × List Nat × Elem => ent.1) := by
          funext ent
          simp [shiftEnt]
        rw [heq, ← List.map_map]
        refine List.Nodup.map ?_ (preorderRelFull_fst_nodup c)
        intro p q hpq
        exact (List.cons.injEq _ _ _ _).mp hpq |>.2
      · exact preorderChildrenRel_fst_nodup all (before ++ [c]) rest
          (by rw [hall]; simp)
      · intro p1 hp1 hp2
        rcases List.mem_map.mp hp1 with ⟨ent1, hment1, hent1⟩
        rcases List.mem_map.mp hp2 with ⟨ent2, hment2, hent2⟩
        rcases List.mem_map.mp hment1 with ⟨ent1', _, rfl⟩
        rcases preorderChildrenRel_head rest all (before ++ [c]) ent2
          hment2 with ⟨mid, c', p', rest2, hrem, hhd⟩
        have hc' : c' ∈ rest := by
          rw [hrem]
          exact List.mem_append_right mid (List.mem_cons_self _ _)
        have hne := siblingSeg_head_ne before rest mid c c' hc'
        rw [← hall] at hne
        rw [← hent1, hhd] at hent2
        simp only [shiftEnt] at hent2
        have hhead := (List.cons.injEq _ _ _ _).mp hent2 |>.1
        exact hne hhead.symm
termination_by sizeOf rem
end

theorem get?_set_self {α : Type} (l : List α) (i : Nat) (a b : α)
    (h : l.get? i = some b) : (l.set i a).get? i = some a := by
  induction l generalizing i with
  | nil => simp at h
  | cons x xs ih =>
      cases i with
      | zero => rfl
      | succ j =>
          have := ih j (by simpa using h)
          simpa using this

theorem get?_set_ne {α : Type} (l : List α) (i j : Nat) (a : α)
    (h : j ≠ i) : (l.set i a).get? j = l.get? j := by
  induction l generalizing i j with
  | nil => simp
  | cons x xs ih =>
      cases i with
      | zero =>
          cases j with
          | zero => exact absurd rfl h
          | succ j2 => rfl
      | succ i2 =>
          cases j with
          | zero => rfl
          | succ j2 =>
              have := ih i2 j2 (fun hh => h (by rw [hh]))
              simpa using this

theorem setIdxPath_isSome {f : Elem → Elem} :
    ∀ (ip : List Nat) (t : Elem) (segs : List PathSeg),
    segPathOf t ip = some segs → ∃ t', setIdxPath f t ip = some t' := by
  intro ip
  induction ip with
  | nil =>
      intro t segs _
      exact ⟨f t, rfl⟩
  | cons i is ih =>
      intro t segs h
      rw [segPathOf] at h
      cases hget : t.children.get? i with
      | none => rw [hget] at h; exact absurd h (by simp)
      | some c =>
          rw [hget] at h
          have h2 : (segPathOf c is).map
              (fun rest => siblingSeg t.children (t.children.take i)
                c.tag :: rest) = some segs := h
          cases hrest : segPathOf c is with
          | none =>
              rw [hrest] at h2
              exact absurd h2 (by simp)
          | some rest =>
              rcases ih c rest hrest with ⟨c', hc'⟩
              refine ⟨Elem.mk t.tag t.answer t.text (t.children.set i c'), ?_⟩
              rw [setIdxPath, hget]
              show (setIdxPath f c is).map
                (fun c' => Elem.mk t.tag t.answer t.text (t.children.set i c'))
                = some (Elem.mk t.tag t.answer t.text (t.children.set i c'))
              rw [hc']
              rfl

theorem setIdxPath_setVal_tag (v : String) :
    ∀ (ip : List Nat) (t t' : Elem),
    setIdxPath (fun e => setVal e v) t ip = some t' → t'.tag = t.tag := by
  intro ip
  induction ip with
  | nil =>
      intro t t' h
      have : setVal t v = t' := by simpa [setIdxPath] using h
      rw [← this]
      exact setVal_tag t v
  | cons i is _
 =>
      intro t t' h
      rw [setIdxPath] at h
      cases hget : t.children.get? i with
      | none => rw [hget] at h; exact absurd h (by simp)
      | some c =>
          rw [hget] at h
          have h2 : (setIdxPath (fun e => setVal e v) c is).map
              (fun c' => Elem.mk t.tag t.answer t.text (t.children.set i c'))
              = some t' := h
          cases hset : setIdxPath (fun e => setVal e v) c is with
          | none => rw [hset] at h2; exact absurd h2 (by simp)
          | some c' =>
              rw [hset] at h2
              have : Elem.mk t.tag t.answer t.text (t.children.set i c')
                  = t' := by simpa using h2
              rw [← this]
              rfl

theorem tags_set_eq (cs : List Elem) (i : Nat) (c c' : Elem)
    (hget : cs.get? i = some c) (htag : c'.tag = c.tag) :
    (cs.set i c').map Elem.tag = cs.map Elem.tag := by
  induction cs generalizing i with
  | nil => simp at hget
  | cons b bs ih =>
      cases i with
      | zero =>
          have hb : b = c := by simpa using hget
          subst hb
          simp [htag]
      | succ j =>
          have := ih j (by simpa using hget)
          simp [this]

theorem cnt_congr (l l' : List Elem)
    (h : l.map Elem.tag = l'.map Elem.tag) (T : String) :
    (l.filter (fun d => d.tag == T)).length
      = (l'.filter (fun d => d.tag == T)).length := by
  have h1 : (l.filter (fun d => d.tag == T)).length
      = (l.map Elem.tag).countP (fun s => s == T) := by
    rw [List.countP_map]
    exact (List.countP_eq_length_filter _ _).symm
  have h2 : (l'.filter (fun d => d.tag == T)).length
      = (l'.map Elem.tag).countP (fun s => s == T) := by
    rw [List.countP_map]
    exact (List.countP_eq_length_filter _ _).symm
  rw [h1, h2, h]

theorem siblingSeg_congr_tags (all all' bef bef' : List Elem) (T : String)
    (ha : all.map Elem.tag = all'.map Elem.tag)
    (hb : bef.map Elem.tag = bef'.map Elem.tag) :
    siblingSeg all bef T = siblingSeg all' bef' T := by
  unfold siblingSeg
  rw [cnt_congr all all' ha T, cnt_congr bef bef' hb T]

theorem segPathOf_congr_children :
    ∀ (ip2 : List Nat) (e u : Elem), e.children = u.children →
    segPathOf e ip2 = segPathOf u ip2 := by
  intro ip2 e u h
  cases ip2 with
  | nil => rfl
  | cons i is =>
      rw [segPathOf, segPathOf, h]

theorem setIdxPath_setVal_segPathOf (v : String) :
    ∀ (ip : List Nat) (t t' : Elem),
    setIdxPath (fun e => setVal e v) t ip = some t' →
    ∀ (ip2 : List Nat), segPathOf t' ip2 = segPathOf t ip2 := by
  intro ip
  induction ip with
  | nil =>
      intro t t' h ip2
      have ht' : setVal t v = t' := by simpa [setIdxPath] using h
      rw [← ht']
      exact segPathOf_congr_children ip2 _ t (setVal_children t v)
  | cons i is ih =>
      intro t t' h ip2
      rw [setIdxPath] at h
      cases hget : t.children.get? i with
      | none => rw [hget] at h; exact absurd h (by simp)
      | some c =>
          rw [hget] at h
          have h2 : (setIdxPath (fun e => setVal e v) c is).map
              (fun c' => Elem.mk t.tag t.answer t.text (t.children.set i c'))
              = some t' := h
          cases hset : setIdxPath (fun e => setVal e v) c is with
          | none => rw [hset] at h2; exact absurd h2 (by simp)
          | some c' =>
              rw [hset] at h2
              have ht' : Elem.mk t.tag t.answer t.text (t.children.set i c')
                  = t' := by simpa using h2
              have htagc : c'.tag = c.tag := setIdxPath_setVal_tag v is c c' hset
              have htags : (t.children.set i c').map Elem.tag
                  = t.children.map Elem.tag :=
                tags_set_eq t.children i c c' hget htagc
              rw [← ht']
              cases ip2 with
              | nil => rfl
              | cons j js =>
                  rw [segPathOf, segPathOf]
                  show (match (t.children.set i c').get? j with
                    | none => none
                    | some cj => (segPathOf cj js).map
                        (fun r => siblingSeg (t.children.set i c')
                          ((t.children.set i c').take j) cj.tag :: r))
                    = (match t.children.get? j with
                    | none => none
                    | some cj => (segPathOf cj js).map
                        (fun r => siblingSeg t.children
                          (t.children.take j) cj.tag :: r))
                  have htake : ((t.children.set i c').take j).map Elem.tag
                      = (t.children.take j).map Elem.tag := by
                    rw [List.map_take, List.map_take, htags]
                  by_cases hij : j = i
                  · subst hij
                    have hgets : (t.children.set j c').get? j = some c' :=
                      get?_set_self t.children j c' c hget
                    rw [hgets, hget]
                    show (segPathOf c' js).map
                        (fun r => siblingSeg (t.children.set j c')
                          ((t.children.set j c').take j) c'.tag :: r)
                      = (segPathOf c js).map
                        (fun r => siblingSeg t.children
                          (t.children.take j) c.tag :: r)
                    rw [ih c c' hset js]
                    have hsib : siblingSeg (t.children.set j c')
                        ((t.children.set j c').take j) c'.tag
                        = siblingSeg t.children (t.children.take j) c.tag := by
                      rw [htagc]
                      exact siblingSeg_congr_tags _ _ _ _ c.tag htags htake
                    rw [hsib]
                  · have hgets : (t.children.set i c').get? j
                        = t.children.get? j :=
                      get?_set_ne t.children i j c' hij
                    rw [hgets]
                    cases hj : t.children.get? j with
                    | none => rfl
                    | some cj =>
                        show (segPathOf cj js).map
                            (fun r => siblingSeg (t.children.set i c')
                              ((t.children.set i c').take j) cj.tag :: r)
                          = (segPathOf cj js).map
                            (fun r => siblingSeg t.children
                              (t.children.take j) cj.tag :: r)
                        have hsib : siblingSeg (t.children.set i c')
                            ((t.children.set i c').take j) cj.tag
                            = siblingSeg t.children
                              (t.children.take j) cj.tag :=
                          siblingSeg_congr_tags _ _ _ _ cj.tag htags htake
                        rw [hsib]

theorem drop_of_get? {α : Type} :
    ∀ (l : List α) (i : Nat) (c : α), l.get? i = some c →
    l.drop i = c :: l.drop (i + 1) := by
  intro l
  induction l with
  | nil => intro i c h; simp at h
  | cons x xs ih =>
      intro i c h
      cases i with
      | zero =>
          have : x = c := by simpa using h
          simp [this]
      | succ j =>
          have := ih j c (by simpa using h)
          simpa using this

theorem updateFirstChild_spec (v : String) (seg : PathSeg)
    (restSegs : List PathSeg) :
    ∀ (rem : List Elem) (before : List Elem) (i : Nat) (c c' : Elem),
    rem.get? i = some c →
    seg.1 = c.tag →
    ((seg.2 = none ∧ (before ++ rem.take i).filter
        (fun b => b.tag == c.tag) = [])
      ∨ seg.2 = some (((before ++ rem.take i).filter
          (fun b => b.tag == c.tag)).length + 1)) →
    updateFirstMatch v c restSegs = some c' →
    updateFirstChild v seg restSegs before rem = some (rem.set i c') := by
  intro rem
  induction rem with
  | nil => intro before i c c' h; simp at h
  | cons x xs ih =>
      intro before i c c' hget htag hcond hupd
      cases i with
      | zero =>
          have hx : x = c := by simpa using hget
          subst hx
          rw [updateFirstChild]
          have hcondtrue : (x.tag == seg.1
              && (seg.2 == none || seg.2 == some
                ((before.filter (fun b => b.tag == seg.1)).length + 1)))
              = true := by
            rcases hcond with ⟨h2, _⟩ | h2
            · simp [htag, h2]
            · simp only [List.take_zero, List.append_nil] at h2
              simp [htag, h2]
          rw [hcondtrue]
          show (match updateFirstMatch v x restSegs with
            | some c' => some (c' :: xs)
            | none =>
                (updateFirstChild v seg restSegs (before ++ [x]) xs).map
                  (fun cs' => x :: cs')) = some (x :: xs |>.set 0 c')
          rw [hupd]
          rfl
      | succ j =>
          have hget2 : xs.get? j = some c := by simpa using hget
          have htake : (x :: xs).take (j + 1) = x :: xs.take j := by
            simp
          by_cases hxt : x.tag = seg.1
          · rcases hcond with ⟨h2, hfil⟩ | h2
            · exfalso
              have hxin : x ∈ (before ++ (x :: xs).take (j + 1)).filter
                  (fun b => b.tag == c.tag) := by
                rw [List.mem_filter]
                refine ⟨?_, by simp [hxt, htag]⟩
                rw [htake]
                exact List.mem_append_right before (List.mem_cons_self _ _)
              rw [hfil] at hxin
              exact List.not_mem_nil x hxin
            · have hklt : (before.filter (fun b => b.tag == seg.1)).length + 1
                  < ((before ++ (x :: xs).take (j + 1)).filter
                    (fun b => b.tag == c.tag)).length + 1 := by
                rw [htake, ← htag]
                rw [filter_tag_length_append]
                have h1 : 1 ≤ ((x :: xs.take j).filter
                    (fun b => b.tag == seg.1)).length := by
                  have : x ∈ (x :: xs.take j).filter
                      (fun b => b.tag == seg.1) := by
                    rw [List.mem_filter]
                    exact ⟨List.mem_cons_self _ _, by simp [hxt]⟩
                  have := List.length_pos.mpr (List.ne_nil_of_mem this)
                  omega
                show (List.filter (fun b => b.tag == seg.1) before).length + 1
                  < (List.filter (fun d => d.tag == seg.1) before).length
                    + (List.filter (fun d => d.tag == seg.1)
                        (x :: xs.take j)).length + 1
                omega
              have hcondfalse : (x.tag == seg.1
                  && (seg.2 == none || seg.2 == some
                    ((before.filter (fun b => b.tag == seg.1)).length + 1)))
                  = false := by
                rw [h2]
                simp only [Bool.and_eq_false_iff]
                right
                simp only [Bool.or_eq_false_iff]
                refine ⟨by simp, ?_⟩
                simp only [beq_eq_false_iff_ne, ne_eq, Option.some.injEq]
                omega
              rw [updateFirstChild]
              rw [hcondfalse]
              show (updateFirstChild v seg restSegs (before ++ [x]) xs).map
                  (fun cs' => x :: cs') = some ((x :: xs).set (j + 1) c')
              have hih := ih (before ++ [x]) j c c' hget2 htag ?_ hupd
              · rw [hih]
                rfl
              · right
                rw [h2, htake]
                have : before ++ x :: xs.take j
                    = (before ++ [x]) ++ xs.take j := by simp
                rw [this]
          · have hcondfalse : (x.tag == seg.1
                && (seg.2 == none || seg.2 == some
                  ((before.filter (fun b => b.tag == seg.1)).length + 1)))
                = false := by
              simp [hxt]
            rw [updateFirstChild]
            rw [hcondfalse]
            show (updateFirstChild v seg restSegs (before ++ [x]) xs).map
                (fun cs' => x :: cs') = some ((x :: xs).set (j + 1) c')
            have hshift : before ++ (x :: xs).take (j + 1)
                = (before ++ [x]) ++ xs.take j := by
              rw [htake]
              simp
            have hih := ih (before ++ [x]) j c c' hget2 htag ?_ hupd
            · rw [hih]
              rfl
            · rw [hshift] at hcond
              exact hcond

theorem updateFirstMatch_setIdx (v : String) :
    ∀ (ip : List Nat) (t : Elem) (segs : List PathSeg),
    segPathOf t ip = some segs →
    updateFirstMatch v t segs = setIdxPath (fun e => setVal e v) t ip := by
  intro ip
  induction ip with
  | nil =>
      intro t segs h
      have hsegs : segs = [] := by
        have : some ([] : List PathSeg) = some segs := h
        simpa using this.symm
      subst hsegs
      rw [updateFirstMatch]
      rfl
  | cons i is ih =>
      intro t segs h
      rw [segPathOf] at h
      cases hget : t.children.get? i with
      | none => rw [hget] at h; exact absurd h (by simp)
      | some c =>
          rw [hget] at h
          have h2 : (segPathOf c is).map
              (fun r => siblingSeg t.children (t.children.take i)
                c.tag :: r) = some segs := h
          cases hrest : segPathOf c is with
          | none => rw [hrest] at h2; exact absurd h2 (by simp)
          | some rest =>
              rw [hrest] at h2
              have hsegs : segs = siblingSeg t.children
                  (t.children.take i) c.tag :: rest := by
                simpa using h2.symm
              subst hsegs
              rcases setIdxPath_isSome (f := fun e => setVal e v) is c rest
                hrest with ⟨c', hc'⟩
              have hupd : updateFirstMatch v c rest = some c' := by
                rw [ih c rest hrest, hc']
              have hcond : ((siblingSeg t.children (t.children.take i)
                    c.tag).2 = none
                  ∧ (([] : List Elem) ++ t.children.take i).filter
                      (fun b : Elem => b.tag == c.tag) = [])
                ∨ (siblingSeg t.children (t.children.take i) c.tag).2
                    = some (((([] : List Elem) ++ t.children.take i).filter
                      (fun b : Elem => b.tag == c.tag)).length + 1) := by
                unfold siblingSeg
                split
                · right
                  simp
                · rename_i hle
                  left
                  refine ⟨rfl, ?_⟩
                  have hsplit : t.children
                      = t.children.take i ++ t.children.drop i :=
                    (List.take_append_drop i t.children).symm
                  have hdrop : t.children.drop i
                      = c :: t.children.drop (i + 1) :=
                    drop_of_get? t.children i c hget
                  have hcnt : (t.children.filter
                      (fun d => d.tag == c.tag)).length
                      = ((t.children.take i).filter
                          (fun d => d.tag == c.tag)).length
                        + ((t.children.drop i).filter
                          (fun d => d.tag == c.tag)).length := by
                    conv =>
                      lhs
                      rw [hsplit]
                    exact filter_tag_length_append _ _ _
                  have hdropcnt : 1 ≤ ((t.children.drop i).filter
                      (fun d => d.tag == c.tag)).length := by
                    rw [hdrop]
                    exact filter_tag_pos_of_mem _ c c.tag
                      (List.mem_cons_self _ _) rfl
                  have hle9 : ¬ 1 < (t.children.filter
                      (fun d => d.tag == c.tag)).length := hle
                  have hz : ((t.children.take i).filter
                      (fun d => d.tag == c.tag)).length = 0 := by
                    omega
                  have hnil := List.length_eq_zero.mp hz
                  simpa using hnil
              have hspec := updateFirstChild_spec v
                (siblingSeg t.children (t.children.take i) c.tag) rest
                t.children [] i c c' hget
                (siblingSeg_fst t.children (t.children.take i) c.tag)
                ?_ hupd
              · rw [updateFirstMatch]
                rw [hspec]
                rw [setIdxPath, hget]
                show some (Elem.mk t.tag t.answer t.text
                    (t.children.set i c'))
                  = (setIdxPath (fun e => setVal e v) c is).map
                    (fun c' => Elem.mk t.tag t.answer t.text
                      (t.children.set i c'))
                rw [hc']
                rfl
              · have hfst : (siblingSeg t.children (t.children.take i)
                    c.tag).1 = c.tag :=
                  siblingSeg_fst t.children (t.children.take i) c.tag
                exact hcond

theorem applyUpds_nil (t : Elem) : applyUpds t [] = some t := rfl

theorem applyUpds_cons (t : Elem) (u : List Nat × String)
    (us : List (List Nat × String)) :
    applyUpds t (u :: us)
      = (setIdxPath (fun e => setVal e u.2) t u.1).bind
          (fun t' => applyUpds t' us) := by
  cases h : setIdxPath (fun e => setVal e u.2) t u.1 with
  | none =>
      show (setIdxPath (fun e => setVal e u.2) t u.1).bind
        (fun t' => applyUpds t' us) = _
      rw [h]
  | some t' =>
      show (setIdxPath (fun e => setVal e u.2) t u.1).bind
        (fun t' => applyUpds t' us) = _
      rw [h]

theorem applyUpds_append (t : Elem) (us vs : List (List Nat × String)) :
    applyUpds t (us ++ vs)
      = (applyUpds t us).bind (fun t' => applyUpds t' vs) := by
  induction us generalizing t with
  | nil => rfl
  | cons u us' ih =>
      rw [List.cons_append, applyUpds_cons, applyUpds_cons]
      cases h : setIdxPath (fun e => setVal e u.2) t u.1 with
      | none => rfl
      | some t1 =>
          show applyUpds t1 (us' ++ vs)
            = (applyUpds t1 us').bind (fun t' => applyUpds t' vs)
          exact ih t1

theorem applyUpds_child_shifted :
    ∀ (us : List (List Nat × String)) (cs : List Elem) (i : Nat)
      (c c' : Elem) (t : String) (a x : Option String),
    cs.get? i = some c → applyUpds c us = some c' →
    applyUpds (Elem.mk t a x cs) (us.map (fun u => (i :: u.1, u.2)))
      = some (Elem.mk t a x (cs.set i c')) := by
  intro us
  induction us with
  | nil =>
      intro cs i c c' t a x hget hc
      have hcc : c = c' := by simpa [applyUpds] using hc
      subst hcc
      rw [list_set_get?_self cs i c hget]
      rfl
  | cons u us' ih =>
      intro cs i c c' t a x hget hc
      rw [applyUpds_cons] at hc
      cases hstep : setIdxPath (fun e => setVal e u.2) c u.1 with
      | none =>
          rw [hstep] at hc
          exact absurd hc (by simp)
      | some c1 =>
          rw [hstep] at hc
          have hc2 : applyUpds c1 us' = some c' := hc
          rw [List.map_cons, applyUpds_cons]
          have hfirst : setIdxPath (fun e => setVal e u.2)
              (Elem.mk t a x cs) ((i :: u.1, u.2) : List Nat × String).1
              = some (Elem.mk t a x (cs.set i c1)) := by
            show (cs.get? i).bind (fun cc =>
              (setIdxPath (fun e => setVal e u.2) cc u.1).map
                (fun cc' => Elem.mk t a x (cs.set i cc')))
              = some (Elem.mk t a x (cs.set i c1))
            rw [hget]
            show (setIdxPath (fun e => setVal e u.2) c u.1).map
              (fun cc' => Elem.mk t a x (cs.set i cc'))
              = some (Elem.mk t a x (cs.set i c1))
            rw [hstep]
            rfl
          rw [hfirst]
          show applyUpds (Elem.mk t a x (cs.set i c1))
              (us'.map (fun u => (i :: u.1, u.2)))
            = some (Elem.mk t a x (cs.set i c'))
          have hget2 : (cs.set i c1).get? i = some c1 :=
            get?_set_self cs i c1 c hget
          have := ih (cs.set i c1) i c1 c' t a x hget2 hc2
          rw [this, List.set_set]

theorem dictUpdate_fresh {α : Type} (m : List (String × α)) (k : String)
    (v : α) (h : ∀ p ∈ m, p.1 ≠ k) : dictUpdate m k v = m ++ [(k, v)] := by
  unfold dictUpdate
  rw [if_neg]
  simp only [List.any_eq_true, not_exists, not_and]
  intro p hp
  simpa using h p hp

theorem foldl_dictUpdate_append :
    ∀ (ps : List (String × String)) (acc : List (String × String)),
    (∀ p ∈ ps, ∀ q ∈ acc, q.1 ≠ p.1) → (ps.map Prod.fst).Nodup →
    ps.foldl (fun d p => dictUpdate d p.1 p.2) acc = acc ++ ps := by
  intro ps
  induction ps with
  | nil => intro acc _ _; simp
  | cons p ps' ih =>
      intro acc hfresh hnodup
      rw [List.foldl_cons]
      rw [dictUpdate_fresh acc p.1 p.2
        (fun q hq => hfresh p (List.mem_cons_self _ _) q hq)]
      rw [List.map_cons, List.nodup_cons] at hnodup
      have hih := ih (acc ++ [p]) ?_ hnodup.2
      · rw [hih]
        simp
      · intro r hr q hq
        rcases List.mem_append.mp hq with hq | hq
        · exact hfresh r (List.mem_cons_of_mem _ hr) q hq
        · have hqp : q = p := List.mem_singleton.mp hq
          subst hqp
          intro hcon
          exact hnodup.1 (hcon ▸ List.mem_map_of_mem Prod.fst hr)

theorem foldl_opt_dictUpdate {A : Type} (g : A → Option (String × String)) :
    ∀ (l : List A) (acc : List (String × String)),
    l.foldl (fun d e => match g e with
      | some kv => dictUpdate d kv.1 kv.2
      | none => d) acc
      = (l.filterMap g).foldl (fun d kv => dictUpdate d kv.1 kv.2) acc := by
  intro l
  induction l with
  | nil => intro acc; rfl
  | cons e l' ih =>
      intro acc
      rw [List.foldl_cons, List.filterMap_cons]
      cases hge : g e with
      | none => exact ih acc
      | some kv => rw [List.foldl_cons]; exact ih _

theorem childContribUpds_nil (ti : Bool) (all bef : List Elem) :
    childContribUpds ti all bef [] = [] := by
  unfold childContribUpds
  rw [preorderChildrenRel]
  rfl

theorem childContribUpds_cons (ti : Bool) (all bef : List Elem) (c : Elem)
    (rest : List Elem) :
    childContribUpds ti all bef (c :: rest)
      = (contribUpds ti c).map (fun u => (bef.length :: u.1, u.2))
        ++ childContribUpds ti all (bef ++ [c]) rest := by
  unfold childContribUpds contribUpds
  rw [preorderChildrenRel]
  rw [List.filterMap_append]
  congr 1
  rw [List.filterMap_map, List.map_filterMap]
  have hfun : ((fun ent : List PathSeg × List Nat × Elem =>
        (contribVal ti ent.2.2).map (fun v => (ent.2.1, v)))
      ∘ shiftEnt [siblingSeg all bef c.tag] [bef.length])
      = fun ent : List PathSeg × List Nat × Elem =>
        ((contribVal ti ent.2.2).map (fun v => (ent.2.1, v))).map
          (fun u => (bef.length :: u.1, u.2)) := by
    funext ent
    cases hcv : contribVal ti ent.2.2 <;> simp [shiftEnt, hcv]
  rw [hfun]

theorem childContribUpds_apply (ti : Bool) :
    ∀ (rem : List Elem),
    (∀ c ∈ rem, applyUpds c (contribUpds ti c) = some (trimElem ti c)) →
    ∀ (all bef pref : List Elem) (t : String) (a x : Option String),
    bef.length = pref.length →
    applyUpds (Elem.mk t a x (pref ++ rem)) (childContribUpds ti all bef rem)
      = some (Elem.mk t a x (pref ++ rem.map (trimElem ti))) := by
  intro rem
  induction rem with
  | nil =>
      intro _ all bef pref t a x _
      rw [childContribUpds_nil, applyUpds_nil]
      simp
  | cons c rest ih =>
      intro hall all bef pref t a x hlen
      rw [childContribUpds_cons, applyUpds_append]
      have hc := hall c (List.mem_cons_self _ _)
      have hget : (pref ++ c :: rest).get? bef.length = some c := by
        rw [hlen]
        exact get?_append_length pref c rest
      have h1 := applyUpds_child_shifted (contribUpds ti c)
        (pref ++ c :: rest) bef.length c (trimElem ti c) t a x hget hc
      rw [h1]
      show applyUpds (Elem.mk t a x
          ((pref ++ c :: rest).set bef.length (trimElem ti c)))
          (childContribUpds ti all (bef ++ [c]) rest)
        = some (Elem.mk t a x (pref ++ (c :: rest).map (trimElem ti)))
      have hset : (pref ++ c :: rest).set bef.length (trimElem ti c)
          = pref ++ trimElem ti c :: rest := by
        rw [hlen]
        exact set_append_length pref c (trimElem ti c) rest
      rw [hset]
      have hre : pref ++ trimElem ti c :: rest
          = (pref ++ [trimElem ti c]) ++ rest := by simp
      rw [hre]
      have hih := ih (fun u hu => hall u (List.mem_cons_of_mem _ hu)) all
        (bef ++ [c]) (pref ++ [trimElem ti c]) t a x (by simp [hlen])
      rw [hih]
      simp

theorem contribUpds_mk (ti : Bool) (t : String) (a x : Option String)
    (cs : List Elem) :
    contribUpds ti (Elem.mk t a x cs)
      = (match contribVal ti (Elem.mk t a x cs) with
          | some v => [(([] : List Nat), v)]
          | none => []) ++ childContribUpds ti cs [] cs := by
  unfold contribUpds childContribUpds
  rw [preorderRelFull]
  rw [List.filterMap_cons]
  cases contribVal ti (Elem.mk t a x cs) <;> simp

theorem trimElem_mk (ti : Bool) (t : String) (a x : Option String)
    (cs : List Elem) :
    trimElem ti (Elem.mk t a x cs)
      = (if ti && pyTruthyStr a then
          Elem.mk t (some (pyStrip (a.getD ""))) x (cs.map (trimElem ti))
        else if pyTruthyStr x then
          Elem.mk t a (some (pyStrip (x.getD ""))) (cs.map (trimElem ti))
        else Elem.mk t a x (cs.map (trimElem ti))) := by
  rw [trimElem]
  have hm : cs.attach.map (fun c => trimElem ti c.1) = cs.map (trimElem ti) :=
    List.attach_map_coe cs (trimElem ti)
  show (if ti && pyTruthyStr a then
      Elem.mk t (some (pyStrip (a.getD ""))) x
        (cs.attach.map (fun c => trimElem ti c.1))
    else if pyTruthyStr x then
      Elem.mk t a (some (pyStrip (x.getD "")))
        (cs.attach.map (fun c => trimElem ti c.1))
    else Elem.mk t a x (cs.attach.map (fun c => trimElem ti c.1))) = _
  rw [hm]

theorem applyUpds_contrib (ti : Bool) (e : Elem)
    (hcl : ti = false → Elem.noAnswerTextClash e = true) :
    applyUpds e (contribUpds ti e) = some (trimElem ti e) := by
  match e with
  | .mk t a x cs =>
      have hrec : ∀ c ∈ cs,
          applyUpds c (contribUpds ti c) = some (trimElem ti c) := by
        intro c hm
        have hclc : ti = false → Elem.noAnswerTextClash c = true :=
          fun hti => (noClash_parts t a x cs (hcl hti)).2 c hm
        exact applyUpds_contrib ti c hclc
      rw [contribUpds_mk, trimElem_mk]
      cases hv : contribVal ti (Elem.mk t a x cs) with
      | none =>
          simp only [List.nil_append]
          have h1 := childContribUpds_apply ti cs hrec cs [] [] t a x rfl
          simp only [List.nil_append] at h1
          rw [h1]
          unfold contribVal at hv
          by_cases hta : (ti && pyTruthyStr ((Elem.mk t a x cs).answer)) = true
          · rw [if_pos hta] at hv
            exact absurd hv (by simp)
          · rw [if_neg hta] at hv
            by_cases htx : pyTruthyStr ((Elem.mk t a x cs).text) = true
            · rw [if_pos htx] at hv
              exact absurd hv (by simp)
            · have hta' : (ti && pyTruthyStr a) = false := by
                simpa [Elem.answer] using (Bool.eq_false_iff.mpr hta)
              have htx' : pyTruthyStr x = false := by
                simpa [Elem.text] using (Bool.eq_false_iff.mpr htx)
              rw [hta', htx']
              simp
      | some v =>
          show applyUpds (Elem.mk t a x cs)
              ((([] : List Nat), v) :: childContribUpds ti cs [] cs) = _
          rw [applyUpds_cons]
          show (applyUpds (setVal (Elem.mk t a x cs) v)
            (childContribUpds ti cs [] cs)) = _
          unfold contribVal at hv
          by_cases hta : (ti && pyTruthyStr ((Elem.mk t a x cs).answer)) = true
          · rw [if_pos hta] at hv
            have hv2 : pyStrip (((Elem.mk t a x cs).answer).getD "") = v := by
              simpa using hv
            have htaa : (ti && pyTruthyStr a) = true := by
              simpa [Elem.answer] using hta
            have htruea : pyTruthyStr a = true := by
              simp only [Bool.and_eq_true] at htaa
              exact htaa.2
            have hsetval : setVal (Elem.mk t a x cs) v
                = Elem.mk t (some v) x cs := by
              unfold setVal
              rw [if_pos (by simpa [Elem.answer] using htruea)]
              rfl
            rw [hsetval]
            have h1 := childContribUpds_apply ti cs hrec cs [] [] t
              (some v) x rfl
            simp only [List.nil_append] at h1
            rw [h1]
            rw [if_pos htaa]
            have : pyStrip (a.getD "") = v := by
              simpa [Elem.answer] using hv2
            rw [this]
          · rw [if_neg hta] at hv
            by_cases htx : pyTruthyStr ((Elem.mk t a x cs).text) = true
            · rw [if_pos htx] at hv
              have hv2 : pyStrip (((Elem.mk t a x cs).text).getD "") = v := by
                simpa using hv
              have htruex : pyTruthyStr x = true := by
                simpa [Elem.text] using htx
              have hfalsea : pyTruthyStr a = false := by
                cases hti : ti with
                | true =>
                    have : ¬ (pyTruthyStr ((Elem.mk t a x cs).answer) = true) := by
                      intro hcon
                      exact hta (by simp [hti, hcon])
                    simpa [Elem.answer] using Bool.eq_false_iff.mpr this
                | false =>
                    have hnc := (noClash_parts t a x cs (hcl hti)).1
                    cases hpa : pyTruthyStr a with
                    | false => rfl
                    | true =>
                        rw [hpa, htruex] at hnc
                        exact absurd hnc (by decide)
              have hsetval : setVal (Elem.mk t a x cs) v
                  = Elem.mk t a (some v) cs := by
                unfold setVal
                rw [if_neg (by simp [Elem.answer, hfalsea])]
                rfl
              rw [hsetval]
              have h1 := childContribUpds_apply ti cs hrec cs [] [] t
                a (some v) rfl
              simp only [List.nil_append] at h1
              rw [h1]
              have hta2 : (ti && pyTruthyStr a) = false := by
                simp [hfalsea]
              rw [hta2]
              simp only [Bool.false_eq_true, if_false]
              rw [if_pos htruex]
              have : pyStrip (x.getD "") = v := by
                simpa [Elem.text] using hv2
              rw [this]
            · rw [if_neg htx] at hv
              exact absurd hv (by simp)
termination_by sizeOf e
decreasing_by
  have := List.sizeOf_lt_of_mem hm
  simp only [Elem.mk.sizeOf_spec]
  omega

theorem meta_to_raw_cons (t : Elem) (kv : String × String)
    (kvs : List (String × String)) :
    problem_meta_data_to_raw_data t (kv :: kvs)
      = (updateByXPath t (parseXPathChars
          (convert_meta_key_format_to_xpath kv.1).toList) kv.2).bind
        (fun tr => problem_meta_data_to_raw_data tr kvs) := by
  unfold problem_meta_data_to_raw_data
  rw [List.foldlM_cons]
  rfl

theorem meta_to_raw_nav (root : Elem) (hvt : validTag root.tag = true) :
    ∀ (zs : List (List PathSeg × List Nat × String)) (t : Elem),
    (∀ z ∈ zs, ∃ rel, z.1 = (root.tag, none) :: rel
      ∧ segPathOf root z.2.1 = some rel
      ∧ (∀ s ∈ rel, goodSeg s = true)) →
    (∀ ip2, segPathOf t ip2 = segPathOf root ip2) →
    t.tag = root.tag →
    problem_meta_data_to_raw_data t (zs.map (fun z => (entryKey z.1, z.2.2)))
      = applyUpds t (zs.map (fun z => z.2)) := by
  intro zs
  induction zs with
  | nil => intro t _ _ _; rfl
  | cons z zs' ih =>
      intro t hz hpres htag
      rcases hz z (List.mem_cons_self _ _) with ⟨rel, hzp, hseg, hgood⟩
      rw [List.map_cons, List.map_cons, meta_to_raw_cons, applyUpds_cons]
      have hkey : parseXPathChars (convert_meta_key_format_to_xpath
          ((entryKey z.1, z.2.2) : String × String).1).toList
          = (root.tag, none) :: rel := by
        show parseXPathChars (convert_meta_key_format_to_xpath
          (convert_xpath_to_meta_key_format
            ⟨renderXPathChars z.1⟩)).toList = _
        rw [hzp]
        exact segs_of_key_of_render root.tag rel hvt hgood
      have hsegt : segPathOf t z.2.1 = some rel := by
        rw [hpres z.2.1]
        exact hseg
      rcases setIdxPath_isSome (f := fun e => setVal e z.2.2) z.2.1 t rel
        hsegt with ⟨t', ht'⟩
      have hupd : updateByXPath t ((root.tag, none) :: rel) z.2.2
          = some t' := by
        unfold updateByXPath
        show (if (t.tag == root.tag
            && ((none : Option Nat) == none
              || (none : Option Nat) == some 1)) = true then
          updateFirstMatch z.2.2 t rel else none) = some t'
        rw [if_pos (by simp [htag])]
        rw [updateFirstMatch_setIdx z.2.2 z.2.1 t rel hsegt, ht']
      rw [hkey, hupd, ht']
      show problem_meta_data_to_raw_data t'
          (zs'.map (fun z => (entryKey z.1, z.2.2)))
        = applyUpds t' (zs'.map (fun z => z.2))
      refine ih t' (fun u hu => hz u (List.mem_cons_of_mem _ hu)) ?_ ?_
      · intro ip2
        rw [setIdxPath_setVal_segPathOf z.2.2 z.2.1 t t' ht' ip2, hpres ip2]
      · rw [setIdxPath_setVal_tag z.2.2 z.2.1 t t' ht', htag]

theorem filterMap_map_sublist {A B C : Type} (f : A → Option B) (h : B → C)
    (h' : A → C) (hcomp : ∀ a b, f a = some b → h b = h' a) :
    ∀ (l : List A), ((l.filterMap f).map h).Sublist (l.map h') := by
  intro l
  induction l with
  | nil => simp
  | cons a l' ih =>
      rw [List.filterMap_cons, List.map_cons]
      cases hf : f a with
      | none => exact List.Sublist.cons (h' a) ih
      | some b =>
          rw [List.map_cons, hcomp a b hf]
          exact List.Sublist.cons₂ (h' a) ih

theorem fullEnts_shape (root : Elem) :
    preorderFull [(root.tag, none)] [] root
      = (preorderRelFull root).map (shiftEnt [(root.tag, none)] []) :=
  preorderFull_eq_rel root [(root.tag, none)] []

theorem fullEnts_props (root : Elem) (hv : Elem.validTree root = true) :
    ∀ ent ∈ preorderFull [(root.tag, none)] [] root,
    ∃ rel, ent.1 = (root.tag, none) :: rel
      ∧ segPathOf root ent.2.1 = some rel
      ∧ (∀ s ∈ rel, goodSeg s = true) := by
  intro ent hm
  rw [fullEnts_shape] at hm
  rcases List.mem_map.mp hm with ⟨relEnt, hmem, rfl⟩
  refine ⟨relEnt.1, by simp [shiftEnt], ?_, ?_⟩
  · show segPathOf root (([] : List Nat) ++ relEnt.2.1) = some relEnt.1
    rw [List.nil_append]
    exact preorderRelFull_segPathOf root relEnt hmem
  · exact preorderRelFull_good root hv relEnt hmem

theorem fullEnts_fst_nodup (root : Elem) :
    ((preorderFull [(root.tag, none)] [] root).map
      (fun ent => ent.1)).Nodup := by
  rw [fullEnts_shape, List.map_map]
  have heq : ((fun ent : List PathSeg × List Nat × Elem => ent.1)
        ∘ shiftEnt [(root.tag, none)] [])
      = (fun p => (root.tag, none) :: p)
        ∘ (fun ent : List PathSeg × List Nat × Elem => ent.1) := by
    funext ent
    simp [shiftEnt]
  rw [heq, ← List.map_map]
  refine List.Nodup.map ?_ (preorderRelFull_fst_nodup root)
  intro p q hpq
  exact (List.cons.injEq _ _ _ _).mp hpq |>.2

theorem fullEnts_key_nodup (root : Elem) (hv : Elem.validTree root = true) :
    ((preorderFull [(root.tag, none)] [] root).map
      (fun ent => entryKey ent.1)).Nodup := by
  have h1 : ((preorderFull [(root.tag, none)] [] root).map
      (fun ent => entryKey ent.1))
      = ((preorderFull [(root.tag, none)] [] root).map
        (fun ent => ent.1)).map entryKey := by
    rw [List.map_map]
    rfl
  rw [h1]
  refine List.Nodup.map_on ?_ (fullEnts_fst_nodup root)
  intro p1 hp1 p2 hp2 hkey
  rcases List.mem_map.mp hp1 with ⟨ent1, hm1, rfl⟩
  rcases List.mem_map.mp hp2 with ⟨ent2, hm2, rfl⟩
  rcases fullEnts_props root hv ent1 hm1 with ⟨rel1, he1, _, hg1⟩
  rcases fullEnts_props root hv ent2 hm2 with ⟨rel2, he2, _, hg2⟩
  have hvt := validTree_tag root hv
  have hr1 : parseXPathChars (convert_meta_key_format_to_xpath
      (entryKey ent1.1)).toList = ent1.1 := by
    rw [he1]
    exact segs_of_key_of_render root.tag rel1 hvt hg1
  have hr2 : parseXPathChars (convert_meta_key_format_to_xpath
      (entryKey ent2.1)).toList = ent2.1 := by
    rw [he2]
    exact segs_of_key_of_render root.tag rel2 hvt hg2
  rw [← hr1, ← hr2, hkey]

theorem decompose_list (root : Elem) (hv : Elem.validTree root = true) :
    problem_raw_data_to_meta_data root
      = (contribEntries root.isTextInputProblem
          (preorderFull [(root.tag, none)] [] root)).map
        (fun z => (entryKey z.1, z.2.2)) := by
  unfold problem_raw_data_to_meta_data
  show (preorderWithPaths root).foldl
      (fun d pe =>
        if root.isTextInputProblem && pyTruthyStr pe.2.answer then
          dictUpdate d
            (convert_xpath_to_meta_key_format ⟨renderXPathChars pe.1⟩)
            (pyStrip ((pe.2.answer).getD ""))
        else if pyTruthyStr pe.2.text then
          dictUpdate d
            (convert_xpath_to_meta_key_format ⟨renderXPathChars pe.1⟩)
            (pyStrip ((pe.2.text).getD ""))
        else d)
      [] = _
  have hb : (fun (d : List (String × String)) (pe : List PathSeg × Elem) =>
      if root.isTextInputProblem && pyTruthyStr pe.2.answer then
        dictUpdate d
          (convert_xpath_to_meta_key_format ⟨renderXPathChars pe.1⟩)
          (pyStrip ((pe.2.answer).getD ""))
      else if pyTruthyStr pe.2.text then
        dictUpdate d
          (convert_xpath_to_meta_key_format ⟨renderXPathChars pe.1⟩)
          (pyStrip ((pe.2.text).getD ""))
      else d)
      = fun d pe =>
        match (contribVal root.isTextInputProblem pe.2).map
            (fun v => (entryKey pe.1, v)) with
        | some kv => dictUpdate d kv.1 kv.2
        | none => d := by
    funext d pe
    unfold contribVal
    by_cases h1 : (root.isTextInputProblem && pyTruthyStr pe.2.answer) = true
    · rw [if_pos h1, if_pos h1]
      rfl
    · rw [if_neg h1, if_neg h1]
      by_cases h2 : pyTruthyStr pe.2.text = true
      · rw [if_pos h2, if_pos h2]
        rfl
      · rw [if_neg h2, if_neg h2]
        rfl
  rw [hb, foldl_opt_dictUpdate]
  have hkvs : (preorderWithPaths root).filterMap
      (fun pe => (contribVal root.isTextInputProblem pe.2).map
        (fun v => (entryKey pe.1, v)))
      = (contribEntries root.isTextInputProblem
          (preorderFull [(root.tag, none)] [] root)).map
        (fun z => (entryKey z.1, z.2.2)) := by
    unfold preorderWithPaths contribEntries
    rw [List.filterMap_map, List.map_filterMap]
    congr 1
    funext ent
    cases hcv : contribVal root.isTextInputProblem ent.2.2 <;>
      simp [Function.comp_def, hcv]
  rw [hkvs]
  have hcomp : ∀ (a : List PathSeg × List Nat × Elem)
      (b : List PathSeg × List Nat × String),
      (contribVal root.isTextInputProblem a.2.2).map
        (fun v => (a.1, a.2.1, v)) = some b →
      entryKey b.1 = entryKey a.1 := by
    intro a b hab
    cases hcv : contribVal root.isTextInputProblem a.2.2 with
    | none => rw [hcv] at hab; exact absurd hab (by simp)
    | some v =>
        rw [hcv] at hab
        have : (a.1, a.2.1, v) = b := by simpa using hab
        rw [← this]
  have hsub := filterMap_map_sublist
    (fun ent : List PathSeg × List Nat × Elem =>
      (contribVal root.isTextInputProblem ent.2.2).map
        (fun v => (ent.1, ent.2.1, v)))
    (fun z : List PathSeg × List Nat × String => entryKey z.1)
    (fun ent : List PathSeg × List Nat × Elem => entryKey ent.1)
    hcomp (preorderFull [(root.tag, none)] [] root)
  have hnodup : ((contribEntries root.isTextInputProblem
      (preorderFull [(root.tag, none)] [] root)).map
      (fun z => (entryKey z.1, z.2.2))).map Prod.fst |>.Nodup := by
    have hmap : ((contribEntries root.isTextInputProblem
        (preorderFull [(root.tag, none)] [] root)).map
        (fun z => (entryKey z.1, z.2.2))).map Prod.fst
        = (contribEntries root.isTextInputProblem
          (preorderFull [(root.tag, none)] [] root)).map
          (fun z => entryKey z.1) := by
      rw [List.map_map]
      rfl
    rw [hmap]
    exact List.Sublist.nodup hsub (fullEnts_key_nodup root hv)
  have hfresh : ∀ p ∈ (contribEntries root.isTextInputProblem
      (preorderFull [(root.tag, none)] [] root)).map
      (fun z => (entryKey z.1, z.2.2)),
      ∀ q ∈ ([] : List (String × String)), q.1 ≠ p.1 := by
    intro p _ q hq
    exact absurd hq (List.not_mem_nil q)
  rw [foldl_dictUpdate_append _ [] hfresh hnodup, List.nil_append]

theorem contrib_upds_eq (root : Elem) :
    ((contribEntries root.isTextInputProblem
        (preorderFull [(root.tag, none)] [] root)).map (fun z => z.2))
      = contribUpds root.isTextInputProblem root := by
  unfold contribEntries contribUpds
  rw [List.map_filterMap, fullEnts_shape, List.filterMap_map]
  congr 1
  funext ent
  cases hcv : contribVal root.isTextInputProblem ent.2.2 <;>
    simp [Function.comp_def, shiftEnt, hcv]

theorem problem_round_trip (root : Elem) (hv : Elem.validTree root = true)
    (hcl : root.isTextInputProblem = false →
      Elem.noAnswerTextClash root = true) :
    problem_meta_data_to_raw_data root (problem_raw_data_to_meta_data root)
      = some (trimElem root.isTextInputProblem root) := by
  rw [decompose_list root hv]
  rw [meta_to_raw_nav root (validTree_tag root hv) _ root
    (fun z hz => by
      rcases List.mem_filterMap.mp hz with ⟨ent, hment, hent⟩
      cases hcv : contribVal root.isTextInputProblem ent.2.2 with
      | none => rw [hcv] at hent; exact absurd hent (by simp)
      | some v =>
          rw [hcv] at hent
          have hz2 : (ent.1, ent.2.1, v) = z := by simpa using hent
          rcases fullEnts_props root hv ent hment with ⟨rel, h1, h2, h3⟩
          exact ⟨rel, by rw [← hz2]; exact h1, by rw [← hz2]; exact h2, h3⟩)
    (fun _ => rfl) rfl]
  rw [contrib_upds_eq]
  exact applyUpds_contrib root.isTextInputProblem root hcl

/-! ### Video transcript round trip -/

theorem dictOfPairs_eq_self (ps : List (String × String))
    (hn : (ps.map Prod.fst).Nodup) : dictOfPairs ps = ps := by
  unfold dictOfPairs
  rw [foldl_dictUpdate_append ps []
    (fun p _ q hq => absurd hq (List.not_mem_nil q)) hn]
  rfl

theorem dictGet_of_nodup_mem :
    ∀ (ps : List (String × String)), (ps.map Prod.fst).Nodup →
    ∀ (k v : String), (k, v) ∈ ps → dictGet ps k = some v := by
  intro ps
  induction ps with
  | nil => intro _ k v hm; exact absurd hm (List.not_mem_nil _)
  | cons p ps' ih =>
      intro hn k v hm
      rw [List.map_cons, List.nodup_cons] at hn
      rcases List.mem_cons.mp hm with hm | hm
      · subst hm
        unfold dictGet
        rw [List.find?_cons_of_pos _ (by simp)]
        rfl
      · have hne : p.1 ≠ k := by
          intro hcon
          apply hn.1
          rw [hcon]
          exact List.mem_map_of_mem Prod.fst hm
        unfold dictGet
        rw [List.find?_cons_of_neg _ (by simp [hne])]
        exact ih hn.2 k v hm

theorem video_fold_cons (E : List (String × String)) (k : String)
    (ks : List String) (acc : List String) :
    (k :: ks).foldlM
      (fun acc key =>
        match dictGet E key with
        | some v => some (acc ++ [stripNewlines v])
        | none => none) acc
      = (match dictGet E k with
        | some v => some (acc ++ [stripNewlines v])
        | none => none).bind
        (fun acc' => ks.foldlM
          (fun acc key =>
            match dictGet E key with
            | some v => some (acc ++ [stripNewlines v])
            | none => none) acc') := by
  rw [List.foldlM_cons]
  cases dictGet E k <;> rfl

theorem video_fold (E : List (String × String)) :
    ∀ (ks vs : List String) (acc : List String),
    ks.length = vs.length →
    (∀ p ∈ ks.zip vs, dictGet E p.1 = some p.2) →
    ks.foldlM
      (fun acc key =>
        match dictGet E key with
        | some v => some (acc ++ [stripNewlines v])
        | none => none) acc
      = some (acc ++ vs.map stripNewlines) := by
  intro ks
  induction ks with
  | nil =>
      intro vs acc hlen _
      have hvs : vs = [] := by
        cases vs with
        | nil => rfl
        | cons v vs' => simp at hlen
      subst hvs
      simp [List.foldlM]
  | cons k ks' ih =>
      intro vs acc hlen hget
      cases vs with
      | nil => simp at hlen
      | cons v vs' =>
          rw [video_fold_cons]
          have hk : dictGet E k = some v :=
            hget (k, v) (by simp [List.zip_cons_cons])
          rw [hk]
          show ks'.foldlM _ (acc ++ [stripNewlines v])
            = some (acc ++ (v :: vs').map stripNewlines)
          have hih := ih vs' (acc ++ [stripNewlines v])
            (by simpa using hlen)
            (fun p hp => hget p (by
              rw [List.zip_cons_cons]
              exact List.mem_cons_of_mem _ hp))
          rw [hih]
          simp

theorem convert_locations_length (startPoints endPoints : List Int)
    (h : endPoints.length = startPoints.length) :
    (convert_locations_to_meta_keys startPoints endPoints).length
      = startPoints.length := by
  unfold convert_locations_to_meta_keys
  rw [List.length_map, List.length_zip, List.length_zip, List.length_range, h]
  omega

theorem video_round_trip (raw : TranscriptData)
    (hse : raw.ends.length = raw.start.length)
    (hst : raw.text.length = raw.start.length)
    (hnd : (convert_locations_to_meta_keys raw.start raw.ends).Nodup)
    (hne : ∀ cue ∈ raw.text, cue ≠ "") :
    video_meta_data_to_raw_data raw.start raw.ends
        (video_raw_data_to_meta_data raw)
      = some (raw.text.map stripNewlines) := by
  have hklen : (convert_locations_to_meta_keys raw.start raw.ends).length
      = raw.start.length := convert_locations_length raw.start raw.ends hse
  have htext : raw.text.map (fun t => if t ≠ "" then t else "....")
      = raw.text := by
    have : ∀ t ∈ raw.text, (if t ≠ "" then t else "....") = t := by
      intro t ht
      rw [if_pos (hne t ht)]
    calc raw.text.map (fun t => if t ≠ "" then t else "....")
        = raw.text.map id := List.map_congr_left this
      _ = raw.text := List.map_id raw.text
  have henc : video_raw_data_to_meta_data raw
      = (convert_locations_to_meta_keys raw.start raw.ends).zip raw.text := by
    unfold video_raw_data_to_meta_data
    show dictOfPairs ((convert_locations_to_meta_keys raw.start raw.ends).zip
      (raw.text.map (fun t => if t ≠ "" then t else "...."))) = _
    rw [htext]
    refine dictOfPairs_eq_self _ ?_
    rw [List.map_fst_zip]
    · exact hnd
    · omega
  unfold video_meta_data_to_raw_data
  rw [henc]
  have hzipfst : ((convert_locations_to_meta_keys raw.start
      raw.ends).zip raw.text).map Prod.fst
      = convert_locations_to_meta_keys raw.start raw.ends := by
    rw [List.map_fst_zip]
    omega
  have hget : ∀ p ∈ (convert_locations_to_meta_keys raw.start
      raw.ends).zip raw.text,
      dictGet ((convert_locations_to_meta_keys raw.start
        raw.ends).zip raw.text) p.1 = some p.2 := by
    intro p hp
    exact dictGet_of_nodup_mem _ (by rw [hzipfst]; exact hnd) p.1 p.2
      (by simpa using hp)
  have := video_fold ((convert_locations_to_meta_keys raw.start
    raw.ends).zip raw.text) (convert_locations_to_meta_keys raw.start
    raw.ends) raw.text [] (by omega) hget
  rw [this]
  rfl

/-- C3 counterexample: the subtitle transformer is **not** a round trip up to
whitespace trimming on every valid input: `raw_data_to_meta_data` replaces an
empty cue text by the `'....'` placeholder, and `meta_data_to_raw_data` hands
the placeholder back, so a transcript with an empty cue recomposes to
`'....'`, not to its original (trimmed) text. -/
theorem C3_round_trip_counterexample :
    video_meta_data_to_raw_data [0] [5]
        (video_raw_data_to_meta_data ⟨[0], [5], [""]⟩)
      = some ["...."]
    ∧ ([""] : List String).map stripNewlines = [""]
    ∧ (["...."] : List String) ≠ [""]
    ∧ pyStrip "" = "" := by
  refine ⟨by rfl, by rfl, by decide, by rfl⟩

/-- C3 (amended): the decompose/recompose round trip holds per transformer
under the inputs each one actually handles.  Problem markup: for a problem
tree with well-formed tags and — outside text-input problems — no element
carrying both a truthy `answer` attribute and truthy text, recomposing the
original template with the decomposition reproduces the tree up to stripping
the whitespace of every contributed answer/text; sibling counts are
unrestricted — a single-digit index travels as `.d` through the `\[\d\]` /
`\.\d` replacement loops, a multi-digit index keeps its bracket form in the
key (cf. C7) and parses back to the same xpath.  Video transcripts: when the
cue locations give pairwise distinct keys, the point lists agree in length
with the cue list, and no cue text is empty (else the `'....'` placeholder
breaks the round trip), recomposition returns the cue texts with surrounding
newlines stripped. -/
theorem C3_round_trip_amended :
    (∀ (root : Elem), Elem.validTree root = true →
      (root.isTextInputProblem = false →
        Elem.noAnswerTextClash root = true) →
      problem_meta_data_to_raw_data root (problem_raw_data_to_meta_data root)
        = some (trimElem root.isTextInputProblem root))
    ∧ (∀ (raw : TranscriptData),
      raw.ends.length = raw.start.length →
      raw.text.length = raw.start.length →
      (convert_locations_to_meta_keys raw.start raw.ends).Nodup →
      (∀ cue ∈ raw.text, cue ≠ "") →
      video_meta_data_to_raw_data raw.start raw.ends
          (video_raw_data_to_meta_data raw)
        = some (raw.text.map stripNewlines)) :=
  ⟨fun root hv hcl => problem_round_trip root hv hcl,
   fun raw h1 h2 h3 h4 => video_round_trip raw h1 h2 h3 h4⟩

/-- C3 witness: the amended round trip at a concrete problem tree with ten
same-tag siblings (the tenth paragraph decomposes to a bracket-indexed key)
and a concrete two-cue transcript. -/
theorem C3_round_trip_amended_witness :
    problem_meta_data_to_raw_data
        (Elem.mk "problem" none none
          [Elem.mk "p" none none [], Elem.mk "p" none none [],
           Elem.mk "p" none none [], Elem.mk "p" none none [],
           Elem.mk "p" none none [], Elem.mk "p" none none [],
           Elem.mk "p" none none [], Elem.mk "p" none none [],
           Elem.mk "p" none none [], Elem.mk "p" none (some " hi ") []])
        (problem_raw_data_to_meta_data
          (Elem.mk "problem" none none
            [Elem.mk "p" none none [], Elem.mk "p" none none [],
             Elem.mk "p" none none [], Elem.mk "p" none none [],
             Elem.mk "p" none none [], Elem.mk "p" none none [],
             Elem.mk "p" none none [], Elem.mk "p" none none [],
             Elem.mk "p" none none [], Elem.mk "p" none (some " hi ") []]))
      = some (trimElem (Elem.mk "problem" none none
            [Elem.mk "p" none none [], Elem.mk "p" none none [],
             Elem.mk "p" none none [], Elem.mk "p" none none [],
             Elem.mk "p" none none [], Elem.mk "p" none none [],
             Elem.mk "p" none none [], Elem.mk "p" none none [],
             Elem.mk "p" none none [],
             Elem.mk "p" none (some " hi ") []]).isTextInputProblem
          (Elem.mk "problem" none none
            [Elem.mk "p" none none [], Elem.mk "p" none none [],
             Elem.mk "p" none none [], Elem.mk "p" none none [],
             Elem.mk "p" none none [], Elem.mk "p" none none [],
             Elem.mk "p" none none [], Elem.mk "p" none none [],
             Elem.mk "p" none none [], Elem.mk "p" none (some " hi ") []]))
    ∧ video_meta_data_to_raw_data [0, 7] [5, 9]
        (video_raw_data_to_meta_data ⟨[0, 7], [5, 9], ["a", "b\n"]⟩)
      = some (["a", "b\n"].map stripNewlines) := by
  constructor
  · refine C3_round_trip_amended.1
      (Elem.mk "problem" none none
        [Elem.mk "p" none none [], Elem.mk "p" none none [],
         Elem.mk "p" none none [], Elem.mk "p" none none [],
         Elem.mk "p" none none [], Elem.mk "p" none none [],
         Elem.mk "p" none none [], Elem.mk "p" none none [],
         Elem.mk "p" none none [], Elem.mk "p" none (some " hi ") []])
      ?_ ?_
    · simp [Elem.validTree, validTag, Elem.tag]
    · intro _
      simp [Elem.noAnswerTextClash, pyTruthyStr]
  · refine C3_round_trip_amended.2 ⟨[0, 7], [5, 9], ["a", "b\n"]⟩
      rfl rfl ?_ (by decide)
    decide

end MetaTranslations
